import Mathlib

/-! # Chat broker (labs/lab02/backend/chatcore/chatcore.go)

A shallow embedding of the message broker and the statements of its
specification that are settled against it.

Model:

* A Go channel of messages is a reference.  References are natural numbers
  (`ChanId`) and the channels they point to live in a heap (`Heap`), so two
  identities may be registered with the same mailbox.
* A channel (`Chan`) is its capacity, the messages buffered in it (oldest
  first) and whether it has been closed.  A send on a closed channel panics, a
  send on an open channel with room appends to the buffer, and a send on an open
  channel without room does not proceed.  Subscribers that would drain a
  mailbox are not part of the broker, so a send that does not proceed is the
  outcome `Status.blocked`: the call does not return.  A nil channel and an
  unbuffered channel both behave as a channel of capacity 0.
* `b.users` is a Go map: a finite map with unique keys (`AList`).  The order in
  which `range` visits a map is not specified, so `SendMessage` takes the
  visiting order as an argument; it is a permutation of the entries of the map
  (`Broker.RangeOrder`).
* `b.ctx` is represented by what `b.ctx.Err()` returns: `none` while the
  lifecycle is active and `some e` once it has been cancelled.
* The state the broker acts on is the Go struct together with the channels its
  references point to; `Broker.chans` is that heap.
* The mutex calls do not change the data and are left out: every function is
  the sequential behaviour of one call.
-/

namespace Chatcore

/-- Message represents a chat message (chatcore.go, lines 11-17). -/
structure Message where
  Sender : String
  Recipient : String
  Content : String
  Broadcast : Bool
  Timestamp : Int
  deriving DecidableEq, Repr

/-- Reference to a channel of messages. -/
abbrev ChanId := Nat

/-- State of one channel of messages: capacity, buffered messages (oldest
first) and whether the channel has been closed. -/
structure Chan where
  cap : Nat
  buf : List Message
  closed : Bool
  deriving DecidableEq, Repr

/-- The channels that exist, by reference. -/
abbrev Heap := ChanId → Chan

/-- The two non-nil values of `ctx.Err()`. -/
inductive CtxErr where
  | Canceled
  | DeadlineExceeded
  deriving DecidableEq, Repr

/-- How a call ends: it returns an error value (`none` is the nil error), it
waits forever on a send that cannot proceed, or it panics. -/
inductive Status where
  | returned (err : Option CtxErr)
  | blocked
  | panicked
  deriving DecidableEq, Repr

/-- The channels after a statement together with how the statement ended. -/
structure HeapResult where
  heap : Heap
  status : Status

/-- Broker handles message routing between users (chatcore.go, lines 22-28).
`ctx` is the value of `b.ctx.Err()`, `input` the messages queued in `b.input`
(oldest first), `users` the registry, `done` whether `b.done` has been closed,
`chans` the channels that the references in `users` point to. -/
structure Broker where
  ctx : Option CtxErr
  input : List Message
  users : AList (fun _ : String => ChanId)
  done : Bool
  chans : Heap

/-- The broker after a call together with how the call ended. -/
structure Result where
  broker : Broker
  status : Status

/-- Capacity of the inbound queue made by `NewBroker`. -/
def inputCapacity : Nat := 100

/-- NewBroker creates a new message broker (chatcore.go, lines 31-38): empty
queue, empty registry, `done` open.  `chans` are the channels that exist. -/
def NewBroker (ctx : Option CtxErr) (chans : Heap) : Broker :=
  { ctx := ctx, input := [], users := ∅, done := false, chans := chans }

/-- The statement `ch <- msg` on the channel `h c`, with no receiver waiting. -/
def chanSend (h : Heap) (c : ChanId) (msg : Message) : HeapResult :=
  if (h c).closed then
    { heap := h, status := Status.panicked }
  else if (h c).buf.length < (h c).cap then
    { heap := Function.update h c { h c with buf := (h c).buf ++ [msg] },
      status := Status.returned none }
  else
    { heap := h, status := Status.blocked }

/-- The loop `for _, msgBuf := range b.users { msgBuf <- msg }` (chatcore.go,
lines 60-63) visiting the channels `cs` in this order.  The status
`returned none` says that the loop ran to its end. -/
def rangeSend (h : Heap) (cs : List ChanId) (msg : Message) : HeapResult :=
  match cs with
  | [] => { heap := h, status := Status.returned none }
  | c :: rest =>
    match (chanSend h c msg).status with
    | Status.returned _ => rangeSend (chanSend h c msg).heap rest msg
    | st => { heap := (chanSend h c msg).heap, status := st }

/-- An order in which `range` visits a registry. -/
abbrev Order := List (Sigma fun _ : String => ChanId)

/-- An order in which `range b.users` may visit the registry. -/
def Broker.RangeOrder (b : Broker) (order : Order) : Prop :=
  order.Perm b.users.entries

/-- The sends of `SendMessage` (chatcore.go, lines 57-78), before the return
statement. -/
def Broker.sends (b : Broker) (order : Order)
    (msg : Message) : HeapResult :=
  if msg.Broadcast then
    rangeSend b.chans (order.map Sigma.snd) msg
  else
    match b.users.lookup msg.Recipient with
    | some c => chanSend b.chans c msg
    | none => { heap := b.chans, status := Status.returned none }

/-- SendMessage sends a message to the broker (chatcore.go, lines 55-81).
`order` is the order in which the broadcast loop visits the registry.  The
return statement `return b.ctx.Err()` is reached when the sends have all
proceeded. -/
def Broker.SendMessage (b : Broker) (order : Order)
    (msg : Message) : Result :=
  match (b.sends order msg).status with
  | Status.returned _ =>
    { broker := { b with chans := (b.sends order msg).heap }, status := Status.returned b.ctx }
  | st => { broker := { b with chans := (b.sends order msg).heap }, status := st }

/-- RegisterUser adds a user to the broker (chatcore.go, lines 84-88). -/
def Broker.RegisterUser (b : Broker) (userID : String) (recv : ChanId) : Broker :=
  { b with users := b.users.insert userID recv }

/-- UnregisterUser removes a user from the broker (chatcore.go, lines 91-95). -/
def Broker.UnregisterUser (b : Broker) (userID : String) : Broker :=
  { b with users := b.users.erase userID }

/-! ## Vocabulary of the statements -/

/-- A mailbox with free capacity: an open channel whose buffer holds fewer
messages than its capacity, so that one send on it proceeds at once. -/
def Chan.hasFreeCapacity (c : Chan) : Prop :=
  c.closed = false ∧ c.buf.length < c.cap

instance (c : Chan) : Decidable c.hasFreeCapacity := by
  unfold Chan.hasFreeCapacity; infer_instance

/-- The channel `c` is the mailbox of some registered identity. -/
def Broker.Registered (b : Broker) (c : ChanId) : Prop :=
  ∃ id, b.users.lookup id = some c

/-- Number of identities registered with the mailbox `c`. -/
def Broker.identitiesOf (b : Broker) (c : ChanId) : Nat :=
  (b.users.entries.map Sigma.snd).count c

/-- Number of sends on the channel `c` that `SendMessage` makes for `msg`: one
for each identity registered with `c` when the message is a broadcast, one when
`c` is the mailbox of the recipient of a unicast, none otherwise. -/
def Broker.copiesTo (b : Broker) (msg : Message) (c : ChanId) : Nat :=
  if msg.Broadcast then b.identitiesOf c
  else if b.users.lookup msg.Recipient = some c then 1 else 0

/-- The mailbox `c` with `n` copies of `msg` appended to its buffer. -/
def Chan.push (c : Chan) (n : Nat) (msg : Message) : Chan :=
  { c with buf := c.buf ++ List.replicate n msg }

/-! ## The loop `Run` -/

/-- Where the goroutine that executes `Run` is: at the `select` of the loop,
returned, waiting inside `SendMessage` on a send that cannot proceed, or
panicked. -/
inductive Phase where
  | running
  | stopped
  | blocked
  | panicked
  deriving DecidableEq, Repr

/-- State of the broker together with the place of its loop. -/
structure LoopState where
  broker : Broker
  phase : Phase

/-- The case that the `select` of `Run` takes: `case <-b.ctx.Done()` or
`case msg := <-b.input`. -/
inductive Select where
  | ctxDone
  | recv
  deriving DecidableEq, Repr

/-- The place of the loop after `b.SendMessage(msg)`; `Run` drops the error
that the call returns. -/
def Phase.ofStatus (st : Status) : Phase :=
  match st with
  | Status.returned _ => Phase.running
  | Status.blocked => Phase.blocked
  | Status.panicked => Phase.panicked

/-- One iteration of the loop of `Run` (chatcore.go, lines 42-51) in which the
`select` takes the case `pick`; `none` when that case is not ready or the loop
is not at its `select`.  The case `ctxDone` is ready once the context is
cancelled: it closes `b.done` (closing a closed channel panics) and returns.
The case `recv` is ready when a message is queued: it takes the oldest one and
calls `SendMessage`. -/
def Run.step (pick : Select) (order : Order) (l : LoopState) : Option LoopState :=
  match l.phase with
  | Phase.running =>
    match pick with
    | Select.ctxDone =>
      if l.broker.ctx.isSome then
        if l.broker.done then some { broker := l.broker, phase := Phase.panicked }
        else some { broker := { l.broker with done := true }, phase := Phase.stopped }
      else none
    | Select.recv =>
      match l.broker.input with
      | [] => none
      | msg :: rest =>
        some { broker := (Broker.SendMessage { l.broker with input := rest } order msg).broker,
               phase := Phase.ofStatus
                 (Broker.SendMessage { l.broker with input := rest } order msg).status }
  | _ => none

/-- The iterations of the loop under a schedule: for each iteration the case
its `select` takes and the order in which a broadcast visits the registry. -/
def Run.steps (sched : List (Select × Order)) (l : LoopState) : Option LoopState :=
  match sched with
  | [] => some l
  | (pick, order) :: rest =>
    match Run.step pick order l with
    | some l1 => Run.steps rest l1
    | none => none

/-- The step relation of the loop of `Run`: one iteration, for some case that
the `select` may take and some order in which a broadcast may visit the
registry. -/
def Run.Step (l l1 : LoopState) : Prop :=
  ∃ pick order, l.broker.RangeOrder order ∧ Run.step pick order l = some l1

/-- Run starts the broker event loop (chatcore.go, lines 41-52): the loop
entered on the broker `b` and executed under the schedule `sched`. -/
def Broker.Run (b : Broker) (sched : List (Select × Order)) : Option LoopState :=
  Run.steps sched { broker := b, phase := Phase.running }

/-- Specification side of the refinement of `Run`: calling `SendMessage` on
each message of a list in order, as a caller does that waits for each call to
return before it makes the next. -/
def Broker.sendAll (b : Broker) (calls : List (Order × Message)) : Result :=
  match calls with
  | [] => { broker := b, status := Status.returned none }
  | (order, msg) :: rest =>
    match (b.SendMessage order msg).status with
    | Status.returned _ => Broker.sendAll (b.SendMessage order msg).broker rest
    | st => { broker := (b.SendMessage order msg).broker, status := st }

/-- Number of sends on the channel `c` that delivering all of `msgs` makes. -/
def Broker.demand (b : Broker) (msgs : List Message) (c : ChanId) : Nat :=
  (msgs.map fun msg => b.copiesTo msg c).sum

/-! ## The calls with their events

The same calls as above, each returning also the events it performs, in order:
the calls on `usersMutex`, the accesses to the map `b.users`, the sends on
mailboxes, the receive from `b.input` and the operations on the context and on
`b.done`.  An event is recorded when the operation has been performed: a send
that panics or does not proceed records nothing. -/

/-- The operations of the broker on its shared state. -/
inductive Event where
  | RLock
  | RUnlock
  | Lock
  | Unlock
  | readUsers
  | writeUsers
  | send (c : ChanId)
  | recvInput
  | ctxDone
  | ctxErr
  | closeDone
  deriving DecidableEq, Repr

/-- The loop of a broadcast (chatcore.go, lines 60-63) with its events: the
loop reads the map to fetch each entry and once more to find that none is
left. -/
def rangeSendT (h : Heap) (cs : List ChanId) (msg : Message) : HeapResult × List Event :=
  match cs with
  | [] => ({ heap := h, status := Status.returned none }, [Event.readUsers])
  | c :: rest =>
    match (chanSend h c msg).status with
    | Status.returned _ =>
      ((rangeSendT (chanSend h c msg).heap rest msg).1,
        Event.readUsers :: Event.send c :: (rangeSendT (chanSend h c msg).heap rest msg).2)
    | st => ({ heap := (chanSend h c msg).heap, status := st }, [Event.readUsers])

/-- `SendMessage` (chatcore.go, lines 55-81) with its events.  The unicast
reads the map twice: `b.users[msg.Recipient]` at line 71 and again at line 74
when the recipient was found. -/
def Broker.SendMessageT (b : Broker) (order : Order) (msg : Message) : Result × List Event :=
  if msg.Broadcast then
    match (rangeSendT b.chans (order.map Sigma.snd) msg).1.status with
    | Status.returned _ =>
      ({ broker := { b with chans := (rangeSendT b.chans (order.map Sigma.snd) msg).1.heap },
         status := Status.returned b.ctx },
        [Event.RLock] ++ (rangeSendT b.chans (order.map Sigma.snd) msg).2
          ++ [Event.RUnlock, Event.ctxErr])
    | st =>
      ({ broker := { b with chans := (rangeSendT b.chans (order.map Sigma.snd) msg).1.heap },
         status := st },
        [Event.RLock] ++ (rangeSendT b.chans (order.map Sigma.snd) msg).2)
  else
    match b.users.lookup msg.Recipient with
    | some c =>
      match (chanSend b.chans c msg).status with
      | Status.returned _ =>
        ({ broker := { b with chans := (chanSend b.chans c msg).heap },
           status := Status.returned b.ctx },
          [Event.RLock, Event.readUsers, Event.readUsers, Event.send c, Event.RUnlock,
            Event.ctxErr])
      | st =>
        ({ broker := { b with chans := (chanSend b.chans c msg).heap }, status := st },
          [Event.RLock, Event.readUsers, Event.readUsers])
    | none =>
      ({ broker := b, status := Status.returned b.ctx },
        [Event.RLock, Event.readUsers, Event.RUnlock, Event.ctxErr])

/-- `RegisterUser` (chatcore.go, lines 84-88) with its events. -/
def Broker.RegisterUserT (b : Broker) (userID : String) (recv : ChanId) :
    Broker × List Event :=
  ({ b with users := b.users.insert userID recv },
    [Event.Lock, Event.writeUsers, Event.Unlock])

/-- `UnregisterUser` (chatcore.go, lines 91-95) with its events. -/
def Broker.UnregisterUserT (b : Broker) (userID : String) : Broker × List Event :=
  ({ b with users := b.users.erase userID },
    [Event.Lock, Event.writeUsers, Event.Unlock])

/-- One iteration of the loop of `Run` (chatcore.go, lines 42-51) with its
events. -/
def Run.stepT (pick : Select) (order : Order) (l : LoopState) :
    Option (LoopState × List Event) :=
  match l.phase with
  | Phase.running =>
    match pick with
    | Select.ctxDone =>
      if l.broker.ctx.isSome then
        if l.broker.done then
          some ({ broker := l.broker, phase := Phase.panicked }, [Event.ctxDone])
        else
          some ({ broker := { l.broker with done := true }, phase := Phase.stopped },
            [Event.ctxDone, Event.closeDone])
      else none
    | Select.recv =>
      match l.broker.input with
      | [] => none
      | msg :: rest =>
        some ({ broker := (Broker.SendMessageT { l.broker with input := rest } order msg).1.broker,
                phase := Phase.ofStatus
                  (Broker.SendMessageT { l.broker with input := rest } order msg).1.status },
          Event.recvInput :: (Broker.SendMessageT { l.broker with input := rest } order msg).2)
  | _ => none

/-- How the goroutine that performs the events holds `usersMutex`: the number
of shared holds, and whether it holds the lock exclusively. -/
structure LockState where
  shared : Nat
  exclusive : Bool
  deriving DecidableEq, Repr

/-- The goroutine does not hold the lock. -/
def LockState.free : LockState :=
  { shared := 0, exclusive := false }

/-- The lock discipline of a sequence of events performed by one goroutine
that starts with the holds `ls`: every read of the map happens under a shared
hold, every write under the exclusive hold, and a hold is released only when it
is held. -/
def disciplined (ls : LockState) (events : List Event) : Bool :=
  match events with
  | [] => true
  | Event.RLock :: rest => disciplined { ls with shared := ls.shared + 1 } rest
  | Event.RUnlock :: rest =>
    decide (0 < ls.shared) && disciplined { ls with shared := ls.shared - 1 } rest
  | Event.Lock :: rest => disciplined { ls with exclusive := true } rest
  | Event.Unlock :: rest => ls.exclusive && disciplined { ls with exclusive := false } rest
  | Event.readUsers :: rest => decide (0 < ls.shared) && disciplined ls rest
  | Event.writeUsers :: rest => ls.exclusive && disciplined ls rest
  | _ :: rest => disciplined ls rest

/-- Whether a sequence of events has a receive from the inbound queue. -/
def receivesInput (events : List Event) : Bool :=
  events.contains Event.recvInput

/-! ## Two goroutines: a call of `SendMessage` and a registry call

The interleavings of one call of `SendMessage` with one call of `RegisterUser`
or `UnregisterUser` on the same broker.  `usersMutex` is the number of
goroutines that hold it shared and whether it is held exclusively: `RLock`
proceeds when the lock is not held exclusively, `Lock` when it is not held at
all.  A step is one statement of one of the two calls; `none` says that the
call cannot take a step now (it waits, or it is over). -/

/-- Where a call of `SendMessage` is: before `RLock`; holding the shared
lock with sends left to make; after `RUnlock`; returned; or panicked in a
send, the shared lock still held. -/
inductive SendPc where
  | start
  | sending (pending : List ChanId)
  | unlocked
  | returned (err : Option CtxErr)
  | panicked
  deriving DecidableEq, Repr

/-- Whether the call of `SendMessage` holds the shared lock. -/
def SendPc.holds (pc : SendPc) : Bool :=
  match pc with
  | SendPc.sending _ => true
  | SendPc.panicked => true
  | _ => false

/-- The registry call: `RegisterUser(userID, recv)` or
`UnregisterUser(userID)`. -/
inductive RegOp where
  | register (userID : String) (recv : ChanId)
  | unregister (userID : String)
  deriving DecidableEq, Repr

/-- The effect of the registry call on the broker. -/
def RegOp.apply (op : RegOp) (b : Broker) : Broker :=
  match op with
  | RegOp.register userID recv => b.RegisterUser userID recv
  | RegOp.unregister userID => b.UnregisterUser userID

/-- Where a registry call is: before `Lock`; holding the lock, before the
write to the map; after the write, before `Unlock`; returned. -/
inductive RegPc where
  | start
  | locked
  | written
  | returned
  deriving DecidableEq, Repr

/-- Whether the registry call holds the exclusive lock. -/
def RegPc.holds (pc : RegPc) : Bool :=
  match pc with
  | RegPc.locked => true
  | RegPc.written => true
  | _ => false

/-- Whether the registry call has written to the map. -/
def RegPc.wrote (pc : RegPc) : Bool :=
  match pc with
  | RegPc.written => true
  | RegPc.returned => true
  | _ => false

/-- The broker, its lock and the two calls. -/
structure Sys where
  broker : Broker
  readers : Nat
  writer : Bool
  msg : Message
  sender : SendPc
  op : RegOp
  registrar : RegPc

/-- The two goroutines. -/
inductive Tid where
  | sender
  | registrar
  deriving DecidableEq, Repr

/-- Both calls about to start on the broker `b`, the lock free. -/
def Sys.init (b : Broker) (msg : Message) (op : RegOp) : Sys :=
  { broker := b, readers := 0, writer := false, msg := msg, sender := SendPc.start,
    op := op, registrar := RegPc.start }

/-- The next statement of the call of `SendMessage` (chatcore.go, lines
55-81).  At `RLock` a broadcast fixes the order `order` in which it visits the
map, a unicast looks its recipient up. -/
def Sys.stepSender (order : Order) (s : Sys) : Option Sys :=
  match s.sender with
  | SendPc.start =>
    if s.writer then none
    else if s.msg.Broadcast then
      if order.Perm s.broker.users.entries then
        some { s with readers := s.readers + 1,
                      sender := SendPc.sending (order.map Sigma.snd) }
      else none
    else
      match s.broker.users.lookup s.msg.Recipient with
      | some c => some { s with readers := s.readers + 1, sender := SendPc.sending [c] }
      | none => some { s with readers := s.readers + 1, sender := SendPc.sending [] }
  | SendPc.sending [] =>
    some { s with readers := s.readers - 1, sender := SendPc.unlocked }
  | SendPc.sending (c :: rest) =>
    match (chanSend s.broker.chans c s.msg).status with
    | Status.returned _ =>
      some { s with broker := { s.broker with chans := (chanSend s.broker.chans c s.msg).heap },
                    sender := SendPc.sending rest }
    | Status.blocked => none
    | Status.panicked => some { s with sender := SendPc.panicked }
  | SendPc.unlocked => some { s with sender := SendPc.returned s.broker.ctx }
  | SendPc.returned _ => none
  | SendPc.panicked => none

/-- The next statement of the registry call (chatcore.go, lines 84-95). -/
def Sys.stepRegistrar (s : Sys) : Option Sys :=
  match s.registrar with
  | RegPc.start =>
    if s.readers = 0 ∧ s.writer = false then
      some { s with writer := true, registrar := RegPc.locked }
    else none
  | RegPc.locked =>
    some { s with broker := s.op.apply s.broker, registrar := RegPc.written }
  | RegPc.written => some { s with writer := false, registrar := RegPc.returned }
  | RegPc.returned => none

/-- The state `s` with the mailboxes `chans` and the call of `SendMessage` at
`pc`. -/
def Sys.withSender (s : Sys) (chans : Heap) (pc : SendPc) : Sys :=
  { s with broker := { s.broker with chans := chans }, sender := pc }

/-- The mailboxes that `SendMessage` sends on, in order: those of the entries
of the map in the visiting order for a broadcast, the one of the recipient,
when it is registered, for a unicast. -/
def Broker.targets (b : Broker) (order : Order) (msg : Message) : List ChanId :=
  if msg.Broadcast then order.map Sigma.snd
  else
    match b.users.lookup msg.Recipient with
    | some c => [c]
    | none => []

/-- One step of the goroutine `t`. -/
def Sys.step (t : Tid) (order : Order) (s : Sys) : Option Sys :=
  match t with
  | Tid.sender => s.stepSender order
  | Tid.registrar => s.stepRegistrar

/-- An interleaving: the goroutines that step, in order. -/
def Sys.run (sched : List (Tid × Order)) (s : Sys) : Option Sys :=
  match sched with
  | [] => some s
  | (t, order) :: rest =>
    match s.step t order with
    | some s1 => Sys.run rest s1
    | none => none

/-- No goroutine can take a step. -/
def Sys.Stuck (s : Sys) : Prop :=
  ∀ t order, s.step t order = none

/-- The sends that the call of `SendMessage` has still to make all proceed,
as seen from the state `s`. -/
def Sys.Room (s : Sys) : Prop :=
  match s.sender with
  | SendPc.start =>
    ∀ c, 0 < s.broker.copiesTo s.msg c →
      (s.broker.chans c).closed = false ∧
        (s.broker.chans c).buf.length + s.broker.copiesTo s.msg c ≤ (s.broker.chans c).cap
  | SendPc.sending pending =>
    ∀ c ∈ pending,
      (s.broker.chans c).closed = false ∧
        (s.broker.chans c).buf.length + pending.count c ≤ (s.broker.chans c).cap
  | SendPc.unlocked => True
  | SendPc.returned _ => True
  | SendPc.panicked => False

/-- What holds in every state of an interleaving that starts from
`Sys.init b msg op` with room for the sends: the lock is held by exactly the
calls that are between their lock and unlock statements, never by both; the
registry is the one of `b` until the registry call writes it; and as long as
the registry call has not taken the lock the remaining sends all proceed. -/
def Sys.Inv (b : Broker) (op : RegOp) (s : Sys) : Prop :=
  s.op = op ∧
  s.readers = (if s.sender.holds then 1 else 0) ∧
  s.writer = s.registrar.holds ∧
  (s.sender.holds = true → s.registrar.holds = false) ∧
  s.broker.users = (if s.registrar.wrote then (op.apply b).users else b.users) ∧
  (s.registrar = RegPc.start → s.Room)

/-- An upper bound on the number of steps that are left. -/
def Sys.measure (s : Sys) : Nat :=
  (match s.sender with
    | SendPc.start =>
      s.broker.users.entries.length + (if s.registrar.wrote then 0 else 1) + 4
    | SendPc.sending pending => pending.length + 2
    | SendPc.unlocked => 1
    | SendPc.returned _ => 0
    | SendPc.panicked => 0) +
  (match s.registrar with
    | RegPc.start => 3
    | RegPc.locked => 2
    | RegPc.written => 1
    | RegPc.returned => 0)

/-! ## Concrete states -/

namespace Example

/-- Every channel has capacity 2, is empty and open. -/
def roomy : Heap := fun _ => { cap := 2, buf := [], closed := false }

/-- The broadcast of the scenario of the specification. -/
def hi : Message :=
  { Sender := "carol", Recipient := "", Content := "hi", Broadcast := true, Timestamp := 0 }

/-- The unicast of the scenario of the specification. -/
def bye : Message :=
  { Sender := "carol", Recipient := "bob", Content := "bye", Broadcast := false, Timestamp := 1 }

/-- Registry with "alice" on mailbox 0 and "bob" on mailbox 1, both of
capacity 2 and empty. -/
def aliceBob : Broker :=
  ((NewBroker none roomy).RegisterUser "alice" 0).RegisterUser "bob" 1

/-- Registry with "alice" and "bob" on the same mailbox 0, of capacity 2 and
empty. -/
def shared : Broker :=
  ((NewBroker none roomy).RegisterUser "alice" 0).RegisterUser "bob" 0

/-- Every channel has capacity 1, is empty and open. -/
def single : Heap := fun _ => { cap := 1, buf := [], closed := false }

/-- Registry with "alice" and "bob" on the same mailbox 0, of capacity 1 and
empty. -/
def sharedSingle : Broker :=
  ((NewBroker none single).RegisterUser "alice" 0).RegisterUser "bob" 0

/-- Every channel has capacity 1, is open and holds one message: it is full. -/
def fullBox : Heap := fun _ => { cap := 1, buf := [hi], closed := false }

/-- Registry with "bob" on mailbox 1, which is full. -/
def stalled (ctx : Option CtxErr) : Broker :=
  (NewBroker ctx fullBox).RegisterUser "bob" 1

/-- The broker `aliceBob` after its lifecycle has been cancelled. -/
def cancelled : Broker :=
  ((NewBroker (some CtxErr.Canceled) roomy).RegisterUser "alice" 0).RegisterUser "bob" 1

/-- The broker `aliceBob` after the broadcast `hi` has been delivered. -/
def afterHi : Broker :=
  (aliceBob.SendMessage aliceBob.users.entries hi).broker

/-- The broker `aliceBob` with the broadcast `hi` and then the unicast `bye`
in its inbound queue. -/
def queued : Broker :=
  { aliceBob with input := [hi, bye] }

/-- The loop at its `select` on the cancelled broker, with a message queued. -/
def atSelect : LoopState :=
  { broker := { cancelled with input := [bye] }, phase := Phase.running }

/-- The loop of `atSelect` after it has taken the cancellation case. -/
def afterStop : LoopState :=
  { broker := { cancelled with input := [bye], done := true }, phase := Phase.stopped }

/-- The broadcast `hi` to "alice" and "bob" and `RegisterUser("dave", 2)` about
to start. -/
def racing : Sys :=
  Sys.init aliceBob hi (RegOp.register "dave" 2)

/-- An interleaving of `racing`: the broadcast takes the lock, the registry
call has to wait, the broadcast sends twice, releases the lock and returns,
and then the registry call runs. -/
def raceSchedule : List (Tid × Order) :=
  [(Tid.sender, aliceBob.users.entries), (Tid.sender, []), (Tid.sender, []),
   (Tid.sender, []), (Tid.sender, []), (Tid.registrar, []), (Tid.registrar, []),
   (Tid.registrar, [])]

/-- The state at the end of `raceSchedule`. -/
def raced : Sys :=
  (Sys.run raceSchedule racing).getD racing

/-- A unicast to "bob", whose mailbox is full, and `RegisterUser("dave", 2)`
about to start. -/
def contended : Sys :=
  Sys.init (stalled none) bye (RegOp.register "dave" 2)

/-- The state `contended` after the call of `SendMessage` has taken the shared
lock: it waits on the full mailbox of "bob". -/
def contendedLocked : Sys :=
  { contended with readers := 1, sender := SendPc.sending [1] }

end Example

end Chatcore

/-! # Message history store (labs/lab02/backend/message/message.go)

Model:

* A Go slice is a reference to a backing array together with a length and a
  capacity; the slices of this package all start at index 0 of their array.
  Backing arrays live in a memory (`Mem`), so that two slices can share an
  array and a write through one is seen through the other.
* `make` allocates a fresh array filled with zero values.  `append` writes in
  place when the slice has room and otherwise copies the elements to a fresh,
  larger array.  The capacity of the larger array is chosen by the Go runtime:
  it is the parameter `grow`, and it is at least the new length.
* The mutex calls do not change the data and are left out.
-/

namespace MessagePkg

/-- Message represents a chat message (message.go, lines 9-13). -/
structure Message where
  Sender : String
  Content : String
  Timestamp : Int
  deriving DecidableEq, Repr

/-- The zero value of `Message`. -/
def Message.zero : Message :=
  { Sender := "", Content := "", Timestamp := 0 }

/-- Reference to a backing array. -/
abbrev ArrId := Nat

/-- The backing arrays, by reference; the references below `next` are in use. -/
structure Mem where
  arrays : ArrId → List Message
  next : ArrId

/-- Slice value: backing array, length and capacity. -/
structure Slice where
  arr : ArrId
  len : Nat
  cap : Nat
  deriving DecidableEq, Repr

/-- The sequence of elements that a slice shows in a memory. -/
def Slice.elems (s : Slice) (m : Mem) : List Message :=
  (m.arrays s.arr).take s.len

/-- What holds of every slice value in Go: its array is allocated and its
length is at most its capacity, which is at most the length of the array. -/
def Slice.Valid (s : Slice) (m : Mem) : Prop :=
  s.arr < m.next ∧ s.len ≤ s.cap ∧ s.cap ≤ (m.arrays s.arr).length

/-- Memory and slice that a slice expression yields. -/
structure SliceResult where
  mem : Mem
  slice : Slice

/-- The expression `make([]Message, 0, cap)`. -/
def makeSlice (m : Mem) (cap : Nat) : SliceResult :=
  { mem := { arrays := Function.update m.arrays m.next (List.replicate cap Message.zero),
             next := m.next + 1 },
    slice := { arr := m.next, len := 0, cap := cap } }

/-- The expression `append(s, x)`. -/
def appendSlice (grow : Nat → Nat) (m : Mem) (s : Slice) (x : Message) : SliceResult :=
  if s.len < s.cap then
    { mem := { m with arrays := Function.update m.arrays s.arr ((m.arrays s.arr).set s.len x) },
      slice := { s with len := s.len + 1 } }
  else
    { mem := { arrays := Function.update m.arrays m.next
                 (s.elems m ++ [x] ++
                   List.replicate (max (grow s.cap) (s.len + 1) - (s.len + 1)) Message.zero),
               next := m.next + 1 },
      slice := { arr := m.next, len := s.len + 1, cap := max (grow s.cap) (s.len + 1) } }

/-- MessageStore stores chat messages (message.go, lines 18-21). -/
structure MessageStore where
  messages : Slice
  deriving DecidableEq, Repr

/-- Memory and store after a call that returns or changes a store. -/
structure StoreResult where
  mem : Mem
  store : MessageStore
  err : Option String

/-- NewMessageStore creates a new MessageStore (message.go, lines 24-28). -/
def NewMessageStore (m : Mem) : StoreResult :=
  { mem := (makeSlice m 100).mem, store := { messages := (makeSlice m 100).slice }, err := none }

/-- AddMessage stores a new message (message.go, lines 31-37). -/
def MessageStore.AddMessage (grow : Nat → Nat) (s : MessageStore) (m : Mem) (msg : Message) :
    StoreResult :=
  { mem := (appendSlice grow m s.messages msg).mem,
    store := { messages := (appendSlice grow m s.messages msg).slice },
    err := none }

/-- The loop of `GetMessages` (message.go, lines 44-51): `n` iterations are
left, the next one reads index `i` of the array of `src`. -/
def collect (grow : Nat → Nat) (user : String) (src : Slice) :
    Nat → Nat → Mem → Slice → SliceResult
  | 0, _, m, res => { mem := m, slice := res }
  | n + 1, i, m, res =>
    if user.length ≠ 0 ∧ ((m.arrays src.arr).getD i Message.zero).Sender ≠ user then
      collect grow user src n (i + 1) m res
    else
      collect grow user src n (i + 1)
        (appendSlice grow m res ((m.arrays src.arr).getD i Message.zero)).mem
        (appendSlice grow m res ((m.arrays src.arr).getD i Message.zero)).slice

/-- Memory, returned slice and returned error of `GetMessages`. -/
structure GetResult where
  mem : Mem
  res : Slice
  err : Option String

/-- GetMessages retrieves messages, optionally by user (message.go, lines
40-55). -/
def MessageStore.GetMessages (grow : Nat → Nat) (s : MessageStore) (m : Mem) (user : String) :
    GetResult :=
  { mem := (collect grow user s.messages s.messages.len 0
              (makeSlice m 100).mem (makeSlice m 100).slice).mem,
    res := (collect grow user s.messages s.messages.len 0
              (makeSlice m 100).mem (makeSlice m 100).slice).slice,
    err := none }

/-- Appending the messages of a list to a store, one `AddMessage` call after
the other. -/
def MessageStore.addAll (grow : Nat → Nat) (s : MessageStore) (m : Mem) :
    List Message → StoreResult
  | [] => { mem := m, store := s, err := none }
  | msg :: rest =>
    MessageStore.addAll grow (s.AddMessage grow m msg).store (s.AddMessage grow m msg).mem rest

/-- The messages of a list that `GetMessages(user)` keeps. -/
def keptBy (user : String) (msgs : List Message) : List Message :=
  msgs.filter fun msg => decide (user = "" ∨ msg.Sender = user)

namespace Example

/-- The empty memory. -/
def mem0 : Mem := { arrays := fun _ => [], next := 0 }

/-- The runtime doubles the capacity when a slice grows. -/
def double (cap : Nat) : Nat := 2 * cap

/-- The three messages of the scenario of the specification. -/
def m1 : Message := { Sender := "alice", Content := "m1", Timestamp := 1 }

/-- Second message of the scenario. -/
def m2 : Message := { Sender := "bob", Content := "m2", Timestamp := 2 }

/-- Third message of the scenario. -/
def m3 : Message := { Sender := "alice", Content := "m3", Timestamp := 3 }

/-- The store of the scenario: a new store with the three messages appended. -/
def scenario : StoreResult :=
  (NewMessageStore mem0).store.addAll double (NewMessageStore mem0).mem [m1, m2, m3]

/-- A new store with `m1` appended. -/
def one : StoreResult :=
  (NewMessageStore mem0).store.addAll double (NewMessageStore mem0).mem [m1]

end Example

end MessagePkg

/-! # Task manager (labs/lab01/backend/taskmanager/taskmanager.go)

Model:

* `tm.tasks` is a Go map from `int` to `Task`: a finite map with unique keys
  (`AList`).  A manager is made by `NewTaskManager`; the zero value of the
  struct, whose map is nil, is not modelled.
* `int` is the 64-bit signed integer: `tm.nextID++` wraps around (`wrapInt`).
* `time.Time` is an instant, an integer; `time.Now()` is an argument of
  `AddTask`.
-/

namespace Taskmanager

/-- Predefined errors (taskmanager.go, lines 9-12). -/
inductive Error where
  | ErrTaskNotFound
  | ErrEmptyTitle
  deriving DecidableEq, Repr

/-- An instant, the value of a `time.Time`. -/
abbrev Time := Int

/-- Task represents a single task (taskmanager.go, lines 15-21). -/
structure Task where
  ID : Int
  Title : String
  Description : String
  Done : Bool
  CreatedAt : Time
  deriving DecidableEq, Repr

/-- The zero value `Task{}`. -/
def Task.zero : Task :=
  { ID := 0, Title := "", Description := "", Done := false, CreatedAt := 0 }

/-- TaskManager manages a collection of tasks (taskmanager.go, lines 24-27). -/
structure TaskManager where
  tasks : AList (fun _ : Int => Task)
  nextID : Int

/-- The value of a 64-bit signed integer after an arithmetic operation whose
exact result is `x`. -/
def wrapInt (x : Int) : Int :=
  (x + 2 ^ 63) % 2 ^ 64 - 2 ^ 63

/-- NewTaskManager creates a new task manager (taskmanager.go, lines 30-32). -/
def NewTaskManager : TaskManager :=
  { tasks := ∅, nextID := 1 }

/-- Manager, returned task and returned error of `AddTask`. -/
structure AddResult where
  tm : TaskManager
  task : Task
  err : Option Error

/-- AddTask adds a new task to the manager (taskmanager.go, lines 35-49);
`now` is the value of `time.Now()`. -/
def TaskManager.AddTask (tm : TaskManager) (now : Time) (title description : String) :
    AddResult :=
  if title.length = 0 then
    { tm := tm, task := Task.zero, err := some Error.ErrEmptyTitle }
  else
    { tm := { tasks := tm.tasks.insert tm.nextID
                { ID := tm.nextID, Title := title, Description := description,
                  Done := false, CreatedAt := now },
              nextID := wrapInt (tm.nextID + 1) },
      task := { ID := tm.nextID, Title := title, Description := description,
                Done := false, CreatedAt := now },
      err := none }

/-- The assignments `task.Title = title`, `task.Description = description`,
`task.Done = done` of `UpdateTask` (taskmanager.go, lines 65-67). -/
def Task.updated (task : Task) (title description : String) (done : Bool) : Task :=
  { task with Title := title, Description := description, Done := done }

/-- Manager and returned error of `UpdateTask` and `DeleteTask`. -/
structure UpdateResult where
  tm : TaskManager
  err : Option Error

/-- UpdateTask updates an existing task, returns an error if the title is
empty or the task is not found (taskmanager.go, lines 52-71). -/
def TaskManager.UpdateTask (tm : TaskManager) (id : Int) (title description : String)
    (done : Bool) : UpdateResult :=
  if title.length = 0 then
    { tm := tm, err := some Error.ErrEmptyTitle }
  else
    match tm.tasks.lookup id with
    | none => { tm := tm, err := some Error.ErrTaskNotFound }
    | some task =>
      { tm := { tm with tasks := tm.tasks.insert id (task.updated title description done) },
        err := none }

/-- DeleteTask removes a task from the manager, returns an error if the task
is not found (taskmanager.go, lines 74-85). -/
def TaskManager.DeleteTask (tm : TaskManager) (id : Int) : UpdateResult :=
  match tm.tasks.lookup id with
  | none => { tm := tm, err := some Error.ErrTaskNotFound }
  | some _ => { tm := { tm with tasks := tm.tasks.erase id }, err := none }

/-- GetTask retrieves a task by ID (taskmanager.go, lines 88-96); a missing
key reads as the zero value. -/
def TaskManager.GetTask (tm : TaskManager) (id : Int) : Task × Option Error :=
  match tm.tasks.lookup id with
  | none => (Task.zero, some Error.ErrTaskNotFound)
  | some task => (task, none)

/-- Manager and returned slice of `ListTasks`. -/
structure ListResult where
  tm : TaskManager
  res : List Task

/-- The condition `(filterDone == nil) || (task.Done == *filterDone)` of
`ListTasks` (taskmanager.go, line 102). -/
def keeps (filterDone : Option Bool) (task : Task) : Bool :=
  match filterDone with
  | none => true
  | some done => task.Done == done

/-- ListTasks returns all tasks, optionally filtered by done status
(taskmanager.go, lines 99-108).  `order` is the order in which `range` visits
the map.  `make([]Task, 0, tm.nextID-1)` panics when the capacity is negative:
the result is then `none`.  The limits of memory are not modelled. -/
def TaskManager.ListTasks (tm : TaskManager) (order : List (Sigma fun _ : Int => Task))
    (filterDone : Option Bool) : Option ListResult :=
  if wrapInt (tm.nextID - 1) < 0 then none
  else some { tm := tm, res := (order.map Sigma.snd).filter (keeps filterDone) }

/-- What holds of a manager made by `NewTaskManager` and used through its
methods: every task is stored under its own `ID`, and the IDs in use are below
`nextID`. -/
def TaskManager.WellFormed (tm : TaskManager) : Prop :=
  ∀ k t, tm.tasks.lookup k = some t → t.ID = k ∧ k < tm.nextID

namespace Example

/-- A new manager with the tasks "write" and "test" added. -/
def two : TaskManager :=
  ((NewTaskManager.AddTask 10 "write" "the report").tm.AddTask 20 "test" "the code").tm

/-- The manager `two` after task 1 has been marked done. -/
def oneDone : TaskManager :=
  (two.UpdateTask 1 "write" "the report" true).tm

end Example

end Taskmanager

/-! # Users (labs/lab01/backend/user/user.go)

Model:

* A Go string is a `String`: `len(s)` is its number of bytes in UTF-8
  (`utf8ByteSize`) and `range s` visits its characters.  Strings that are not
  valid UTF-8 are not modelled; `range` reads their stray bytes as U+FFFD, which
  is none of the characters the code looks for.
* `int` values are integers; the counters of `IsValidEmail` count characters
  of a string and are natural numbers.
* `ErrEmptyName`, which `Validate` returns, is declared nowhere in user.go; it
  is taken as one more error value.
-/

namespace UserPkg

/-- Predefined errors (user.go, lines 9-13), and `ErrEmptyName`, which
`Validate` uses and user.go does not declare. -/
inductive Error where
  | ErrInvalidName
  | ErrInvalidAge
  | ErrInvalidEmail
  | ErrEmptyName
  deriving DecidableEq, Repr

/-- The text of an error (user.go, lines 10-12). -/
def Error.text (e : Error) : String :=
  match e with
  | Error.ErrInvalidName => "invalid name: must be between 1 and 30 characters"
  | Error.ErrInvalidAge => "invalid age: must be between 0 and 150"
  | Error.ErrInvalidEmail => "invalid email format"
  | Error.ErrEmptyName => ""

/-- User represents a user in the system (user.go, lines 16-20). -/
structure User where
  Name : String
  Age : Int
  Email : String
  deriving DecidableEq, Repr

/-- The value of `atCnt` after the statement `if ch == '@' { atCnt++ ... }`. -/
def atAfter (ch : Char) (atCnt : Nat) : Nat :=
  if ch = '@' then atCnt + 1 else atCnt

/-- The value of `dotsCnt` after the statement
`if ch == '.' { if atCnt != 0 { dotsCnt++ } ... }`. -/
def dotsAfter (ch : Char) (atCnt dotsCnt : Nat) : Nat :=
  if ch = '.' ∧ atCnt ≠ 0 then dotsCnt + 1 else dotsCnt

/-- The loop of `IsValidEmail` (user.go, lines 76-100) over the characters
that are left, with the counters `readCnt`, `atCnt`, `dotsCnt`: `none` when
the loop returns false, otherwise `atCnt` and `dotsCnt` when the loop ends. -/
def emailLoop : List Char → Nat → Nat → Nat → Option (Nat × Nat)
  | [], _, atCnt, dotsCnt => some (atCnt, dotsCnt)
  | ch :: rest, readCnt, atCnt, dotsCnt =>
    if ch = '@' ∧ (atAfter ch atCnt > 1 ∨ readCnt + 1 = 1) then none
    else if ch = '.' ∧ atAfter ch atCnt > 0 ∧ dotsAfter ch (atAfter ch atCnt) dotsCnt > 1 then
      none
    else emailLoop rest (readCnt + 1) (atAfter ch atCnt)
      (dotsAfter ch (atAfter ch atCnt) dotsCnt)

/-- IsValidEmail checks if the email format is valid (user.go, lines 65-108). -/
def IsValidEmail (email : String) : Bool :=
  if email.utf8ByteSize = 0 then false
  else
    match emailLoop email.data 0 0 0 with
    | none => false
    | some (atCnt, dotsCnt) => if atCnt = 0 ∨ dotsCnt = 0 then false else true

/-- IsValidAge checks if the age is valid, returns false if the age is not
between 0 and 150 (user.go, lines 111-114): the body is `return false`. -/
def IsValidAge (_age : Int) : Bool :=
  false

/-- Validate checks if the user data is valid (user.go, lines 29-46). -/
def User.Validate (u : User) : Option Error :=
  if u.Name.utf8ByteSize = 0 then some Error.ErrEmptyName
  else if u.Age < 0 ∨ u.Age > 150 then some Error.ErrInvalidAge
  else if IsValidEmail u.Email then none
  else some Error.ErrInvalidEmail

/-- Decimal representation of an integer, what
`string(strconv.AppendInt(nil, int64(age), 10))` gives. -/
def decimal (n : Int) : String :=
  toString n

/-- The format that the comment of `String` (user.go, line 48) documents:
"Name: <name>, Age: <age>, Email: <email>". -/
def User.documentedString (u : User) : String :=
  "Name: " ++ u.Name ++ ", Age: " ++ decimal u.Age ++ ", Email: " ++ u.Email

/-- String returns a string representation of the user (user.go, lines
49-55). -/
def User.String (u : User) : String :=
  u.Name ++ " " ++ decimal u.Age ++ (" " ++ u.Email)

/-- The emails that the loop of `IsValidEmail` accepts when `r` characters
have been read before `l`: `l` splits at its first `@` into a part before,
not empty unless characters were read before, and a part after with no `@` and
exactly one dot. -/
def Good (l : List Char) (r : Nat) : Prop :=
  ∃ pre post, l = pre ++ '@' :: post ∧ '@' ∉ pre ∧ r + pre.length ≠ 0 ∧
    post.count '@' = 0 ∧ post.count '.' = 1

/-- What the text of `ErrInvalidName` and of `ErrInvalidAge` and the check of
the email ask of a user: a name of 1 to 30 characters, an age of 0 to 150 and
a valid email. -/
def User.Admissible (u : User) : Prop :=
  (1 ≤ u.Name.length ∧ u.Name.length ≤ 30) ∧ (0 ≤ u.Age ∧ u.Age ≤ 150) ∧
    IsValidEmail u.Email = true

namespace Example

/-- A user with valid data. -/
def al : User :=
  { Name := "Al", Age := 30, Email := "al@x.io" }

/-- A user whose name has 31 characters. -/
def longName : User :=
  { Name := "abcdefghijklmnopqrstuvwxyzabcde", Age := 30, Email := "al@x.io" }

end Example

end UserPkg

/-! # Message storage (labs/lab03/backend/storage/memory.go)

Model:

* `ms.Messages` is a Go map from `int` to `*models.Message`: a finite map with
  unique keys (`AList`) whose values are pointers, possibly nil.  The functions
  modelled here do not read or write the messages pointed to.
* The mutex calls do not change the data and are left out.
-/

namespace Storage

/-- Common errors (memory.go, lines 117-120). -/
inductive Error where
  | ErrMessageNotFound
  | ErrInvalidID
  deriving DecidableEq, Repr

/-- Pointer to a `models.Message`; `none` is the nil pointer. -/
abbrev MsgPtr := Option Nat

/-- MemoryStorage implements in-memory storage for messages (memory.go, lines
11-15). -/
structure MemoryStorage where
  Messages : AList (fun _ : Int => MsgPtr)
  NextID : Int
  deriving DecidableEq

/-- NewMemoryStorage creates a new in-memory storage instance (memory.go,
lines 18-23). -/
def NewMemoryStorage : MemoryStorage :=
  { Messages := ∅, NextID := 1 }

/-- GetByID returns a message by its ID (memory.go, lines 42-54). -/
def MemoryStorage.GetByID (ms : MemoryStorage) (id : Int) : MsgPtr × Option Error :=
  match ms.Messages.lookup id with
  | some msg => (msg, none)
  | none => (none, some Error.ErrMessageNotFound)

/-- Storage and returned error of `Delete`. -/
structure DeleteResult where
  ms : MemoryStorage
  err : Option Error
  deriving DecidableEq

/-- Delete removes a message from storage (memory.go, lines 91-109). -/
def MemoryStorage.Delete (ms : MemoryStorage) (id : Int) : DeleteResult :=
  match ms.Messages.lookup id with
  | none => { ms := ms, err := some Error.ErrMessageNotFound }
  | some _ => { ms := { ms with Messages := ms.Messages.erase id }, err := none }

/-- Count returns the total number of messages (memory.go, lines 112-114). -/
def MemoryStorage.Count (ms : MemoryStorage) : Int :=
  ms.Messages.entries.length

namespace Example

/-- A storage with messages 1, 2 and 3. -/
def three : MemoryStorage :=
  { Messages := @AList.insert Int (fun _ => MsgPtr) _ 3 (some 30)
      (@AList.insert Int (fun _ => MsgPtr) _ 2 (some 20)
        (@AList.insert Int (fun _ => MsgPtr) _ 1 (some 10) ∅)),
    NextID := 4 }

end Example

end Storage

/-! # Passwords (labs/lab05/backend/security/password.go)

Model:

* A Go string is a `String`: `len(s)` is its number of bytes in UTF-8
  (`utf8ByteSize`) and `range s` visits its characters.
* An error made by `errors.New` is its text.
-/

namespace Security

/-- StrCount counts the number of `ch` in `src` (password.go, lines 47-56). -/
def StrCount (src : String) (ch : Char) : Nat :=
  src.data.foldl (fun cnt cur => if cur = ch then cnt + 1 else cnt) 0

/-- The constant `minPasswordLength` (password.go, line 61). -/
def minPasswordLength : Nat := 6

/-- The string `lettersStr` (password.go, line 67). -/
def lettersStr : String := "qwertyuiopasdfghjklzxcvbnmQWERTYUIOPASDFGHJKLZXCVBNM"

/-- The string `digitsStr` (password.go, line 76). -/
def digitsStr : String := "0123456789"

/-- The loops of `ValidatePassword` (password.go, lines 68-73 and 77-82): the
flag is set when some character of `set` occurs in `password`. -/
def containsAny (password set : String) : Bool :=
  set.data.foldl (fun flag ch => if StrCount password ch > 0 then true else flag) false

/-- ValidatePassword checks if password meets basic requirements (password.go,
lines 59-90); `none` is the nil error. -/
def ValidatePassword (password : String) : Option String :=
  if password.utf8ByteSize < minPasswordLength then
    some "password should be at least 6 characters in length"
  else if !containsAny password lettersStr || !containsAny password digitsStr then
    some "password must contain a letter and a digit"
  else none

/-- A letter `a`-`z` or `A`-`Z`. -/
def isLetter (c : Char) : Bool :=
  (decide ('a' ≤ c) && decide (c ≤ 'z')) || (decide ('A' ≤ c) && decide (c ≤ 'Z'))

/-- A digit `0`-`9`. -/
def isDigit (c : Char) : Bool :=
  decide ('0' ≤ c) && decide (c ≤ '9')

/-- What the claim asks of a password: at least 6 characters, among them a
letter and a digit. -/
def Acceptable (password : String) : Prop :=
  6 ≤ password.length ∧ (∃ c ∈ password.data, isLetter c = true) ∧
    (∃ c ∈ password.data, isDigit c = true)

namespace Example

/-- A password of 5 characters, 8 bytes in UTF-8, with a letter and a digit. -/
def short : String := "a1ééé"

end Example

end Security

/-! # Proofs: the chat broker -/

namespace Chatcore

/-! ## Basic facts about the sends -/

theorem chanSend_of_room (h : Heap) (c : ChanId) (msg : Message)
    (hopen : (h c).closed = false) (hroom : (h c).buf.length < (h c).cap) :
    chanSend h c msg =
      { heap := Function.update h c ((h c).push 1 msg), status := Status.returned none } := by
  simp [chanSend, hopen, hroom, Chan.push]

theorem chanSend_heap_of_ne (h : Heap) (c d : ChanId) (msg : Message) (hne : d ≠ c) :
    (chanSend h c msg).heap d = h d := by
  unfold chanSend
  split
  · rfl
  · split
    · simp [Function.update_noteq hne]
    · rfl

theorem rangeSend_heap_of_not_mem (msg : Message) (cs : List ChanId) :
    ∀ (h : Heap) (d : ChanId), d ∉ cs → (rangeSend h cs msg).heap d = h d := by
  induction cs with
  | nil => intro h d _; rfl
  | cons c rest ih =>
    intro h d hd
    have hdc : d ≠ c := fun e => hd (e ▸ List.mem_cons_self _ _)
    have hdr : d ∉ rest := fun e => hd (List.mem_cons_of_mem _ e)
    unfold rangeSend
    split
    · rw [ih _ d hdr, chanSend_heap_of_ne h c d msg hdc]
    · exact chanSend_heap_of_ne h c d msg hdc

theorem rangeSend_of_room (msg : Message) (cs : List ChanId) :
    ∀ (h : Heap),
      (∀ c ∈ cs, (h c).closed = false ∧ (h c).buf.length + cs.count c ≤ (h c).cap) →
      (rangeSend h cs msg).status = Status.returned none ∧
        ∀ c, (rangeSend h cs msg).heap c = (h c).push (cs.count c) msg := by
  induction cs with
  | nil => intro h _; simp [rangeSend, Chan.push]
  | cons d rest ih =>
    intro h hroom
    have hd := hroom d (List.mem_cons_self _ _)
    have hcount : 0 < (d :: rest).count d := by simp
    have hs := chanSend_of_room h d msg hd.1 (by omega)
    have hrest : ∀ c ∈ rest,
        (Function.update h d ((h d).push 1 msg) c).closed = false ∧
          (Function.update h d ((h d).push 1 msg) c).buf.length + rest.count c
            ≤ (Function.update h d ((h d).push 1 msg) c).cap := by
      intro c hc
      by_cases hcd : c = d
      · subst hcd
        have := hroom c (List.mem_cons_self _ _)
        simp only [List.count_cons_self] at this
        simp only [Function.update_same, Chan.push, List.length_append, List.length_replicate]
        exact ⟨this.1, by omega⟩
      · have := hroom c (List.mem_cons_of_mem _ hc)
        rw [List.count_cons_of_ne hcd] at this
        simpa [Function.update_noteq hcd] using this
    have ih1 := ih (Function.update h d ((h d).push 1 msg)) hrest
    have hunf : rangeSend h (d :: rest) msg
        = rangeSend (Function.update h d ((h d).push 1 msg)) rest msg := by
      rw [rangeSend, hs]
    rw [hunf]
    refine ⟨ih1.1, fun c => ?_⟩
    rw [ih1.2 c]
    by_cases hcd : c = d
    · subst hcd
      simp [Chan.push, List.replicate_succ]
    · simp [Function.update_noteq hcd, List.count_cons_of_ne hcd]

theorem registered_iff_identitiesOf_pos (b : Broker) (c : ChanId) :
    b.Registered c ↔ 0 < b.identitiesOf c := by
  unfold Broker.Registered Broker.identitiesOf
  rw [List.count_pos_iff, List.mem_map]
  constructor
  · rintro ⟨id, hid⟩
    exact ⟨⟨id, c⟩, AList.mem_lookup_iff.mp hid, rfl⟩
  · rintro ⟨⟨id, d⟩, hmem, hd⟩
    simp only at hd
    subst hd
    exact ⟨id, AList.mem_lookup_iff.mpr hmem⟩

theorem identitiesOf_le (b : Broker) (c : ChanId) :
    b.identitiesOf c ≤ b.users.entries.length := by
  unfold Broker.identitiesOf
  exact (List.count_le_length _ _).trans (by simp)

theorem count_order_eq_identitiesOf (b : Broker) (order : Order) (ho : b.RangeOrder order)
    (c : ChanId) : (order.map Sigma.snd).count c = b.identitiesOf c :=
  List.Perm.count_eq (List.Perm.map _ ho) c

theorem copiesTo_pos_registered (b : Broker) (msg : Message) (c : ChanId)
    (h : 0 < b.copiesTo msg c) : b.Registered c := by
  unfold Broker.copiesTo at h
  split at h
  · exact (registered_iff_identitiesOf_pos b c).mpr h
  · split at h
    · exact ⟨msg.Recipient, by assumption⟩
    · omega

/-- The sends of `SendMessage` do not touch a channel that the message is not
sent on, however the call ends. -/
theorem sends_heap_of_copiesTo_zero (b : Broker) (order : Order) (msg : Message)
    (ho : b.RangeOrder order) (c : ChanId) (hc : b.copiesTo msg c = 0) :
    (b.sends order msg).heap c = b.chans c := by
  unfold Broker.copiesTo at hc
  unfold Broker.sends
  split
  · rename_i hb
    rw [if_pos hb, ← count_order_eq_identitiesOf b order ho c] at hc
    exact rangeSend_heap_of_not_mem msg _ _ c (List.count_eq_zero.mp hc)
  · rename_i hb
    rw [if_neg hb] at hc
    split
    · rename_i d hd
      have hne : c ≠ d := by
        intro e
        subst e
        simp [hd] at hc
      exact chanSend_heap_of_ne _ _ _ _ hne
    · rfl

/-- When every channel the message is sent on is open and has room for the
copies sent on it, the sends all proceed and append those copies. -/
theorem sends_of_room (b : Broker) (order : Order) (msg : Message)
    (ho : b.RangeOrder order)
    (hroom : ∀ c, 0 < b.copiesTo msg c →
      (b.chans c).closed = false ∧ (b.chans c).buf.length + b.copiesTo msg c ≤ (b.chans c).cap) :
    (b.sends order msg).status = Status.returned none ∧
      ∀ c, (b.sends order msg).heap c = (b.chans c).push (b.copiesTo msg c) msg := by
  by_cases hb : msg.Broadcast = true
  · have hcopies : ∀ c, b.copiesTo msg c = (order.map Sigma.snd).count c := by
      intro c
      rw [count_order_eq_identitiesOf b order ho c]
      simp [Broker.copiesTo, hb]
    have hr := rangeSend_of_room msg (order.map Sigma.snd) b.chans (by
      intro c hc
      have hpos : 0 < b.copiesTo msg c := by
        rw [hcopies c]
        exact List.count_pos_iff.mpr hc
      simpa [hcopies c] using hroom c hpos)
    simp only [Broker.sends, hb, if_true]
    exact ⟨hr.1, fun c => by rw [hr.2 c, hcopies c]⟩
  · simp only [Broker.sends, hb]
    cases hl : b.users.lookup msg.Recipient with
    | none =>
      refine ⟨rfl, fun c => ?_⟩
      simp [Broker.copiesTo, hb, hl, Chan.push]
    | some d =>
      have hd : b.copiesTo msg d = 1 := by simp [Broker.copiesTo, hb, hl]
      have hrd := hroom d (by omega)
      rw [hd] at hrd
      have hs := chanSend_of_room b.chans d msg hrd.1 (by omega)
      simp only [Bool.false_eq_true, if_false, hs]
      refine ⟨trivial, fun c => ?_⟩
      by_cases hcd : c = d
      · subst hcd
        simp [hd]
      · have hc0 : b.copiesTo msg c = 0 := by
          simp [Broker.copiesTo, hb, hl, Ne.symm hcd]
        simp [Function.update_noteq hcd, hc0, Chan.push]

theorem SendMessage_broker (b : Broker) (order : Order) (msg : Message) :
    (b.SendMessage order msg).broker = { b with chans := (b.sends order msg).heap } := by
  unfold Broker.SendMessage
  split <;> rfl

theorem SendMessage_status_of_returned (b : Broker) (order : Order) (msg : Message)
    (e : Option CtxErr) (h : (b.sends order msg).status = Status.returned e) :
    (b.SendMessage order msg).status = Status.returned b.ctx := by
  unfold Broker.SendMessage
  rw [h]

/-- The state after `SendMessage` when every channel the message is sent on
is open and has room for the copies sent on it. -/
theorem SendMessage_of_room (b : Broker) (order : Order) (msg : Message)
    (ho : b.RangeOrder order)
    (hroom : ∀ c, 0 < b.copiesTo msg c →
      (b.chans c).closed = false ∧ (b.chans c).buf.length + b.copiesTo msg c ≤ (b.chans c).cap) :
    (b.SendMessage order msg).status = Status.returned b.ctx ∧
      ∀ c, (b.SendMessage order msg).broker.chans c = (b.chans c).push (b.copiesTo msg c) msg := by
  have hd := sends_of_room b order msg ho hroom
  refine ⟨SendMessage_status_of_returned b order msg none hd.1, fun c => ?_⟩
  rw [SendMessage_broker]
  exact hd.2 c

/-! ## Delivery: broadcast and unicast -/

/-- C1, counterexample.  "alice" and "bob" are registered with the same
mailbox 0, which is open and empty, and every registered mailbox has free
capacity.  When the mailbox has capacity 2 the broadcast leaves two copies of
the message in the mailbox of "alice", not exactly one.  When it has capacity
1 the second send of the broadcast cannot proceed and the call does not
return. -/
theorem SendMessage_broadcast_shared_mailbox :
    Example.hi.Broadcast = true ∧
    Example.shared.RangeOrder Example.shared.users.entries ∧
    (∀ c, Example.shared.Registered c → (Example.shared.chans c).hasFreeCapacity) ∧
    Example.shared.users.lookup "alice" = some 0 ∧
    ((Example.shared.SendMessage Example.shared.users.entries Example.hi).broker.chans 0).buf
      = [Example.hi, Example.hi] ∧
    ((Example.shared.SendMessage Example.shared.users.entries Example.hi).broker.chans 0).buf
      ≠ (Example.shared.chans 0).buf ++ [Example.hi] ∧
    Example.sharedSingle.RangeOrder Example.sharedSingle.users.entries ∧
    (∀ c, Example.sharedSingle.Registered c →
      (Example.sharedSingle.chans c).hasFreeCapacity) ∧
    (Example.sharedSingle.SendMessage Example.sharedSingle.users.entries Example.hi).status
      = Status.blocked := by
  refine ⟨rfl, List.Perm.refl _, fun c _ => ?_, by decide, by decide, by decide,
    List.Perm.refl _, fun c _ => ?_, by decide⟩
  · exact ⟨rfl, Nat.zero_lt_two⟩
  · exact ⟨rfl, Nat.zero_lt_one⟩

/-- C1, amended.  For a broadcast, when every registered mailbox is open and
has room for one message for each identity registered with it, `SendMessage`
returns `b.ctx.Err()` and appends to every mailbox one copy of the message for
each identity registered with it, whatever the order in which the registry is
visited: exactly one copy to the mailbox of an identity that shares it with no
other, and nothing to a mailbox that is not registered. -/
theorem SendMessage_broadcast (b : Broker) (order : Order) (msg : Message)
    (hb : msg.Broadcast = true) (ho : b.RangeOrder order)
    (hroom : ∀ c, b.Registered c →
      (b.chans c).closed = false ∧
        (b.chans c).buf.length + b.identitiesOf c ≤ (b.chans c).cap) :
    (b.SendMessage order msg).status = Status.returned b.ctx ∧
    (∀ c, (b.SendMessage order msg).broker.chans c
        = (b.chans c).push (b.identitiesOf c) msg) ∧
    (∀ c, b.identitiesOf c = 1 →
      ((b.SendMessage order msg).broker.chans c).buf = (b.chans c).buf ++ [msg]) ∧
    (∀ c, ¬ b.Registered c → (b.SendMessage order msg).broker.chans c = b.chans c) := by
  have hcopies : ∀ c, b.copiesTo msg c = b.identitiesOf c := by
    intro c
    simp [Broker.copiesTo, hb]
  have hs := SendMessage_of_room b order msg ho (by
    intro c hc
    rw [hcopies c]
    exact hroom c (copiesTo_pos_registered b msg c hc))
  have hall : ∀ c, (b.SendMessage order msg).broker.chans c
      = (b.chans c).push (b.identitiesOf c) msg := by
    intro c
    rw [hs.2 c, hcopies c]
  refine ⟨hs.1, hall, ?_, ?_⟩
  · intro c h1
    rw [hall c, h1]
    simp [Chan.push]
  · intro c hc
    have h0 : b.identitiesOf c = 0 := by
      have := (registered_iff_identitiesOf_pos b c).not.mp hc
      omega
    rw [hall c, h0]
    simp [Chan.push]

/-- C1, witness: the scenario of the specification.  "alice" and "bob" are
registered with mailboxes of capacity 2, and after the broadcast both
mailboxes hold one message, the broadcast one. -/
theorem SendMessage_broadcast_witness :
    Example.hi.Broadcast = true ∧
    Example.aliceBob.RangeOrder Example.aliceBob.users.entries ∧
    (Example.aliceBob.SendMessage Example.aliceBob.users.entries Example.hi).status
      = Status.returned none ∧
    ((Example.aliceBob.SendMessage Example.aliceBob.users.entries Example.hi).broker.chans 0).buf
      = [Example.hi] ∧
    ((Example.aliceBob.SendMessage Example.aliceBob.users.entries Example.hi).broker.chans 1).buf
      = [Example.hi] :=
  have h := SendMessage_broadcast Example.aliceBob Example.aliceBob.users.entries Example.hi
    rfl (List.Perm.refl _)
    (fun c _ => ⟨rfl, by
      have h1 := identitiesOf_le Example.aliceBob c
      have h2 : Example.aliceBob.users.entries.length = 2 := by decide
      show 0 + Example.aliceBob.identitiesOf c ≤ 2
      omega⟩)
  ⟨rfl, List.Perm.refl _, h.1, h.2.2.1 0 (by decide), h.2.2.1 1 (by decide)⟩

/-- C2.  A unicast to an identity registered with a mailbox that has free
capacity returns `b.ctx.Err()`, makes that mailbox its previous contents
followed by the message, and leaves every other mailbox as it was; a second
unicast to the same identity is appended after the first. -/
theorem SendMessage_unicast (b : Broker) (order : Order) (msg : Message) (r : String)
    (c : ChanId) (hu : msg.Broadcast = false) (hr : msg.Recipient = r)
    (hreg : b.users.lookup r = some c) (hfree : (b.chans c).hasFreeCapacity) :
    (b.SendMessage order msg).status = Status.returned b.ctx ∧
    ((b.SendMessage order msg).broker.chans c).buf = (b.chans c).buf ++ [msg] ∧
    ((b.SendMessage order msg).broker.chans c).cap = (b.chans c).cap ∧
    ((b.SendMessage order msg).broker.chans c).closed = (b.chans c).closed ∧
    (∀ d, d ≠ c → (b.SendMessage order msg).broker.chans d = b.chans d) ∧
    (∀ (order2 : Order) (msg2 : Message), msg2.Broadcast = false → msg2.Recipient = r →
      ((b.SendMessage order msg).broker.chans c).hasFreeCapacity →
      (((b.SendMessage order msg).broker.SendMessage order2 msg2).broker.chans c).buf
        = (b.chans c).buf ++ [msg, msg2]) := by
  subst hr
  have key : ∀ (b1 : Broker) (o : Order) (m : Message), m.Broadcast = false →
      b1.users.lookup m.Recipient = some c → (b1.chans c).hasFreeCapacity →
      (b1.SendMessage o m).status = Status.returned b1.ctx ∧
      (b1.SendMessage o m).broker.chans = Function.update b1.chans c ((b1.chans c).push 1 m) := by
    intro b1 o m hm hl hf
    have hs := chanSend_of_room b1.chans c m hf.1 hf.2
    have hd : b1.sends o m = chanSend b1.chans c m := by
      simp [Broker.sends, hm, hl]
    refine ⟨SendMessage_status_of_returned b1 o m none (by rw [hd, hs]), ?_⟩
    rw [SendMessage_broker, hd, hs]
  have h1 := key b order msg hu hreg hfree
  have husers : (b.SendMessage order msg).broker.users = b.users := by
    rw [SendMessage_broker]
  refine ⟨h1.1, ?_, ?_, ?_, ?_, ?_⟩
  · rw [h1.2]; simp [Chan.push]
  · rw [h1.2]; simp [Chan.push]
  · rw [h1.2]; simp [Chan.push]
  · intro d hd
    rw [h1.2, Function.update_noteq hd]
  · intro order2 msg2 hu2 hr2 hfree2
    have h2 := key (b.SendMessage order msg).broker order2 msg2 hu2
      (by rw [husers, hr2]; exact hreg) hfree2
    rw [h2.2, h1.2]
    simp [Chan.push]

/-- C2, witness: with "alice" on mailbox 0 and "bob" on mailbox 1, the unicast
to "bob" makes mailbox 1 hold that message and leaves mailbox 0 empty. -/
theorem SendMessage_unicast_witness :
    Example.bye.Broadcast = false ∧ Example.bye.Recipient = "bob" ∧
    Example.aliceBob.users.lookup "bob" = some 1 ∧
    (Example.aliceBob.chans 1).hasFreeCapacity ∧
    (Example.aliceBob.SendMessage [] Example.bye).status = Status.returned none ∧
    ((Example.aliceBob.SendMessage [] Example.bye).broker.chans 1).buf = [Example.bye] ∧
    (Example.aliceBob.SendMessage [] Example.bye).broker.chans 0 = Example.aliceBob.chans 0 :=
  have h := SendMessage_unicast Example.aliceBob [] Example.bye "bob" 1 rfl rfl
    (by decide) (by decide)
  ⟨rfl, rfl, by decide, by decide, h.1, h.2.1, h.2.2.2.2.1 0 (by decide)⟩

/-- C3.  Under a lifecycle that is not cancelled, a unicast whose recipient is
not registered returns the nil error and leaves the whole state of the broker,
every mailbox and the registry included, as it was. -/
theorem SendMessage_unicast_unregistered (b : Broker) (order : Order) (msg : Message)
    (hctx : b.ctx = none) (hu : msg.Broadcast = false)
    (hreg : b.users.lookup msg.Recipient = none) :
    (b.SendMessage order msg).status = Status.returned none ∧
    (b.SendMessage order msg).broker = b ∧
    (∀ c, (b.SendMessage order msg).broker.chans c = b.chans c) ∧
    (b.SendMessage order msg).broker.users = b.users := by
  have hd : b.sends order msg = { heap := b.chans, status := Status.returned none } := by
    simp [Broker.sends, hu, hreg]
  have hst := SendMessage_status_of_returned b order msg none (by rw [hd])
  have hbr : (b.SendMessage order msg).broker = b := by
    rw [SendMessage_broker, hd]
  refine ⟨by rw [hst, hctx], hbr, fun c => by rw [hbr], by rw [hbr]⟩

/-- C3, witness: with only "alice" and "bob" registered, a unicast to "dave"
returns the nil error and changes nothing. -/
theorem SendMessage_unicast_unregistered_witness :
    Example.aliceBob.ctx = none ∧
    ({ Example.bye with Recipient := "dave" } : Message).Broadcast = false ∧
    Example.aliceBob.users.lookup "dave" = none ∧
    (Example.aliceBob.SendMessage [] { Example.bye with Recipient := "dave" }).status
      = Status.returned none ∧
    (Example.aliceBob.SendMessage [] { Example.bye with Recipient := "dave" }).broker
      = Example.aliceBob :=
  have h := SendMessage_unicast_unregistered Example.aliceBob []
    { Example.bye with Recipient := "dave" } rfl rfl (by decide)
  ⟨rfl, rfl, by decide, h.1, h.2.1⟩

/-! ## The error that `SendMessage` returns -/

/-- Whenever `SendMessage` returns, the error it returns is `b.ctx.Err()`. -/
theorem SendMessage_status_returned (b : Broker) (order : Order) (msg : Message)
    (e : Option CtxErr) (h : (b.SendMessage order msg).status = Status.returned e) :
    e = b.ctx := by
  unfold Broker.SendMessage at h
  split at h
  · simpa using h.symm
  · rename_i st hst
    simp only at h
    exact absurd h (hst e)

/-- C4, counterexample.  "bob" is registered with a full mailbox.  The unicast
to "bob" does not return: neither an error under a cancelled context, nor nil
under an active one. -/
theorem SendMessage_full_mailbox_no_return :
    (Example.stalled (some CtxErr.Canceled)).ctx = some CtxErr.Canceled ∧
    ((Example.stalled (some CtxErr.Canceled)).SendMessage [] Example.bye).status
      = Status.blocked ∧
    (Example.stalled none).ctx = none ∧
    ((Example.stalled none).SendMessage [] Example.bye).status = Status.blocked ∧
    ((Example.stalled none).SendMessage [] Example.bye).status ≠ Status.returned none := by
  decide

/-- C4, amended.  When every mailbox the message is sent on is open and has
room for the copies sent on it, `SendMessage` returns, for broadcast and
unicast alike; the error it returns is `b.ctx.Err()`, which is non-nil if and
only if the lifecycle context has been cancelled and nil under a context that
is not cancelled. -/
theorem SendMessage_error (b : Broker) (order : Order) (msg : Message)
    (ho : b.RangeOrder order)
    (hroom : ∀ c, 0 < b.copiesTo msg c →
      (b.chans c).closed = false ∧ (b.chans c).buf.length + b.copiesTo msg c ≤ (b.chans c).cap) :
    (b.SendMessage order msg).status = Status.returned b.ctx ∧
    ((∃ e, (b.SendMessage order msg).status = Status.returned (some e)) ↔ b.ctx ≠ none) ∧
    (b.ctx = none → (b.SendMessage order msg).status = Status.returned none) := by
  have hs := (SendMessage_of_room b order msg ho hroom).1
  refine ⟨hs, ⟨?_, ?_⟩, fun hn => by rw [hs, hn]⟩
  · rintro ⟨e, he⟩ hn
    rw [hs, hn] at he
    simp at he
  · intro hn
    obtain ⟨e, he⟩ := Option.ne_none_iff_exists.mp hn
    exact ⟨e, by rw [hs, ← he]⟩

/-- C4, witness: on the cancelled broker with two roomy mailboxes the unicast
to "bob" returns the cancellation error; on the active one it returns nil. -/
theorem SendMessage_error_witness :
    Example.cancelled.RangeOrder Example.cancelled.users.entries ∧
    (Example.cancelled.SendMessage Example.cancelled.users.entries Example.bye).status
      = Status.returned (some CtxErr.Canceled) ∧
    (Example.cancelled.SendMessage Example.cancelled.users.entries Example.hi).status
      = Status.returned (some CtxErr.Canceled) :=
  have room : ∀ (m : Message) (c : ChanId), 0 < Example.cancelled.copiesTo m c →
      (Example.cancelled.chans c).closed = false ∧
        (Example.cancelled.chans c).buf.length + Example.cancelled.copiesTo m c
          ≤ (Example.cancelled.chans c).cap := fun m c _ => ⟨rfl, by
      have h1 := identitiesOf_le Example.cancelled c
      have h2 : Example.cancelled.users.entries.length = 2 := by decide
      have h3 : Example.cancelled.copiesTo m c ≤ 2 := by
        unfold Broker.copiesTo
        split
        · omega
        · split <;> omega
      show 0 + Example.cancelled.copiesTo m c ≤ 2
      omega⟩
  ⟨List.Perm.refl _,
    (SendMessage_error Example.cancelled Example.cancelled.users.entries Example.bye
      (List.Perm.refl _) (room Example.bye)).1,
    (SendMessage_error Example.cancelled Example.cancelled.users.entries Example.hi
      (List.Perm.refl _) (room Example.hi)).1⟩

/-! ## Delivery after cancellation -/

theorem sends_ctx (b : Broker) (ctx : Option CtxErr) (order : Order) (msg : Message) :
    Broker.sends { b with ctx := ctx } order msg = b.sends order msg := rfl

/-- C5, counterexample.  The lifecycle of the broker is cancelled, "bob" is
registered with the empty mailbox 1, and the unicast to "bob" is delivered all
the same: `SendMessage` returns the cancellation error and mailbox 1 holds the
message. -/
theorem SendMessage_cancelled_delivers :
    Example.cancelled.ctx = some CtxErr.Canceled ∧
    Example.cancelled.users.lookup "bob" = some 1 ∧
    (Example.cancelled.chans 1).buf = [] ∧
    (Example.cancelled.SendMessage [] Example.bye).status
      = Status.returned (some CtxErr.Canceled) ∧
    ((Example.cancelled.SendMessage [] Example.bye).broker.chans 1).buf = [Example.bye] ∧
    (Example.cancelled.SendMessage [] Example.bye).broker.chans 1
      ≠ Example.cancelled.chans 1 := by
  decide

/-- C5, amended.  Cancellation changes the error that `SendMessage` returns
and nothing else: on a broker whose context is already cancelled the call
leaves the mailboxes as the same call does on the same broker with an active
lifecycle, so the message is delivered all the same, and it ends the same way
except that the error returned is the cancellation error instead of nil. -/
theorem SendMessage_cancelled (b : Broker) (e : CtxErr) (order : Order) (msg : Message)
    (hc : b.ctx = some e) :
    (b.SendMessage order msg).broker.chans
      = (Broker.SendMessage { b with ctx := none } order msg).broker.chans ∧
    ((Broker.SendMessage { b with ctx := none } order msg).status = Status.returned none ↔
      (b.SendMessage order msg).status = Status.returned (some e)) ∧
    ((Broker.SendMessage { b with ctx := none } order msg).status = Status.blocked ↔
      (b.SendMessage order msg).status = Status.blocked) ∧
    ((Broker.SendMessage { b with ctx := none } order msg).status = Status.panicked ↔
      (b.SendMessage order msg).status = Status.panicked) := by
  refine ⟨?_, ?_, ?_, ?_⟩
  · rw [SendMessage_broker, SendMessage_broker]
    rfl
  all_goals
    unfold Broker.SendMessage
    rw [sends_ctx b none order msg]
    cases (b.sends order msg).status <;> simp [hc]

/-- C5, witness: on the cancelled broker the unicast to "bob" leaves the
mailboxes as it does on the same broker with an active lifecycle, where mailbox
1 receives the message. -/
theorem SendMessage_cancelled_witness :
    Example.cancelled.ctx = some CtxErr.Canceled ∧
    (Example.cancelled.SendMessage [] Example.bye).broker.chans
      = (Broker.SendMessage { Example.cancelled with ctx := none } [] Example.bye).broker.chans ∧
    ((Broker.SendMessage { Example.cancelled with ctx := none } [] Example.bye).broker.chans 1).buf
      = [Example.bye] :=
  ⟨rfl, (SendMessage_cancelled Example.cancelled CtxErr.Canceled [] Example.bye rfl).1,
    by decide⟩

/-! ## The registry -/

/-- C6, counterexample.  First input: "bob" is registered with the full
mailbox 1 and the unicast to "bob" appends nothing to it, the call does not
return.  Second input: "bob", registered with mailbox 1, is registered again
with mailbox 1, and the unicast to "bob" changes the mailbox that was
registered for "bob" before. -/
theorem RegisterUser_full_or_same_mailbox :
    Example.bye.Broadcast = false ∧ Example.bye.Recipient = "bob" ∧
    (Broker.SendMessage ((NewBroker none Example.fullBox).RegisterUser "bob" 1) []
      Example.bye).status = Status.blocked ∧
    ((Broker.SendMessage ((NewBroker none Example.fullBox).RegisterUser "bob" 1) []
      Example.bye).broker.chans 1).buf = (Example.fullBox 1).buf ∧
    Example.aliceBob.users.lookup "bob" = some 1 ∧
    ((Broker.SendMessage (Example.aliceBob.RegisterUser "bob" 1) []
      Example.bye).broker.chans 1).buf = [Example.bye] ∧
    (Broker.SendMessage (Example.aliceBob.RegisterUser "bob" 1) []
      Example.bye).broker.chans 1 ≠ Example.aliceBob.chans 1 := by
  decide

/-- C6, amended.  After `RegisterUser(id, c)` the identity `id` is associated
with exactly `c`, whatever was registered for `id` before.  A following
unicast addressed to `id` touches no mailbox other than `c`, so the mailbox
registered for `id` before is not touched when it is not `c` itself; and when
`c` has free capacity the call returns `b.ctx.Err()` and appends the message to
`c`. -/
theorem RegisterUser_then_unicast (b : Broker) (id : String) (c : ChanId) (order : Order)
    (msg : Message) (hu : msg.Broadcast = false) (hr : msg.Recipient = id) :
    (b.RegisterUser id c).users.lookup id = some c ∧
    (∀ d, d ≠ c → ((b.RegisterUser id c).SendMessage order msg).broker.chans d = b.chans d) ∧
    (∀ old, b.users.lookup id = some old → old ≠ c →
      ((b.RegisterUser id c).SendMessage order msg).broker.chans old = b.chans old) ∧
    ((b.chans c).hasFreeCapacity →
      ((b.RegisterUser id c).SendMessage order msg).status = Status.returned b.ctx ∧
      (((b.RegisterUser id c).SendMessage order msg).broker.chans c).buf
        = (b.chans c).buf ++ [msg]) := by
  subst hr
  have hl : (b.RegisterUser msg.Recipient c).users.lookup msg.Recipient = some c :=
    AList.lookup_insert _
  have hd : (b.RegisterUser msg.Recipient c).sends order msg = chanSend b.chans c msg := by
    simp only [Broker.sends, hu, hl]
    rfl
  have hframe : ∀ d, d ≠ c →
      ((b.RegisterUser msg.Recipient c).SendMessage order msg).broker.chans d = b.chans d := by
    intro d hdc
    rw [SendMessage_broker, hd]
    exact chanSend_heap_of_ne _ _ _ _ hdc
  refine ⟨hl, hframe, fun old _ hne => hframe old hne, fun hfree => ?_⟩
  have hs := chanSend_of_room b.chans c msg hfree.1 hfree.2
  refine ⟨SendMessage_status_of_returned _ order msg none (by rw [hd, hs]), ?_⟩
  rw [SendMessage_broker, hd, hs]
  simp [Chan.push]

/-- C6, witness: "bob", registered with mailbox 1, is registered again with
mailbox 2; the unicast to "bob" is appended to mailbox 2 and mailbox 1 is as it
was. -/
theorem RegisterUser_then_unicast_witness :
    Example.bye.Broadcast = false ∧ Example.bye.Recipient = "bob" ∧
    Example.aliceBob.users.lookup "bob" = some 1 ∧
    (Example.aliceBob.RegisterUser "bob" 2).users.lookup "bob" = some 2 ∧
    ((Example.aliceBob.RegisterUser "bob" 2).SendMessage [] Example.bye).broker.chans 1
      = Example.aliceBob.chans 1 ∧
    (((Example.aliceBob.RegisterUser "bob" 2).SendMessage [] Example.bye).broker.chans 2).buf
      = [Example.bye] :=
  have h := RegisterUser_then_unicast Example.aliceBob "bob" 2 [] Example.bye rfl rfl
  ⟨rfl, rfl, by decide, h.1, h.2.2.1 1 (by decide) (by decide),
    (h.2.2.2 (by decide)).2⟩

theorem erase_of_lookup_none (users : AList (fun _ : String => ChanId)) (id : String)
    (h : users.lookup id = none) : users.erase id = users := by
  apply AList.ext
  have hk : id ∉ users.entries.keys := AList.mem_keys.not.mp (AList.lookup_eq_none.mp h)
  show List.kerase id users.entries = users.entries
  exact List.kerase_of_not_mem_keys hk

/-- C7.  After `UnregisterUser(id)` the identity `id` is not registered; when
`id` was not registered beforehand the state of the broker is unchanged; and
`UnregisterUser(id)` applied twice gives the state that applying it once
gives. -/
theorem UnregisterUser_removes (b : Broker) (id : String) :
    (b.UnregisterUser id).users.lookup id = none ∧
    (b.users.lookup id = none → b.UnregisterUser id = b) ∧
    (b.UnregisterUser id).UnregisterUser id = b.UnregisterUser id := by
  have h1 : (b.UnregisterUser id).users.lookup id = none := AList.lookup_erase id b.users
  have h2 : ∀ b1 : Broker, b1.users.lookup id = none → b1.UnregisterUser id = b1 := by
    intro b1 hn
    unfold Broker.UnregisterUser
    rw [erase_of_lookup_none b1.users id hn]
  exact ⟨h1, h2 b, h2 _ h1⟩

/-- C7, witness: "bob" is removed from the registry of `aliceBob`, and removing
"dave", who is not registered, changes nothing. -/
theorem UnregisterUser_removes_witness :
    Example.aliceBob.users.lookup "bob" = some 1 ∧
    (Example.aliceBob.UnregisterUser "bob").users.lookup "bob" = none ∧
    Example.aliceBob.users.lookup "dave" = none ∧
    Example.aliceBob.UnregisterUser "dave" = Example.aliceBob :=
  ⟨by decide, (UnregisterUser_removes Example.aliceBob "bob").1, by decide,
    (UnregisterUser_removes Example.aliceBob "dave").2.1 (by decide)⟩

/-- C8.  `RegisterUser(id, c)` and `UnregisterUser(id)` change only the
association of `id`: every other identity keeps its association, and every
channel, the one replaced or removed included, keeps its capacity, its
contents and its open or closed state; the context, the inbound queue and
`done` are unchanged too. -/
theorem Registry_frame (b : Broker) (id : String) (c : ChanId) :
    (∀ id2, id2 ≠ id → (b.RegisterUser id c).users.lookup id2 = b.users.lookup id2) ∧
    (∀ d, (b.RegisterUser id c).chans d = b.chans d) ∧
    (∀ id2, id2 ≠ id → (b.UnregisterUser id).users.lookup id2 = b.users.lookup id2) ∧
    (∀ d, (b.UnregisterUser id).chans d = b.chans d) ∧
    ((b.RegisterUser id c).ctx = b.ctx ∧ (b.RegisterUser id c).input = b.input ∧
      (b.RegisterUser id c).done = b.done) ∧
    ((b.UnregisterUser id).ctx = b.ctx ∧ (b.UnregisterUser id).input = b.input ∧
      (b.UnregisterUser id).done = b.done) :=
  ⟨fun _ hne => AList.lookup_insert_ne hne, fun _ => rfl,
    fun _ hne => AList.lookup_erase_ne hne, fun _ => rfl, ⟨rfl, rfl, rfl⟩, ⟨rfl, rfl, rfl⟩⟩

/-- C8, witness: registering "bob" with mailbox 2, or unregistering "bob",
leaves the association of "alice" and the old mailbox 1 of "bob" as they
were. -/
theorem Registry_frame_witness :
    (Example.afterHi.RegisterUser "bob" 2).users.lookup "alice" = some 0 ∧
    (Example.afterHi.RegisterUser "bob" 2).chans 1 = Example.afterHi.chans 1 ∧
    (Example.afterHi.UnregisterUser "bob").users.lookup "alice" = some 0 ∧
    (Example.afterHi.UnregisterUser "bob").chans 1 = Example.afterHi.chans 1 ∧
    (Example.afterHi.chans 1).buf = [Example.hi] :=
  have h := Registry_frame Example.afterHi "bob" 2
  have ha : Example.afterHi.users.lookup "alice" = some 0 := by decide
  ⟨(h.1 "alice" (by decide)).trans ha, h.2.1 1,
    (h.2.2.1 "alice" (by decide)).trans ha, h.2.2.2.1 1, by decide⟩

/-- C9.  Let `c` be the mailbox registered for `id` and for no other
identity, under an active lifecycle.  After `UnregisterUser(id)` a broadcast
does not change `c`, however the call ends, and a unicast addressed to `id`
returns the nil error and changes no mailbox at all. -/
theorem UnregisterUser_then_send (b : Broker) (id : String) (c : ChanId)
    (order : Order) (bcast uni : Message)
    (hctx : b.ctx = none) (hreg : b.users.lookup id = some c)
    (hsole : ∀ id2, id2 ≠ id → b.users.lookup id2 ≠ some c)
    (ho : (b.UnregisterUser id).RangeOrder order)
    (hb : bcast.Broadcast = true) (hu : uni.Broadcast = false) (hr : uni.Recipient = id) :
    ((b.UnregisterUser id).SendMessage order bcast).broker.chans c = b.chans c ∧
    ((b.UnregisterUser id).SendMessage order uni).broker.chans c = b.chans c ∧
    ((b.UnregisterUser id).SendMessage order uni).status = Status.returned none ∧
    (∀ d, ((b.UnregisterUser id).SendMessage order uni).broker.chans d = b.chans d) := by
  have hnot : ¬ (b.UnregisterUser id).Registered c := by
    rintro ⟨id2, h2⟩
    by_cases he : id2 = id
    · subst he
      have : (b.UnregisterUser id2).users.lookup id2 = none := AList.lookup_erase id2 b.users
      rw [this] at h2
      cases h2
    · have : (b.UnregisterUser id).users.lookup id2 = b.users.lookup id2 :=
        AList.lookup_erase_ne he
      rw [this] at h2
      exact hsole id2 he h2
  have h0 : (b.UnregisterUser id).copiesTo bcast c = 0 := by
    have := (registered_iff_identitiesOf_pos (b.UnregisterUser id) c).not.mp hnot
    simp only [Broker.copiesTo, hb, if_true]
    omega
  have hgone : (b.UnregisterUser id).users.lookup uni.Recipient = none := by
    rw [hr]
    exact AList.lookup_erase id b.users
  have hd : (b.UnregisterUser id).sends order uni
      = { heap := b.chans, status := Status.returned none } := by
    simp only [Broker.sends, hu, hgone]
    rfl
  have hch : ∀ d, ((b.UnregisterUser id).SendMessage order uni).broker.chans d = b.chans d := by
    intro d
    rw [SendMessage_broker, hd]
  refine ⟨?_, hch c, ?_, hch⟩
  · rw [SendMessage_broker]
    exact sends_heap_of_copiesTo_zero (b.UnregisterUser id) order bcast ho c h0
  · rw [SendMessage_status_of_returned _ order uni none (by rw [hd])]
    exact congrArg Status.returned hctx

/-- C9, witness: the scenario of the specification.  After the broadcast to
"alice" and "bob", "bob" is unregistered; the unicast to "bob" returns the nil
error and the old mailbox of "bob" still holds the one broadcast message. -/
theorem UnregisterUser_then_send_witness :
    Example.afterHi.ctx = none ∧ Example.afterHi.users.lookup "bob" = some 1 ∧
    Example.hi.Broadcast = true ∧ Example.bye.Broadcast = false ∧
    Example.bye.Recipient = "bob" ∧
    ((Example.afterHi.UnregisterUser "bob").SendMessage
      (Example.afterHi.UnregisterUser "bob").users.entries Example.bye).status
        = Status.returned none ∧
    (((Example.afterHi.UnregisterUser "bob").SendMessage
      (Example.afterHi.UnregisterUser "bob").users.entries Example.bye).broker.chans 1).buf
        = [Example.hi] ∧
    (((Example.afterHi.UnregisterUser "bob").SendMessage
      (Example.afterHi.UnregisterUser "bob").users.entries Example.hi).broker.chans 1).buf
        = [Example.hi] :=
  have h := UnregisterUser_then_send Example.afterHi "bob" 1
    (Example.afterHi.UnregisterUser "bob").users.entries Example.hi Example.bye
    rfl (by decide) (by
      intro id2 hne hl
      have hmem := AList.mem_lookup_iff.mp hl
      have hent : Example.afterHi.users.entries = [⟨"bob", 1⟩, ⟨"alice", 0⟩] := by decide
      rw [hent] at hmem
      simp at hmem
      exact hne hmem)
    (List.Perm.refl _) rfl rfl rfl
  ⟨rfl, by decide, rfl, rfl, rfl, h.2.2.1,
    by rw [h.2.2.2 1]; decide, by rw [h.1]; decide⟩

/-! ## The loop `Run` drains the queue in order -/

theorem demand_cons (b : Broker) (msg : Message) (rest : List Message) (c : ChanId) :
    b.demand (msg :: rest) c = b.copiesTo msg c + b.demand rest c := by
  simp [Broker.demand]

theorem copiesTo_le_demand (b : Broker) (msg : Message) (rest : List Message) (c : ChanId) :
    b.copiesTo msg c ≤ b.demand (msg :: rest) c := by
  rw [demand_cons]
  omega

/-- With an active lifecycle and mailboxes that are open and have room for
everything sent on them, the loop entered with the queue `msgs` takes the
messages one by one, oldest first, and ends at its `select` with the queue
empty and the state that calling `SendMessage` on each message in order
gives. -/
theorem steps_recv_eq_sendAll (msgs : List Message) :
    ∀ (orders : List Order) (b : Broker), b.ctx = none → orders.length = msgs.length →
      (∀ o ∈ orders, b.RangeOrder o) →
      (∀ c, 0 < b.demand msgs c →
        (b.chans c).closed = false ∧ (b.chans c).buf.length + b.demand msgs c ≤ (b.chans c).cap) →
      Run.steps (orders.map fun o => (Select.recv, o))
          { broker := { b with input := msgs }, phase := Phase.running }
        = some { broker := { (b.sendAll (orders.zip msgs)).broker with input := [] },
                 phase := Phase.running } ∧
      (b.sendAll (orders.zip msgs)).status = Status.returned none := by
  induction msgs with
  | nil =>
    intro orders b _ hlen _ _
    have : orders = [] := List.length_eq_zero.mp hlen
    subst this
    exact ⟨rfl, rfl⟩
  | cons msg rest ih =>
    intro orders b hctx hlen hord hroom
    cases orders with
    | nil => simp at hlen
    | cons o os =>
      have hlen1 : os.length = rest.length := by simpa using hlen
      have ho : b.RangeOrder o := hord o (List.mem_cons_self _ _)
      have hsend := SendMessage_of_room b o msg ho (by
        intro c hc
        have hle := copiesTo_le_demand b msg rest c
        have := hroom c (by omega)
        exact ⟨this.1, by omega⟩)
      have hst : (b.SendMessage o msg).status = Status.returned none := by
        rw [hsend.1, hctx]
      have hbr := SendMessage_broker b o msg
      have hih := ih os (b.SendMessage o msg).broker (by rw [hbr]; exact hctx) hlen1
        (by
          intro o1 ho1
          have := hord o1 (List.mem_cons_of_mem _ ho1)
          rw [hbr]
          exact this)
        (by
          intro c hc
          have hdem : (b.SendMessage o msg).broker.demand rest c = b.demand rest c := by
            rw [hbr]; rfl
          rw [hdem] at hc ⊢
          have hcons := demand_cons b msg rest c
          have := hroom c (by omega)
          rw [hsend.2 c]
          simp only [Chan.push, List.length_append, List.length_replicate]
          exact ⟨this.1, by omega⟩)
      have hstep : Run.step Select.recv o
          { broker := { b with input := msg :: rest }, phase := Phase.running }
          = some { broker := { (b.SendMessage o msg).broker with input := rest },
                   phase := Phase.running } := by
        have h1 : (Broker.SendMessage { b with input := rest } o msg).broker
            = { (b.SendMessage o msg).broker with input := rest } := by
          rw [SendMessage_broker, SendMessage_broker]
          rfl
        have h2 : (Broker.SendMessage { b with input := rest } o msg).status
            = Status.returned none := by
          have : (Broker.SendMessage { b with input := rest } o msg).status
              = (b.SendMessage o msg).status := by
            have hdel : Broker.sends { b with input := rest } o msg = b.sends o msg := rfl
            unfold Broker.SendMessage
            rw [hdel]
            cases (b.sends o msg).status <;> rfl
          rw [this, hst]
        simp only [Run.step, h1, h2, Phase.ofStatus]
      have hall : Broker.sendAll b ((o :: os).zip (msg :: rest))
          = Broker.sendAll (b.SendMessage o msg).broker (os.zip rest) := by
        simp only [List.zip_cons_cons]
        rw [Broker.sendAll, hst]
      rw [hall]
      refine ⟨?_, hih.2⟩
      simp only [List.map_cons, Run.steps, hstep]
      exact hih.1

/-- C10.  While the lifecycle is not cancelled the `select` of `Run` cannot
take the cancellation case, and with mailboxes that are open and large enough
to hold everything the queued messages send on them, the loop takes the queued
messages oldest first and, once it has drained the queue, is at its `select`
again with the mailboxes in the state obtained by calling `SendMessage` on each
message in queue order (each of these calls returns). -/
theorem Run_drains_queue_in_order (b : Broker) (orders : List Order)
    (hctx : b.ctx = none) (hlen : orders.length = b.input.length)
    (hord : ∀ o ∈ orders, b.RangeOrder o)
    (hroom : ∀ c, 0 < b.demand b.input c →
      (b.chans c).closed = false ∧
        (b.chans c).buf.length + b.demand b.input c ≤ (b.chans c).cap) :
    (∀ o, Run.step Select.ctxDone o { broker := b, phase := Phase.running } = none) ∧
    b.Run (orders.map fun o => (Select.recv, o))
      = some { broker := { (b.sendAll (orders.zip b.input)).broker with input := [] },
               phase := Phase.running } ∧
    (b.sendAll (orders.zip b.input)).status = Status.returned none ∧
    (∀ l, b.Run (orders.map fun o => (Select.recv, o)) = some l →
      l.broker.input = [] ∧
      l.broker.chans = (b.sendAll (orders.zip b.input)).broker.chans) := by
  have h := steps_recv_eq_sendAll b.input orders b hctx hlen hord hroom
  have hrun : b.Run (orders.map fun o => (Select.recv, o))
      = some { broker := { (b.sendAll (orders.zip b.input)).broker with input := [] },
               phase := Phase.running } := h.1
  refine ⟨fun o => by simp [Run.step, hctx], hrun, h.2, ?_⟩
  intro l hl
  rw [hrun] at hl
  cases hl
  exact ⟨rfl, rfl⟩

/-- C10, witness: with the broadcast `hi` and then the unicast `bye` to "bob"
queued, the loop ends with the queue empty, mailbox 0 holding `hi` and mailbox
1 holding `hi` followed by `bye`. -/
theorem Run_drains_queue_in_order_witness :
    Example.queued.ctx = none ∧
    Example.queued.input = [Example.hi, Example.bye] ∧
    Example.queued.Run [(Select.recv, Example.queued.users.entries),
        (Select.recv, Example.queued.users.entries)]
      = some { broker := { (Example.queued.sendAll
                  [(Example.queued.users.entries, Example.hi),
                   (Example.queued.users.entries, Example.bye)]).broker with input := [] },
               phase := Phase.running } ∧
    ((Example.queued.sendAll [(Example.queued.users.entries, Example.hi),
        (Example.queued.users.entries, Example.bye)]).broker.chans 0).buf = [Example.hi] ∧
    ((Example.queued.sendAll [(Example.queued.users.entries, Example.hi),
        (Example.queued.users.entries, Example.bye)]).broker.chans 1).buf
      = [Example.hi, Example.bye] :=
  have h := Run_drains_queue_in_order Example.queued
    [Example.queued.users.entries, Example.queued.users.entries] rfl rfl
    (fun o ho => by
      simp only [List.mem_cons, List.mem_singleton, List.not_mem_nil, or_false, or_self] at ho
      rw [ho]
      exact List.Perm.refl _)
    (fun c _ => ⟨rfl, by
      have hd : Example.queued.demand Example.queued.input c ≤ 2 := by
        rcases c with _ | _ | c
        · decide
        · decide
        · simp [Broker.demand, Broker.copiesTo, Broker.identitiesOf, Example.queued,
            Example.aliceBob, Example.hi, Example.bye, NewBroker, Broker.RegisterUser,
            AList.lookup, AList.insert, List.kerase, List.dlookup]
      show 0 + Example.queued.demand Example.queued.input c ≤ 2
      omega⟩)
  ⟨rfl, rfl, h.2.1, by decide, by decide⟩

/-! ## The loop `Run` stops once -/

/-- The two ways in which one iteration of the loop can go. -/
theorem Run_step_cases (pick : Select) (order : Order) (l l1 : LoopState)
    (h : Run.step pick order l = some l1) :
    l.phase = Phase.running ∧
    ((pick = Select.ctxDone ∧ l.broker.ctx.isSome = true ∧
        ((l.broker.done = true ∧ l1 = { broker := l.broker, phase := Phase.panicked }) ∨
         (l.broker.done = false ∧
           l1 = { broker := { l.broker with done := true }, phase := Phase.stopped }))) ∨
     (pick = Select.recv ∧ ∃ msg rest, l.broker.input = msg :: rest ∧
        l1 = { broker := (Broker.SendMessage { l.broker with input := rest } order msg).broker,
               phase := Phase.ofStatus
                 (Broker.SendMessage { l.broker with input := rest } order msg).status })) := by
  unfold Run.step at h
  split at h
  · rename_i hph
    refine ⟨hph, ?_⟩
    split at h
    · left
      split at h
      · rename_i hc
        split at h
        · rename_i hd
          exact ⟨rfl, hc, Or.inl ⟨hd, (Option.some.inj h).symm⟩⟩
        · rename_i hd
          exact ⟨rfl, hc, Or.inr ⟨by simpa using hd, (Option.some.inj h).symm⟩⟩
      · cases h
    · right
      split at h
      · cases h
      · rename_i msg rest hin
        exact ⟨rfl, msg, rest, hin, (Option.some.inj h).symm⟩
  · cases h

theorem Phase_ofStatus_ne_stopped (st : Status) : Phase.ofStatus st ≠ Phase.stopped := by
  cases st <;> simp [Phase.ofStatus]

/-- C11.  In the step relation of the loop of `Run`: a step that ends in
`stopped` starts in `running`, is taken with the lifecycle context cancelled,
finds `done` open and closes it, and changes nothing else; no other step
changes `done`; when the context is cancelled and `done` is open that step can
be taken; and from `stopped` there is no step at all, so no message is taken
from the inbound queue, no mailbox changes and the loop does not return to
`running`: an execution that starts in `stopped` is the empty one. -/
theorem Run_stops_once (l : LoopState) :
    (∀ l1, Run.Step l l1 → l1.phase = Phase.stopped →
      l.phase = Phase.running ∧ l.broker.ctx ≠ none ∧ l.broker.done = false ∧
      l1.broker = { l.broker with done := true }) ∧
    (∀ l1, Run.Step l l1 → l1.phase ≠ Phase.stopped → l1.broker.done = l.broker.done) ∧
    (l.phase = Phase.running → l.broker.ctx ≠ none → l.broker.done = false →
      Run.Step l { broker := { l.broker with done := true }, phase := Phase.stopped }) ∧
    (l.phase = Phase.stopped →
      (∀ l1, ¬ Run.Step l l1) ∧
      (∀ pick order, Run.step pick order l = none) ∧
      (∀ sched l1, Run.steps sched l = some l1 → sched = [] ∧ l1 = l)) := by
  refine ⟨?_, ?_, ?_, ?_⟩
  · rintro l1 ⟨pick, order, _, hs⟩ hstop
    obtain ⟨hrun, hc⟩ := Run_step_cases pick order l l1 hs
    rcases hc with ⟨_, hctx, hd | hd⟩ | ⟨_, msg, rest, _, hl1⟩
    · rw [hd.2] at hstop
      cases hstop
    · refine ⟨hrun, ?_, hd.1, by rw [hd.2]⟩
      intro hn
      rw [hn] at hctx
      cases hctx
    · rw [hl1] at hstop
      exact absurd hstop (Phase_ofStatus_ne_stopped _)
  · rintro l1 ⟨pick, order, _, hs⟩ hne
    obtain ⟨_, hc⟩ := Run_step_cases pick order l l1 hs
    rcases hc with ⟨_, _, hd | hd⟩ | ⟨_, msg, rest, _, hl1⟩
    · rw [hd.2]
    · rw [hd.2] at hne
      exact absurd rfl hne
    · rw [hl1, SendMessage_broker]
  · intro hrun hctx hd
    refine ⟨Select.ctxDone, l.broker.users.entries, List.Perm.refl _, ?_⟩
    have hsome : l.broker.ctx.isSome = true := Option.isSome_iff_ne_none.mpr hctx
    simp [Run.step, hrun, hsome, hd]
  · intro hstop
    have hnone : ∀ pick order, Run.step pick order l = none := by
      intro pick order
      simp [Run.step, hstop]
    refine ⟨?_, hnone, ?_⟩
    · rintro l1 ⟨pick, order, _, hs⟩
      rw [hnone pick order] at hs
      cases hs
    · intro sched l1 hs
      cases sched with
      | nil =>
        simp only [Run.steps] at hs
        exact ⟨rfl, (Option.some.inj hs).symm⟩
      | cons p rest =>
        obtain ⟨pick, order⟩ := p
        simp [Run.steps, hnone pick order] at hs

/-- C11, witness: on the cancelled broker the loop steps from `running` to
`stopped` and closes `done`; from there the next iteration does not exist. -/
theorem Run_stops_once_witness :
    Example.atSelect.phase = Phase.running ∧ Example.atSelect.broker.ctx ≠ none ∧
    Example.atSelect.broker.done = false ∧
    Run.step Select.ctxDone [] Example.atSelect = some Example.afterStop ∧
    Run.Step Example.atSelect Example.afterStop ∧
    Example.afterStop.phase = Phase.stopped ∧ Example.afterStop.broker.done = true ∧
    Run.step Select.recv [] Example.afterStop = none :=
  ⟨rfl, by decide, rfl, rfl,
    (Run_stops_once Example.atSelect).2.2.1 rfl (by decide) rfl, rfl, rfl,
    ((Run_stops_once Example.afterStop).2.2.2 rfl).2.1 Select.recv []⟩

/-! ## Lock discipline -/

theorem rangeSendT_fst (msg : Message) (cs : List ChanId) :
    ∀ h : Heap, (rangeSendT h cs msg).1 = rangeSend h cs msg := by
  induction cs with
  | nil => intro h; rfl
  | cons c rest ih =>
    intro h
    unfold rangeSendT rangeSend
    split
    · exact ih _
    · rfl

/-- The loop of a broadcast only reads the map and sends. -/
theorem rangeSendT_events (msg : Message) (cs : List ChanId) :
    ∀ (h : Heap) (e : Event), e ∈ (rangeSendT h cs msg).2 →
      e = Event.readUsers ∨ ∃ c, e = Event.send c := by
  induction cs with
  | nil =>
    intro h e he
    simp [rangeSendT] at he
    exact Or.inl he
  | cons c rest ih =>
    intro h e he
    unfold rangeSendT at he
    split at he
    · simp only [List.mem_cons] at he
      rcases he with he | he | he
      · exact Or.inl he
      · exact Or.inr ⟨c, he⟩
      · exact ih _ e he
    · simp at he
      exact Or.inl he

/-- Reads of the map and sends, performed under a shared hold, keep the
discipline and the holds. -/
theorem disciplined_reads_sends (ls : LockState) (hs : 0 < ls.shared) (t1 t2 : List Event)
    (h1 : ∀ e ∈ t1, e = Event.readUsers ∨ ∃ c, e = Event.send c) :
    disciplined ls (t1 ++ t2) = disciplined ls t2 := by
  induction t1 with
  | nil => rfl
  | cons e rest ih =>
    have hrest := ih (fun e1 he1 => h1 e1 (List.mem_cons_of_mem _ he1))
    rcases h1 e (List.mem_cons_self _ _) with he | ⟨c, he⟩
    · subst he
      simp [disciplined, hs, hrest]
    · subst he
      simp [disciplined, hrest]

theorem SendMessageT_fst (b : Broker) (order : Order) (msg : Message) :
    (b.SendMessageT order msg).1 = b.SendMessage order msg := by
  unfold Broker.SendMessageT Broker.SendMessage Broker.sends
  by_cases hb : msg.Broadcast = true
  · simp only [hb, if_true, rangeSendT_fst]
    split <;> rfl
  · simp only [hb]
    cases hl : b.users.lookup msg.Recipient with
    | none => rfl
    | some c =>
      simp only [Bool.false_eq_true, if_false]
      split <;> rfl

/-- The events of `SendMessage`: the shared lock is taken, then the map is
read and mailboxes are sent on, then either the call is stuck or has panicked,
or the lock is released and the context is asked for its error. -/
theorem SendMessageT_events (b : Broker) (order : Order) (msg : Message) :
    ∃ mid tail, (b.SendMessageT order msg).2 = Event.RLock :: (mid ++ tail) ∧
      (∀ e ∈ mid, e = Event.readUsers ∨ ∃ c, e = Event.send c) ∧
      (tail = [] ∨ tail = [Event.RUnlock, Event.ctxErr]) := by
  unfold Broker.SendMessageT
  by_cases hb : msg.Broadcast = true
  · rw [if_pos hb]
    split
    · exact ⟨(rangeSendT b.chans (order.map Sigma.snd) msg).2, [Event.RUnlock, Event.ctxErr],
        by simp, rangeSendT_events msg _ b.chans, Or.inr rfl⟩
    · exact ⟨(rangeSendT b.chans (order.map Sigma.snd) msg).2, [],
        by simp, rangeSendT_events msg _ b.chans, Or.inl rfl⟩
  · rw [if_neg hb]
    split
    · rename_i c _
      split
      · exact ⟨[Event.readUsers, Event.readUsers, Event.send c],
          [Event.RUnlock, Event.ctxErr], rfl, by simp, Or.inr rfl⟩
      · exact ⟨[Event.readUsers, Event.readUsers], [], rfl, by simp, Or.inl rfl⟩
    · exact ⟨[Event.readUsers], [Event.RUnlock, Event.ctxErr], rfl, by simp, Or.inr rfl⟩

theorem SendMessageT_disciplined (b : Broker) (order : Order) (msg : Message) :
    disciplined LockState.free (b.SendMessageT order msg).2 = true ∧
    receivesInput (b.SendMessageT order msg).2 = false ∧
    Event.writeUsers ∉ (b.SendMessageT order msg).2 := by
  obtain ⟨mid, tail, htrace, hmid, htail⟩ := SendMessageT_events b order msg
  rw [htrace]
  have hmem : ∀ e, e ∈ Event.RLock :: (mid ++ tail) →
      e ≠ Event.recvInput ∧ e ≠ Event.writeUsers := by
    intro e he
    simp only [List.mem_cons, List.mem_append] at he
    rcases he with he | he | he
    · subst he
      exact ⟨by decide, by decide⟩
    · rcases hmid e he with h | ⟨c, h⟩
      · subst h
        exact ⟨by decide, by decide⟩
      · subst h
        exact ⟨fun h => (by cases h), fun h => (by cases h)⟩
    · rcases htail with h | h
      · subst h
        cases he
      · subst h
        simp only [List.mem_cons, List.mem_singleton, List.not_mem_nil, or_false] at he
        rcases he with he | he <;> subst he <;> exact ⟨by decide, by decide⟩
  refine ⟨?_, ?_, fun h => (hmem _ h).2 rfl⟩
  · have h1 : disciplined LockState.free (Event.RLock :: (mid ++ tail))
        = disciplined { shared := 1, exclusive := false } (mid ++ tail) := rfl
    rw [h1, disciplined_reads_sends _ Nat.one_pos mid tail hmid]
    rcases htail with h | h <;> subst h <;> rfl
  · cases hc : receivesInput (Event.RLock :: (mid ++ tail)) with
    | false => rfl
    | true =>
      have : Event.recvInput ∈ Event.RLock :: (mid ++ tail) := by
        simpa [receivesInput] using hc
      exact absurd rfl (hmem _ this).1

theorem Run_stepT_fst (pick : Select) (order : Order) (l : LoopState) :
    (Run.stepT pick order l).map Prod.fst = Run.step pick order l := by
  unfold Run.stepT Run.step
  cases l.phase <;> try rfl
  cases pick
  · simp only
    split
    · split <;> rfl
    · rfl
  · simp only
    cases l.broker.input with
    | nil => rfl
    | cons msg rest =>
      simp only [Option.map_some', SendMessageT_fst]

/-- C17.  The calls with their events are the calls of the model, and in the
events of every call of `SendMessage`, `RegisterUser`, `UnregisterUser` and of
every iteration of `Run`, performed by a goroutine that does not hold
`usersMutex` beforehand: every read of the map happens under a shared hold of
the lock and every write under the exclusive hold; `SendMessage` does not
write the map; and the only receive from the inbound queue is the one of the
iteration of `Run`. -/
theorem usersMutex_discipline (b : Broker) (order : Order) (msg : Message) (userID : String)
    (recv : ChanId) (pick : Select) (l : LoopState) :
    ((b.SendMessageT order msg).1 = b.SendMessage order msg ∧
      (b.RegisterUserT userID recv).1 = b.RegisterUser userID recv ∧
      (b.UnregisterUserT userID).1 = b.UnregisterUser userID ∧
      (Run.stepT pick order l).map Prod.fst = Run.step pick order l) ∧
    (disciplined LockState.free (b.SendMessageT order msg).2 = true ∧
      Event.writeUsers ∉ (b.SendMessageT order msg).2 ∧
      disciplined LockState.free (b.RegisterUserT userID recv).2 = true ∧
      disciplined LockState.free (b.UnregisterUserT userID).2 = true ∧
      (∀ r, Run.stepT pick order l = some r → disciplined LockState.free r.2 = true)) ∧
    (receivesInput (b.SendMessageT order msg).2 = false ∧
      receivesInput (b.RegisterUserT userID recv).2 = false ∧
      receivesInput (b.UnregisterUserT userID).2 = false ∧
      (∀ r, Run.stepT pick order l = some r → pick = Select.recv →
        r.2.count Event.recvInput = 1)) := by
  obtain ⟨hd, hr, hw⟩ := SendMessageT_disciplined b order msg
  have hstep : ∀ r, Run.stepT pick order l = some r →
      disciplined LockState.free r.2 = true ∧
      (pick = Select.recv → r.2.count Event.recvInput = 1) := by
    intro r hr
    unfold Run.stepT at hr
    split at hr
    · split at hr
      · split at hr
        · split at hr <;> cases hr <;> exact ⟨rfl, fun h => by cases h⟩
        · cases hr
      · split at hr
        · cases hr
        · rename_i m rest _
          cases hr
          obtain ⟨hd1, hr1, _⟩ :=
            SendMessageT_disciplined { l.broker with input := rest } order m
          refine ⟨hd1, fun _ => ?_⟩
          have hnot : Event.recvInput ∉
              (Broker.SendMessageT { l.broker with input := rest } order m).2 := by
            intro hmem
            have : receivesInput (Broker.SendMessageT { l.broker with input := rest }
                order m).2 = true := by
              simpa [receivesInput] using hmem
            rw [hr1] at this
            cases this
          simp [List.count_eq_zero_of_not_mem hnot]
    · cases hr
  exact ⟨⟨SendMessageT_fst b order msg, rfl, rfl, Run_stepT_fst pick order l⟩,
    ⟨hd, hw, rfl, rfl, fun r h => (hstep r h).1⟩,
    ⟨hr, rfl, rfl, fun r h => (hstep r h).2⟩⟩

/-- C17, witness: the events of the broadcast to "alice" and "bob", of a
unicast to an unregistered identity and of a registration. -/
theorem usersMutex_discipline_witness :
    (Example.aliceBob.SendMessageT Example.aliceBob.users.entries Example.hi).2
      = [Event.RLock, Event.readUsers, Event.send 1, Event.readUsers, Event.send 0,
         Event.readUsers, Event.RUnlock, Event.ctxErr] ∧
    disciplined LockState.free
      (Example.aliceBob.SendMessageT Example.aliceBob.users.entries Example.hi).2 = true ∧
    (Example.aliceBob.RegisterUserT "dave" 2).2
      = [Event.Lock, Event.writeUsers, Event.Unlock] ∧
    disciplined LockState.free [Event.readUsers] = false ∧
    disciplined LockState.free [Event.RLock, Event.writeUsers] = false :=
  ⟨by decide,
    (usersMutex_discipline Example.aliceBob Example.aliceBob.users.entries Example.hi "dave" 2
      Select.recv Example.atSelect).2.1.1,
    rfl, by decide, by decide⟩

/-! ## A registry call against a call of `SendMessage` -/

/-- C18, counterexample.  "bob" is registered with a full mailbox that nobody
drains.  A unicast to "bob" takes the shared lock and then waits on the
mailbox; `RegisterUser("dave", 2)` has not taken the lock yet.  From there
neither goroutine can take a step: the registry call does not complete. -/
theorem RegisterUser_waits_forever :
    Sys.step Tid.sender [] Example.contended = some Example.contendedLocked ∧
    Example.contendedLocked.registrar = RegPc.start ∧
    Example.contendedLocked.readers = 1 ∧
    (∀ order, Sys.step Tid.sender order Example.contendedLocked = none) ∧
    (∀ order, Sys.step Tid.registrar order Example.contendedLocked = none) ∧
    Example.contendedLocked.Stuck := by
  have h1 : ∀ order, Sys.step Tid.sender order Example.contendedLocked = none :=
    fun _ => rfl
  have h2 : ∀ order, Sys.step Tid.registrar order Example.contendedLocked = none :=
    fun _ => rfl
  refine ⟨rfl, rfl, rfl, h1, h2, ?_⟩
  intro t order
  cases t
  · exact h1 order
  · exact h2 order

theorem entries_length_apply (op : RegOp) (b : Broker) :
    (op.apply b).users.entries.length ≤ b.users.entries.length + 1 := by
  cases op with
  | register userID recv =>
    show (b.users.insert userID recv).entries.length ≤ _
    rw [AList.insert_entries, List.length_cons]
    have : (List.kerase userID b.users.entries).length ≤ b.users.entries.length :=
      (List.kerase_sublist userID b.users.entries).length_le
    omega
  | unregister userID =>
    show (List.kerase userID b.users.entries).length ≤ _
    have : (List.kerase userID b.users.entries).length ≤ b.users.entries.length :=
      (List.kerase_sublist userID b.users.entries).length_le
    omega

/-- Every step uses up one of the steps that are left. -/
theorem Sys.step_measure (t : Tid) (order : Order) (s s1 : Sys)
    (h : s.step t order = some s1) : s1.measure + 1 ≤ s.measure := by
  cases t with
  | sender =>
    simp only [Sys.step] at h
    unfold Sys.stepSender at h
    cases hs : s.sender with
    | start =>
      rw [hs] at h
      simp only at h
      split at h
      · cases h
      · split at h
        · split at h
          · rename_i hperm
            cases h
            have hlen : order.length = s.broker.users.entries.length := hperm.length_eq
            simp only [Sys.measure, hs, List.length_map]
            omega
          · cases h
        · split at h <;> cases h <;> simp only [Sys.measure, hs, List.length_singleton,
            List.length_nil] <;> omega
    | sending pending =>
      rw [hs] at h
      cases pending with
      | nil =>
        simp only at h
        cases h
        simp only [Sys.measure, hs, List.length_nil]
        omega
      | cons c rest =>
        simp only at h
        split at h
        · cases h
          simp only [Sys.measure, hs, List.length_cons]
          omega
        · cases h
        · cases h
          simp only [Sys.measure, hs, List.length_cons]
          omega
    | unlocked =>
      rw [hs] at h
      simp only at h
      cases h
      simp only [Sys.measure, hs]
      omega
    | returned e =>
      rw [hs] at h
      cases h
    | panicked =>
      rw [hs] at h
      cases h
  | registrar =>
    simp only [Sys.step] at h
    unfold Sys.stepRegistrar at h
    cases hr : s.registrar with
    | start =>
      rw [hr] at h
      simp only at h
      split at h
      · cases h
        simp only [Sys.measure, hr, RegPc.wrote]
        omega
      · cases h
    | locked =>
      rw [hr] at h
      simp only at h
      cases h
      have := entries_length_apply s.op s.broker
      simp only [Sys.measure, hr, RegPc.wrote]
      cases s.sender <;> first | (simp; done) | (simp; omega)
    | written =>
      rw [hr] at h
      simp only at h
      cases h
      simp only [Sys.measure, hr, RegPc.wrote]
      omega
    | returned =>
      rw [hr] at h
      cases h

/-- An interleaving is no longer than the bound of its first state. -/
theorem Sys.run_measure (sched : List (Tid × Order)) :
    ∀ (s s1 : Sys), Sys.run sched s = some s1 → sched.length + s1.measure ≤ s.measure := by
  induction sched with
  | nil =>
    intro s s1 h
    simp only [Sys.run] at h
    cases h
    simp
  | cons p rest ih =>
    intro s s1 h
    obtain ⟨t, order⟩ := p
    simp only [Sys.run] at h
    cases hstep : s.step t order with
    | none => rw [hstep] at h; cases h
    | some s2 =>
      rw [hstep] at h
      have h1 := Sys.step_measure t order s s2 hstep
      have h2 := ih s2 s1 h
      simp only [List.length_cons]
      omega

theorem apply_users (op : RegOp) (b b1 : Broker) (h : b1.users = b.users) :
    (op.apply b1).users = (op.apply b).users := by
  cases op <;> simp [RegOp.apply, Broker.RegisterUser, Broker.UnregisterUser, h]

/-- A send that has room proceeds, and leaves room for the sends after it. -/
theorem pending_room_tail (h : Heap) (d : ChanId) (rest : List ChanId) (msg : Message)
    (hroom : ∀ c ∈ d :: rest,
      (h c).closed = false ∧ (h c).buf.length + (d :: rest).count c ≤ (h c).cap) :
    chanSend h d msg
      = { heap := Function.update h d ((h d).push 1 msg), status := Status.returned none } ∧
    ∀ c ∈ rest,
      (Function.update h d ((h d).push 1 msg) c).closed = false ∧
        (Function.update h d ((h d).push 1 msg) c).buf.length + rest.count c
          ≤ (Function.update h d ((h d).push 1 msg) c).cap := by
  have hd := hroom d (List.mem_cons_self _ _)
  have hcount : 0 < (d :: rest).count d := by simp
  refine ⟨chanSend_of_room h d msg hd.1 (by omega), ?_⟩
  intro c hc
  by_cases hcd : c = d
  · subst hcd
    have := hroom c (List.mem_cons_self _ _)
    simp only [List.count_cons_self] at this
    simp only [Function.update_same, Chan.push, List.length_append, List.length_replicate]
    exact ⟨this.1, by omega⟩
  · have := hroom c (List.mem_cons_of_mem _ hc)
    rw [List.count_cons_of_ne hcd] at this
    simpa [Function.update_noteq hcd] using this

theorem Sys.init_inv (b : Broker) (msg : Message) (op : RegOp)
    (hroom : ∀ c, 0 < b.copiesTo msg c →
      (b.chans c).closed = false ∧ (b.chans c).buf.length + b.copiesTo msg c ≤ (b.chans c).cap) :
    (Sys.init b msg op).Inv b op :=
  ⟨rfl, rfl, rfl, fun h => (by cases h), rfl, fun _ => hroom⟩

/-- Every step keeps the invariant. -/
theorem Sys.step_inv (b : Broker) (op : RegOp) (t : Tid) (order : Order) (s s1 : Sys)
    (hinv : s.Inv b op) (h : s.step t order = some s1) : s1.Inv b op := by
  obtain ⟨hop, hread, hwrite, hexcl, husers, hroom⟩ := hinv
  unfold Sys.Room at hroom
  cases t with
  | sender =>
    simp only [Sys.step] at h
    unfold Sys.stepSender at h
    cases hs : s.sender with
    | start =>
      rw [hs] at h hread hroom
      simp only at h hroom
      have hr0 : s.readers = 0 := by simpa [SendPc.holds] using hread
      split at h
      · cases h
      · rename_i hw
        have hreg : s.registrar.holds = false := by
          rw [← hwrite]
          simpa using hw
        split at h
        · rename_i hb
          split at h
          · rename_i hperm
            cases h
            refine ⟨hop, by simp [SendPc.holds, hr0], hwrite, fun _ => hreg, husers, ?_⟩
            intro hstart c hc
            have hcount := count_order_eq_identitiesOf s.broker order hperm c
            have hcopies : s.broker.copiesTo s.msg c = (order.map Sigma.snd).count c := by
              rw [hcount]
              simp [Broker.copiesTo, hb]
            have hpos : 0 < s.broker.copiesTo s.msg c := by
              rw [hcopies]
              exact List.count_pos_iff.mpr hc
            have := hroom hstart c hpos
            rw [hcopies] at this
            exact this
          · cases h
        · rename_i hb
          split at h
          · rename_i c hl
            cases h
            refine ⟨hop, by simp [SendPc.holds, hr0], hwrite, fun _ => hreg, husers, ?_⟩
            intro hstart d hd
            have hdc : d = c := by simpa using hd
            subst hdc
            have hcopies : s.broker.copiesTo s.msg d = 1 := by
              simp [Broker.copiesTo, hb, hl]
            have := hroom hstart d (by omega)
            rw [hcopies] at this
            simpa using this
          · cases h
            refine ⟨hop, by simp [SendPc.holds, hr0], hwrite, fun _ => hreg, husers, ?_⟩
            intro _ d hd
            cases hd
    | sending pending =>
      rw [hs] at h hread hroom hexcl
      simp only at hroom
      cases pending with
      | nil =>
        simp only at h
        cases h
        have hr1 : s.readers = 1 := by simpa [SendPc.holds] using hread
        exact ⟨hop, by simp [SendPc.holds, hr1], hwrite, fun hh => (by cases hh), husers,
          fun _ => trivial⟩
      | cons c rest =>
        simp only at h
        split at h
        · rename_i e hst
          cases h
          refine ⟨hop, hread, hwrite, hexcl, husers, ?_⟩
          intro hstart
          have hr := pending_room_tail s.broker.chans c rest s.msg (hroom hstart)
          intro d hd
          show ((chanSend s.broker.chans c s.msg).heap d).closed = false ∧ _
          rw [hr.1]
          exact hr.2 d hd
        · cases h
        · rename_i hst
          cases h
          refine ⟨hop, hread, hwrite, hexcl, husers, ?_⟩
          intro hstart
          have hr := pending_room_tail s.broker.chans c rest s.msg (hroom hstart)
          rw [hr.1] at hst
          cases hst
    | unlocked =>
      rw [hs] at h hread
      simp only at h
      cases h
      exact ⟨hop, hread, hwrite, fun hh => (by cases hh), husers, fun _ => trivial⟩
    | returned e =>
      rw [hs] at h
      cases h
    | panicked =>
      rw [hs] at h
      cases h
  | registrar =>
    simp only [Sys.step] at h
    unfold Sys.stepRegistrar at h
    cases hr : s.registrar with
    | start =>
      rw [hr] at h husers
      simp only at h
      split at h
      · rename_i hfree
        cases h
        have hnh : s.sender.holds = false := by
          cases hh : s.sender.holds with
          | false => rfl
          | true =>
            rw [hh] at hread
            simp at hread
            omega
        exact ⟨hop, hread, rfl, fun hh => (by rw [hnh] at hh; cases hh), husers,
          fun hh => (by cases hh)⟩
      · cases h
    | locked =>
      rw [hr] at h husers hexcl hwrite
      simp only at h
      cases h
      have hnh : s.sender.holds = false := by
        cases hh : s.sender.holds with
        | false => rfl
        | true => exact absurd (hexcl hh) (by decide)
      refine ⟨hop, hread, hwrite, fun hh => (by rw [hnh] at hh; cases hh), ?_,
        fun hh => (by cases hh)⟩
      show (s.op.apply s.broker).users = _
      rw [hop]
      exact apply_users op b s.broker (by simpa [RegPc.wrote] using husers)
    | written =>
      rw [hr] at h husers
      simp only at h
      cases h
      exact ⟨hop, hread, rfl, fun _ => rfl, husers, fun hh => (by cases hh)⟩
    | returned =>
      rw [hr] at h
      cases h

theorem Sys.run_inv (b : Broker) (op : RegOp) (sched : List (Tid × Order)) :
    ∀ (s s1 : Sys), s.Inv b op → Sys.run sched s = some s1 → s1.Inv b op := by
  induction sched with
  | nil =>
    intro s s1 hinv h
    simp only [Sys.run] at h
    cases h
    exact hinv
  | cons p rest ih =>
    intro s s1 hinv h
    obtain ⟨t, order⟩ := p
    simp only [Sys.run] at h
    cases hstep : s.step t order with
    | none => rw [hstep] at h; cases h
    | some s2 =>
      rw [hstep] at h
      exact ih s2 s1 (Sys.step_inv b op t order s s2 hinv hstep) h

/-- A registry call that has not returned can take its next step when it
holds the lock, and also when nobody holds it. -/
theorem Sys.registrar_enabled (b : Broker) (op : RegOp) (s : Sys) (hinv : s.Inv b op)
    (hnot : s.registrar ≠ RegPc.returned)
    (hfree : s.registrar = RegPc.start → s.readers = 0) :
    ∃ s1, s.step Tid.registrar [] = some s1 := by
  obtain ⟨_, _, hwrite, _, _, _⟩ := hinv
  simp only [Sys.step]
  unfold Sys.stepRegistrar
  cases hr : s.registrar with
  | start =>
    rw [hr] at hwrite
    have hw : s.writer = false := hwrite
    simp [hfree hr, hw]
  | locked => exact ⟨_, rfl⟩
  | written => exact ⟨_, rfl⟩
  | returned => exact absurd hr hnot

/-- In a state of the invariant in which no goroutine can take a step, the
registry call has returned. -/
theorem Sys.stuck_returned (b : Broker) (op : RegOp) (s : Sys) (hinv : s.Inv b op)
    (hstuck : s.Stuck) : s.registrar = RegPc.returned := by
  by_contra hnot
  have hreg : s.registrar = RegPc.start ∧ s.readers ≠ 0 := by
    by_cases hst : s.registrar = RegPc.start
    · refine ⟨hst, fun h0 => ?_⟩
      obtain ⟨s1, hs1⟩ := Sys.registrar_enabled b op s hinv hnot (fun _ => h0)
      rw [hstuck Tid.registrar []] at hs1
      cases hs1
    · obtain ⟨s1, hs1⟩ := Sys.registrar_enabled b op s hinv hnot (fun h => absurd h hst)
      rw [hstuck Tid.registrar []] at hs1
      cases hs1
  obtain ⟨hstart, hreaders⟩ := hreg
  obtain ⟨_, hread, _, _, _, hroom⟩ := hinv
  have hR := hroom hstart
  have hsend := hstuck Tid.sender []
  simp only [Sys.step] at hsend
  unfold Sys.stepSender at hsend
  unfold Sys.Room at hR
  cases hs : s.sender with
  | start =>
    rw [hs] at hread
    exact hreaders (by simpa [SendPc.holds] using hread)
  | sending pending =>
    rw [hs] at hsend hR
    cases pending with
    | nil => simp at hsend
    | cons c rest =>
      simp only at hsend hR
      have hr := pending_room_tail s.broker.chans c rest s.msg hR
      rw [hr.1] at hsend
      simp at hsend
  | unlocked =>
    rw [hs] at hread
    exact hreaders (by simpa [SendPc.holds] using hread)
  | returned e =>
    rw [hs] at hread
    exact hreaders (by simpa [SendPc.holds] using hread)
  | panicked =>
    rw [hs] at hR
    exact hR

theorem Sys.run_append (l1 l2 : List (Tid × Order)) :
    ∀ s : Sys, Sys.run (l1 ++ l2) s = (Sys.run l1 s).bind (Sys.run l2) := by
  induction l1 with
  | nil => intro s; rfl
  | cons p rest ih =>
    intro s
    obtain ⟨t, order⟩ := p
    simp only [List.cons_append, Sys.run]
    cases s.step t order with
    | none => rfl
    | some s1 => exact ih s1

theorem rangeSend_status_returned (msg : Message) (cs : List ChanId) :
    ∀ (h : Heap) (e : Option CtxErr),
      (rangeSend h cs msg).status = Status.returned e → e = none := by
  induction cs with
  | nil =>
    intro h e he
    simp only [rangeSend, Status.returned.injEq] at he
    exact he.symm
  | cons c rest ih =>
    intro h e he
    rw [rangeSend] at he
    split at he
    · exact ih _ e he
    · rename_i hne
      exact absurd he (hne e)

/-- The sends of `SendMessage` are the loop `rangeSend` over its targets. -/
theorem rangeSend_targets (b : Broker) (order : Order) (msg : Message) (e : Option CtxErr)
    (hst : (b.sends order msg).status = Status.returned e) :
    (rangeSend b.chans (b.targets order msg) msg).status = Status.returned none ∧
    (rangeSend b.chans (b.targets order msg) msg).heap = (b.sends order msg).heap := by
  unfold Broker.sends at hst ⊢
  unfold Broker.targets
  by_cases hb : msg.Broadcast = true
  · simp only [hb, if_true] at hst ⊢
    have := rangeSend_status_returned msg _ _ e hst
    subst this
    exact ⟨hst, (by first | rfl | trivial)⟩
  · simp only [hb] at hst ⊢
    cases hl : b.users.lookup msg.Recipient with
    | none => exact ⟨rfl, rfl⟩
    | some c =>
      rw [hl] at hst
      simp only [Bool.false_eq_true, if_false] at hst ⊢
      simp only [rangeSend, hst]
      exact ⟨(by first | rfl | trivial), (by first | rfl | trivial)⟩

/-- The sends of a call of `SendMessage` in the two-goroutine model, when the
other goroutine does not step in between, are the loop `rangeSend`. -/
theorem Sys.sends_alone (order : Order) (pending : List ChanId) :
    ∀ (s : Sys), s.sender = SendPc.sending pending →
      (rangeSend s.broker.chans pending s.msg).status = Status.returned none →
      Sys.run (List.replicate pending.length (Tid.sender, order)) s
        = some (s.withSender (rangeSend s.broker.chans pending s.msg).heap
            (SendPc.sending [])) := by
  induction pending with
  | nil =>
    intro s hs _
    obtain ⟨broker, readers, writer, msg, sender, op, registrar⟩ := s
    simp only at hs
    subst hs
    rfl
  | cons c rest ih =>
    intro s hs hst
    cases hcs : (chanSend s.broker.chans c s.msg).status with
    | returned e =>
      have hunf : rangeSend s.broker.chans (c :: rest) s.msg
          = rangeSend (chanSend s.broker.chans c s.msg).heap rest s.msg := by
        rw [rangeSend, hcs]
      have h1 : s.step Tid.sender order
          = some (s.withSender (chanSend s.broker.chans c s.msg).heap (SendPc.sending rest)) := by
        simp only [Sys.step, Sys.stepSender, hs, hcs]
        rfl
      have h2 := ih (s.withSender (chanSend s.broker.chans c s.msg).heap (SendPc.sending rest))
        rfl (by rw [hunf] at hst; exact hst)
      simp only [List.length_cons, List.replicate_succ, Sys.run, h1]
      rw [h2, hunf]
      rfl
    | blocked =>
      rw [rangeSend, hcs] at hst
      cases hst
    | panicked =>
      rw [rangeSend, hcs] at hst
      cases hst

/-- A call of `SendMessage` that runs in the two-goroutine model without the
registry call stepping in between, and whose sends all proceed, ends as
`Broker.SendMessage` does: same mailboxes, same returned error, the lock
free. -/
theorem Sys.sender_alone (b : Broker) (msg : Message) (op : RegOp) (order : Order)
    (ho : b.RangeOrder order) (e : Option CtxErr)
    (hret : (b.SendMessage order msg).status = Status.returned e) :
    Sys.run (List.replicate ((b.targets order msg).length + 3) (Tid.sender, order))
        (Sys.init b msg op)
      = some ((Sys.init b msg op).withSender (b.SendMessage order msg).broker.chans
          (SendPc.returned b.ctx)) := by
  have hsends : ∃ e1, (b.sends order msg).status = Status.returned e1 := by
    unfold Broker.SendMessage at hret
    cases hst : (b.sends order msg).status with
    | returned e1 => exact ⟨e1, rfl⟩
    | blocked => rw [hst] at hret; cases hret
    | panicked => rw [hst] at hret; cases hret
  obtain ⟨e1, he1⟩ := hsends
  obtain ⟨hst, hheap⟩ := rangeSend_targets b order msg e1 he1
  have hlock : (Sys.init b msg op).step Tid.sender order
      = some { Sys.init b msg op with
                 readers := 1, sender := SendPc.sending (b.targets order msg) } := by
    have hperm : order.Perm b.users.entries := ho
    simp only [Sys.step, Sys.stepSender, Sys.init, Broker.targets]
    by_cases hb : msg.Broadcast = true
    · simp [hb, hperm]
    · simp only [hb]
      cases b.users.lookup msg.Recipient <;> simp
  have hall := Sys.sends_alone order (b.targets order msg)
    { Sys.init b msg op with readers := 1, sender := SendPc.sending (b.targets order msg) }
    rfl hst
  have hrep : List.replicate ((b.targets order msg).length + 3) (Tid.sender, order)
      = (Tid.sender, order) :: (List.replicate (b.targets order msg).length (Tid.sender, order)
          ++ [(Tid.sender, order), (Tid.sender, order)]) := by
    rw [show (b.targets order msg).length + 3 = ((b.targets order msg).length + 2) + 1 from rfl,
      List.replicate_succ, List.replicate_add]
    rfl
  rw [hrep]
  simp only [Sys.run, hlock]
  rw [Sys.run_append, hall]
  simp only [Option.bind, Sys.run, Sys.step, Sys.stepSender, Sys.withSender, Sys.init]
  rw [SendMessage_broker, hheap]

/-- C18, amended.  A registry call waits for nothing but `usersMutex`, which
a call of `SendMessage` holds for its whole delivery.  When every mailbox the
message is sent on is open and has room for the copies sent on it, then in
every interleaving of the two calls: the interleaving has at most
`len(b.users) + 8` steps; once no goroutine can take a step the registry call
has returned and the registry is the one it writes; and a registry call that
has not returned can take its next step whenever it holds the lock or nobody
holds it shared. -/
theorem registry_call_completes (b : Broker) (msg : Message) (op : RegOp)
    (sched : List (Tid × Order)) (s : Sys)
    (hroom : ∀ c, 0 < b.copiesTo msg c →
      (b.chans c).closed = false ∧ (b.chans c).buf.length + b.copiesTo msg c ≤ (b.chans c).cap)
    (hrun : Sys.run sched (Sys.init b msg op) = some s) :
    sched.length ≤ b.users.entries.length + 8 ∧
    (s.Stuck → s.registrar = RegPc.returned ∧ s.broker.users = (op.apply b).users) ∧
    (s.registrar ≠ RegPc.returned → (s.registrar = RegPc.start → s.readers = 0) →
      ∃ s1, s.step Tid.registrar [] = some s1) := by
  have hinv : s.Inv b op :=
    Sys.run_inv b op sched _ s (Sys.init_inv b msg op hroom) hrun
  have hmeas := Sys.run_measure sched _ s hrun
  refine ⟨?_, ?_, Sys.registrar_enabled b op s hinv⟩
  · have : (Sys.init b msg op).measure = b.users.entries.length + 8 := rfl
    omega
  · intro hstuck
    have hret := Sys.stuck_returned b op s hinv hstuck
    refine ⟨hret, ?_⟩
    have := hinv.2.2.2.2.1
    rw [hret] at this
    exact this

/-- C18, witness: the broadcast to "alice" and "bob", whose mailboxes have
room, against `RegisterUser("dave", 2)`.  In the interleaving `raceSchedule`
the registry call starts after the broadcast has released the lock; when it
is over no goroutine can take a step, the registry call has returned and
"dave" is registered. -/
theorem registry_call_completes_witness :
    Sys.run Example.raceSchedule Example.racing = some Example.raced ∧
    Example.raced.Stuck ∧
    Example.raced.registrar = RegPc.returned ∧
    Example.raced.sender = SendPc.returned none ∧
    Example.raced.broker.users.lookup "dave" = some 2 ∧
    (Example.raced.broker.chans 0).buf = [Example.hi] :=
  have hstuck : Example.raced.Stuck := fun t _ => by cases t <;> rfl
  have h := registry_call_completes Example.aliceBob Example.hi (RegOp.register "dave" 2)
    Example.raceSchedule Example.raced
    (fun c _ => ⟨rfl, by
      have h1 := identitiesOf_le Example.aliceBob c
      have h2 : Example.aliceBob.users.entries.length = 2 := by decide
      have h3 : Example.aliceBob.copiesTo Example.hi c = Example.aliceBob.identitiesOf c := rfl
      show 0 + Example.aliceBob.copiesTo Example.hi c ≤ 2
      omega⟩)
    rfl
  ⟨rfl, hstuck, (h.2.1 hstuck).1, rfl, by decide, by decide⟩

end Chatcore

/-! # Proofs: the message history store -/

namespace MessagePkg

theorem length_eq_zero_iff (s : String) : s.length = 0 ↔ s = "" := by
  constructor
  · intro h
    cases s with
    | mk d =>
      have hd : d = [] := List.length_eq_zero.mp h
      subst hd
      rfl
  · intro h
    subst h
    rfl

theorem keptBy_cons (user : String) (e : Message) (rest : List Message) :
    keptBy user (e :: rest)
      = if user.length ≠ 0 ∧ e.Sender ≠ user then keptBy user rest
        else e :: keptBy user rest := by
  unfold keptBy
  by_cases hu : user = ""
  · subst hu
    simp
  · have hl : user.length ≠ 0 := fun h => hu ((length_eq_zero_iff user).mp h)
    by_cases he : e.Sender = user
    · simp [List.filter_cons, hu, he]
    · simp [List.filter_cons, hu, he, hl]

theorem take_succ_set (l : List Message) (n : Nat) (x : Message) (h : n < l.length) :
    (l.set n x).take (n + 1) = l.take n ++ [x] := by
  rw [List.set_eq_take_append_cons_drop, if_pos h, List.take_append_eq_append_take]
  have hl : (List.take n l).length = n := by
    rw [List.length_take]
    omega
  rw [hl, List.take_of_length_le (by omega)]
  simp

theorem take_append_pad (l pad : List Message) (n : Nat) (x : Message) (h : l.length = n) :
    (l ++ [x] ++ pad).take (n + 1) = l ++ [x] := by
  apply List.take_left'
  simp [h]

/-- What `make` does: a fresh array, an empty slice on it, nothing else
touched. -/
theorem makeSlice_spec (m : Mem) (cap : Nat) :
    (makeSlice m cap).slice.Valid (makeSlice m cap).mem ∧
    (makeSlice m cap).slice.elems (makeSlice m cap).mem = [] ∧
    (makeSlice m cap).slice.arr = m.next ∧
    (makeSlice m cap).mem.next = m.next + 1 ∧
    (∀ a, a < m.next → (makeSlice m cap).mem.arrays a = m.arrays a) := by
  refine ⟨?_, ?_, rfl, rfl, ?_⟩
  · refine ⟨Nat.lt_succ_self _, Nat.zero_le _, ?_⟩
    simp [makeSlice]
  · simp [makeSlice, Slice.elems]
  · intro a ha
    have hne : a ≠ m.next := Nat.ne_of_lt ha
    simp [makeSlice, Function.update_noteq hne]

/-- What `append` does to a valid slice: the new slice shows the old elements
followed by the new one; the array written is the array of the slice or a
fresh one, so every other array in use is untouched. -/
theorem appendSlice_spec (grow : Nat → Nat) (m : Mem) (s : Slice) (x : Message)
    (hv : s.Valid m) :
    (appendSlice grow m s x).slice.Valid (appendSlice grow m s x).mem ∧
    (appendSlice grow m s x).slice.elems (appendSlice grow m s x).mem = s.elems m ++ [x] ∧
    m.next ≤ (appendSlice grow m s x).mem.next ∧
    ((appendSlice grow m s x).slice.arr = s.arr ∨ m.next ≤ (appendSlice grow m s x).slice.arr) ∧
    (∀ a, a ≠ s.arr → a < m.next → (appendSlice grow m s x).mem.arrays a = m.arrays a) := by
  obtain ⟨harr, hlen, hcap⟩ := hv
  have hl : (s.elems m).length = s.len := by
    simp only [Slice.elems, List.length_take]
    exact Nat.min_eq_left (Nat.le_trans hlen hcap)
  by_cases hroom : s.len < s.cap
  · have hlt : s.len < (m.arrays s.arr).length := Nat.lt_of_lt_of_le hroom hcap
    have hr : appendSlice grow m s x
        = { mem := { m with arrays :=
                      Function.update m.arrays s.arr ((m.arrays s.arr).set s.len x) },
            slice := { s with len := s.len + 1 } } := by
      simp [appendSlice, hroom]
    rw [hr]
    refine ⟨⟨harr, hroom, ?_⟩, ?_, Nat.le_refl _, Or.inl rfl, ?_⟩
    · show s.cap ≤ (Function.update m.arrays s.arr ((m.arrays s.arr).set s.len x) s.arr).length
      rw [Function.update_same, List.length_set]
      exact hcap
    · show List.take (s.len + 1)
          (Function.update m.arrays s.arr ((m.arrays s.arr).set s.len x) s.arr)
        = List.take s.len (m.arrays s.arr) ++ [x]
      rw [Function.update_same]
      exact take_succ_set _ _ _ hlt
    · intro a ha _
      show Function.update m.arrays s.arr ((m.arrays s.arr).set s.len x) a = m.arrays a
      exact Function.update_noteq ha _ _
  · have hr : appendSlice grow m s x
        = { mem := { arrays := Function.update m.arrays m.next
                       (s.elems m ++ [x] ++
                         List.replicate (max (grow s.cap) (s.len + 1) - (s.len + 1))
                           Message.zero),
                     next := m.next + 1 },
            slice := { arr := m.next, len := s.len + 1,
                       cap := max (grow s.cap) (s.len + 1) } } := by
      simp [appendSlice, hroom]
    rw [hr]
    refine ⟨⟨Nat.lt_succ_self _, Nat.le_max_right _ _, ?_⟩, ?_, Nat.le_succ _,
      Or.inr (Nat.le_refl _), ?_⟩
    · show max (grow s.cap) (s.len + 1) ≤ (Function.update m.arrays m.next _ m.next).length
      rw [Function.update_same]
      simp only [List.length_append, List.length_replicate, List.length_singleton, hl]
      have := Nat.le_max_right (grow s.cap) (s.len + 1)
      omega
    · show List.take (s.len + 1) (Function.update m.arrays m.next _ m.next) = s.elems m ++ [x]
      rw [Function.update_same]
      exact take_append_pad _ _ _ _ hl
    · intro a _ ha
      have hne : a ≠ m.next := Nat.ne_of_lt ha
      show Function.update m.arrays m.next _ a = m.arrays a
      exact Function.update_noteq hne _ _

/-- What the loop of `GetMessages` does when the result slice `res` lives on
an array allocated after the array of `src`: it appends to `res` the messages
kept among those at the indices `i`, ..., `i + n - 1` of `src`, in their
order, and it writes to no array allocated before `base`. -/
theorem collect_spec (grow : Nat → Nat) (user : String) (src : Slice) (base : Nat) :
    ∀ (n i : Nat) (m : Mem) (res : Slice),
      src.arr < base → base ≤ res.arr → res.Valid m →
      i + n ≤ (m.arrays src.arr).length →
      (collect grow user src n i m res).slice.Valid (collect grow user src n i m res).mem ∧
      base ≤ (collect grow user src n i m res).slice.arr ∧
      (collect grow user src n i m res).slice.elems (collect grow user src n i m res).mem
        = res.elems m ++ keptBy user (((m.arrays src.arr).drop i).take n) ∧
      (∀ a, a < base → (collect grow user src n i m res).mem.arrays a = m.arrays a) ∧
      m.next ≤ (collect grow user src n i m res).mem.next := by
  intro n
  induction n with
  | zero =>
    intro i m res _ hb hv _
    refine ⟨hv, hb, ?_, fun _ _ => rfl, Nat.le_refl _⟩
    simp [collect, keptBy]
  | succ n ih =>
    intro i m res hsrc hb hv hlen
    have hi : i < (m.arrays src.arr).length := by omega
    have hget : (m.arrays src.arr).getD i Message.zero = (m.arrays src.arr)[i] :=
      List.getD_eq_getElem _ _ hi
    have hdrop : ((m.arrays src.arr).drop i).take (n + 1)
        = (m.arrays src.arr)[i] :: ((m.arrays src.arr).drop (i + 1)).take n := by
      rw [List.drop_eq_getElem_cons hi, List.take_succ_cons]
    rw [hdrop, keptBy_cons]
    by_cases hc : user.length ≠ 0 ∧ ((m.arrays src.arr)[i]).Sender ≠ user
    · have hunf : collect grow user src (n + 1) i m res = collect grow user src n (i + 1) m res := by
        rw [collect, hget, if_pos hc]
      rw [hunf, if_pos hc]
      exact ih (i + 1) m res hsrc hb hv (by omega)
    · have hunf : collect grow user src (n + 1) i m res
          = collect grow user src n (i + 1)
              (appendSlice grow m res ((m.arrays src.arr)[i])).mem
              (appendSlice grow m res ((m.arrays src.arr)[i])).slice := by
        rw [collect, hget, if_neg hc]
      obtain ⟨hv1, hel1, hnext1, harr1, hframe1⟩ :=
        appendSlice_spec grow m res ((m.arrays src.arr)[i]) hv
      have hres : res.arr < m.next := hv.1
      have hsrcne : src.arr ≠ res.arr := Nat.ne_of_lt (Nat.lt_of_lt_of_le hsrc hb)
      have hsame : (appendSlice grow m res ((m.arrays src.arr)[i])).mem.arrays src.arr
          = m.arrays src.arr :=
        hframe1 src.arr hsrcne (Nat.lt_trans (Nat.lt_of_lt_of_le hsrc hb) hres)
      have hb1 : base ≤ (appendSlice grow m res ((m.arrays src.arr)[i])).slice.arr := by
        rcases harr1 with h | h
        · rw [h]; exact hb
        · exact Nat.le_trans (Nat.le_trans hb (Nat.le_of_lt hres)) h
      obtain ⟨hv2, hb2, hel2, hframe2, hnext2⟩ :=
        ih (i + 1) (appendSlice grow m res ((m.arrays src.arr)[i])).mem
          (appendSlice grow m res ((m.arrays src.arr)[i])).slice hsrc hb1 hv1
          (by rw [hsame]; omega)
      rw [hunf, if_neg hc]
      refine ⟨hv2, hb2, ?_, ?_, Nat.le_trans hnext1 hnext2⟩
      · rw [hel2, hel1, hsame]
        simp
      · intro a ha
        rw [hframe2 a ha]
        exact hframe1 a (Nat.ne_of_lt (Nat.lt_of_lt_of_le ha hb))
          (Nat.lt_trans (Nat.lt_of_lt_of_le ha hb) hres)

/-- What `GetMessages` does on a valid store: it returns the nil error and a
valid slice, on an array allocated by the call, that shows the kept messages
of the store in their order; no array that was in use before is written. -/
theorem GetMessages_spec (grow : Nat → Nat) (s : MessageStore) (m : Mem) (user : String)
    (hv : s.messages.Valid m) :
    (s.GetMessages grow m user).err = none ∧
    (s.GetMessages grow m user).res.elems (s.GetMessages grow m user).mem
      = keptBy user (s.messages.elems m) ∧
    (s.GetMessages grow m user).res.Valid (s.GetMessages grow m user).mem ∧
    m.next ≤ (s.GetMessages grow m user).res.arr ∧
    (∀ a, a < m.next → (s.GetMessages grow m user).mem.arrays a = m.arrays a) ∧
    m.next ≤ (s.GetMessages grow m user).mem.next := by
  obtain ⟨hmv, hmel, hmarr, hmnext, hmframe⟩ := makeSlice_spec m 100
  have hsame : (makeSlice m 100).mem.arrays s.messages.arr = m.arrays s.messages.arr :=
    hmframe _ hv.1
  obtain ⟨hv2, hb2, hel2, hframe2, hnext2⟩ :=
    collect_spec grow user s.messages m.next s.messages.len 0 (makeSlice m 100).mem
      (makeSlice m 100).slice hv.1 (by rw [hmarr]) hmv
      (by rw [hsame]; have := hv.2.1; have := hv.2.2; omega)
  refine ⟨rfl, ?_, hv2, hb2, ?_, ?_⟩
  · have h := hel2
    rw [hmel, hsame] at h
    simp only [List.nil_append, List.drop_zero] at h
    exact h
  · intro a ha
    exact (hframe2 a ha).trans (hmframe a ha)
  · show m.next ≤ (collect grow user s.messages s.messages.len 0 (makeSlice m 100).mem
        (makeSlice m 100).slice).mem.next
    have : m.next ≤ (makeSlice m 100).mem.next := by rw [hmnext]; exact Nat.le_succ _
    exact Nat.le_trans this hnext2

/-- What `AddMessage` does on a valid store. -/
theorem AddMessage_spec (grow : Nat → Nat) (s : MessageStore) (m : Mem) (msg : Message)
    (hv : s.messages.Valid m) :
    (s.AddMessage grow m msg).err = none ∧
    (s.AddMessage grow m msg).store.messages.Valid (s.AddMessage grow m msg).mem ∧
    (s.AddMessage grow m msg).store.messages.elems (s.AddMessage grow m msg).mem
      = s.messages.elems m ++ [msg] ∧
    m.next ≤ (s.AddMessage grow m msg).mem.next ∧
    (∀ a, a ≠ s.messages.arr → a < m.next →
      (s.AddMessage grow m msg).mem.arrays a = m.arrays a) := by
  obtain ⟨h1, h2, h3, _, h5⟩ := appendSlice_spec grow m s.messages msg hv
  exact ⟨rfl, h1, h2, h3, h5⟩

/-- The store after a list of messages has been appended to a valid store. -/
theorem addAll_spec (grow : Nat → Nat) (msgs : List Message) :
    ∀ (s : MessageStore) (m : Mem), s.messages.Valid m →
      (s.addAll grow m msgs).store.messages.Valid (s.addAll grow m msgs).mem ∧
      (s.addAll grow m msgs).store.messages.elems (s.addAll grow m msgs).mem
        = s.messages.elems m ++ msgs ∧
      (s.addAll grow m msgs).err = none := by
  induction msgs with
  | nil =>
    intro s m hv
    exact ⟨hv, by simp [MessageStore.addAll], rfl⟩
  | cons msg rest ih =>
    intro s m hv
    obtain ⟨_, hv1, hel1, _, _⟩ := AddMessage_spec grow s m msg hv
    obtain ⟨hv2, hel2, herr2⟩ := ih (s.AddMessage grow m msg).store (s.AddMessage grow m msg).mem hv1
    have hunf : s.addAll grow m (msg :: rest)
        = MessageStore.addAll grow (s.AddMessage grow m msg).store
            (s.AddMessage grow m msg).mem rest := rfl
    rw [hunf]
    refine ⟨hv2, ?_, herr2⟩
    rw [hel2, hel1]
    simp

theorem NewMessageStore_spec (m : Mem) :
    (NewMessageStore m).store.messages.Valid (NewMessageStore m).mem ∧
    (NewMessageStore m).store.messages.elems (NewMessageStore m).mem = [] :=
  ⟨(makeSlice_spec m 100).1, (makeSlice_spec m 100).2.1⟩

theorem Slice.valid_of_same_array (s : Slice) (m m1 : Mem) (hv : s.Valid m)
    (hnext : m.next ≤ m1.next) (harr : m1.arrays s.arr = m.arrays s.arr) :
    s.Valid m1 ∧ s.elems m1 = s.elems m := by
  refine ⟨⟨Nat.lt_of_lt_of_le hv.1 hnext, hv.2.1, ?_⟩, ?_⟩
  · rw [harr]
    exact hv.2.2
  · simp only [Slice.elems, harr]

theorem keptBy_empty (msgs : List Message) : keptBy "" msgs = msgs := by
  simp [keptBy]

theorem keptBy_sender (user : String) (hu : user ≠ "") (msgs : List Message) :
    keptBy user msgs = msgs.filter fun msg => decide (msg.Sender = user) := by
  simp [keptBy, hu]

/-! ## Append -/

/-- C12.  On every store `AddMessage` returns the nil error, whatever the
message, and the stored sequence becomes the previous sequence followed by the
message: every earlier entry is still at its index. -/
theorem AddMessage_appends (grow : Nat → Nat) (s : MessageStore) (m : Mem) (msg : Message)
    (hv : s.messages.Valid m) :
    (s.AddMessage grow m msg).err = none ∧
    (s.AddMessage grow m msg).store.messages.elems (s.AddMessage grow m msg).mem
      = s.messages.elems m ++ [msg] ∧
    (∀ i, i < (s.messages.elems m).length →
      ((s.AddMessage grow m msg).store.messages.elems (s.AddMessage grow m msg).mem)[i]?
        = (s.messages.elems m)[i]?) ∧
    (s.AddMessage grow m msg).store.messages.Valid (s.AddMessage grow m msg).mem := by
  obtain ⟨h1, h2, h3, _, _⟩ := AddMessage_spec grow s m msg hv
  refine ⟨h1, h3, ?_, h2⟩
  intro i hi
  rw [h3, List.getElem?_append_left hi]

/-- C12, witness: appending `m2` to the store that holds `m1` gives the store
that holds `m1`, `m2`. -/
theorem AddMessage_appends_witness :
    Example.one.store.messages.Valid Example.one.mem ∧
    Example.one.store.messages.elems Example.one.mem = [Example.m1] ∧
    (Example.one.store.AddMessage Example.double Example.one.mem Example.m2).err = none ∧
    (Example.one.store.AddMessage Example.double Example.one.mem
        Example.m2).store.messages.elems
      (Example.one.store.AddMessage Example.double Example.one.mem Example.m2).mem
      = [Example.m1, Example.m2] :=
  have hv : Example.one.store.messages.Valid Example.one.mem :=
    (addAll_spec Example.double [Example.m1] _ _ (NewMessageStore_spec Example.mem0).1).1
  have he : Example.one.store.messages.elems Example.one.mem = [Example.m1] := by
    have := (addAll_spec Example.double [Example.m1] _ _
      (NewMessageStore_spec Example.mem0).1).2.1
    rw [(NewMessageStore_spec Example.mem0).2] at this
    exact this
  have h := AddMessage_appends Example.double Example.one.store Example.one.mem Example.m2 hv
  ⟨hv, he, h.1, by rw [h.2.1, he]; rfl⟩

/-! ## Query -/

/-- C13.  After the messages of any list, of any length, have been appended in
order to a store made by `NewMessageStore`, `GetMessages("")` returns the nil
error and exactly that list, in append order. -/
theorem GetMessages_all (grow : Nat → Nat) (m : Mem) (msgs : List Message) :
    (((NewMessageStore m).store.addAll grow (NewMessageStore m).mem msgs).store.GetMessages
        grow ((NewMessageStore m).store.addAll grow (NewMessageStore m).mem msgs).mem "").err
      = none ∧
    (((NewMessageStore m).store.addAll grow (NewMessageStore m).mem msgs).store.GetMessages
        grow ((NewMessageStore m).store.addAll grow (NewMessageStore m).mem msgs).mem
          "").res.elems
      (((NewMessageStore m).store.addAll grow (NewMessageStore m).mem msgs).store.GetMessages
        grow ((NewMessageStore m).store.addAll grow (NewMessageStore m).mem msgs).mem "").mem
      = msgs := by
  obtain ⟨hv0, he0⟩ := NewMessageStore_spec m
  obtain ⟨hv1, he1, _⟩ := addAll_spec grow msgs _ _ hv0
  obtain ⟨hg1, hg2, _⟩ := GetMessages_spec grow _ _ "" hv1
  refine ⟨hg1, ?_⟩
  rw [hg2, keptBy_empty, he1, he0]
  rfl

/-- C13, witness: 150 messages, more than the 100 for which the store and the
result are sized, come back in full. -/
theorem GetMessages_all_witness :
    100 < (List.replicate 150 Example.m1).length ∧
    (((NewMessageStore Example.mem0).store.addAll Example.double
        (NewMessageStore Example.mem0).mem (List.replicate 150 Example.m1)).store.GetMessages
        Example.double ((NewMessageStore Example.mem0).store.addAll Example.double
        (NewMessageStore Example.mem0).mem (List.replicate 150 Example.m1)).mem "").res.elems
      (((NewMessageStore Example.mem0).store.addAll Example.double
        (NewMessageStore Example.mem0).mem (List.replicate 150 Example.m1)).store.GetMessages
        Example.double ((NewMessageStore Example.mem0).store.addAll Example.double
        (NewMessageStore Example.mem0).mem (List.replicate 150 Example.m1)).mem "").mem
      = List.replicate 150 Example.m1 :=
  ⟨by simp, (GetMessages_all Example.double Example.mem0 (List.replicate 150 Example.m1)).2⟩

/-- C14.  For a non-empty `S`, `GetMessages(S)` returns the nil error and
exactly the subsequence of the stored messages whose `Sender` equals `S`, in
their stored order. -/
theorem GetMessages_by_sender (grow : Nat → Nat) (s : MessageStore) (m : Mem) (S : String)
    (hv : s.messages.Valid m) (hS : S ≠ "") :
    (s.GetMessages grow m S).err = none ∧
    (s.GetMessages grow m S).res.elems (s.GetMessages grow m S).mem
      = (s.messages.elems m).filter fun msg => decide (msg.Sender = S) := by
  obtain ⟨hg1, hg2, _⟩ := GetMessages_spec grow s m S hv
  exact ⟨hg1, by rw [hg2, keptBy_sender S hS]⟩

theorem scenario_valid :
    Example.scenario.store.messages.Valid Example.scenario.mem ∧
    Example.scenario.store.messages.elems Example.scenario.mem
      = [Example.m1, Example.m2, Example.m3] := by
  obtain ⟨hv0, he0⟩ := NewMessageStore_spec Example.mem0
  obtain ⟨hv1, he1, _⟩ :=
    addAll_spec Example.double [Example.m1, Example.m2, Example.m3] _ _ hv0
  refine ⟨hv1, ?_⟩
  have : Example.scenario.store.messages.elems Example.scenario.mem
      = (NewMessageStore Example.mem0).store.messages.elems (NewMessageStore Example.mem0).mem
        ++ [Example.m1, Example.m2, Example.m3] := he1
  rw [this, he0]
  rfl

/-- C14, witness: the scenario of the specification.  After `m1` of "alice",
`m2` of "bob" and `m3` of "alice" have been appended, the query for "alice"
returns `m1`, `m3` in that order. -/
theorem GetMessages_by_sender_witness :
    Example.scenario.store.messages.Valid Example.scenario.mem ∧ "alice" ≠ "" ∧
    (Example.scenario.store.GetMessages Example.double Example.scenario.mem "alice").res.elems
      (Example.scenario.store.GetMessages Example.double Example.scenario.mem "alice").mem
      = [Example.m1, Example.m3] :=
  have h := GetMessages_by_sender Example.double Example.scenario.store Example.scenario.mem
    "alice" scenario_valid.1 (by decide)
  ⟨scenario_valid.1, by decide, by rw [h.2, scenario_valid.2]; decide⟩

/-- The store is still valid, and shows the same sequence, in the memory that
`GetMessages` leaves. -/
theorem store_after_GetMessages (grow : Nat → Nat) (s : MessageStore) (m : Mem)
    (user : String) (hv : s.messages.Valid m) :
    s.messages.Valid (s.GetMessages grow m user).mem ∧
    s.messages.elems (s.GetMessages grow m user).mem = s.messages.elems m := by
  obtain ⟨_, _, _, _, hframe, hnext⟩ := GetMessages_spec grow s m user hv
  exact Slice.valid_of_same_array s.messages m _ hv hnext (hframe _ hv.1)

/-- C15.  `GetMessages` has no side effect on the store: the store shows the
same sequence before and after the call, and a second call with the same
argument returns the same sequence as the first, which the first result still
shows. -/
theorem GetMessages_no_side_effect (grow : Nat → Nat) (s : MessageStore) (m : Mem)
    (user : String) (hv : s.messages.Valid m) :
    s.messages.elems (s.GetMessages grow m user).mem = s.messages.elems m ∧
    (s.GetMessages grow (s.GetMessages grow m user).mem user).res.elems
        (s.GetMessages grow (s.GetMessages grow m user).mem user).mem
      = (s.GetMessages grow m user).res.elems (s.GetMessages grow m user).mem ∧
    (s.GetMessages grow (s.GetMessages grow m user).mem user).err
      = (s.GetMessages grow m user).err ∧
    (s.GetMessages grow m user).res.elems
        (s.GetMessages grow (s.GetMessages grow m user).mem user).mem
      = (s.GetMessages grow m user).res.elems (s.GetMessages grow m user).mem := by
  obtain ⟨hv1, he1⟩ := store_after_GetMessages grow s m user hv
  obtain ⟨_, hg2, hgv, _, _, _⟩ := GetMessages_spec grow s m user hv
  obtain ⟨_, hh2, _, _, hhframe, hhnext⟩ :=
    GetMessages_spec grow s (s.GetMessages grow m user).mem user hv1
  refine ⟨he1, ?_, rfl, ?_⟩
  · rw [hh2, hg2, he1]
  · exact (Slice.valid_of_same_array _ _ _ hgv hhnext (hhframe _ hgv.1)).2

/-- C15, witness: on the store of the scenario two queries for "alice" in a
row both return `m1`, `m3`, and the store still holds the three messages. -/
theorem GetMessages_no_side_effect_witness :
    Example.scenario.store.messages.Valid Example.scenario.mem ∧
    Example.scenario.store.messages.elems
        (Example.scenario.store.GetMessages Example.double Example.scenario.mem "alice").mem
      = [Example.m1, Example.m2, Example.m3] ∧
    (Example.scenario.store.GetMessages Example.double
        (Example.scenario.store.GetMessages Example.double Example.scenario.mem "alice").mem
        "alice").res.elems
      (Example.scenario.store.GetMessages Example.double
        (Example.scenario.store.GetMessages Example.double Example.scenario.mem "alice").mem
        "alice").mem
      = (Example.scenario.store.GetMessages Example.double Example.scenario.mem
          "alice").res.elems
        (Example.scenario.store.GetMessages Example.double Example.scenario.mem "alice").mem :=
  have h := GetMessages_no_side_effect Example.double Example.scenario.store
    Example.scenario.mem "alice" scenario_valid.1
  ⟨scenario_valid.1, h.1.trans scenario_valid.2, h.2.1⟩

/-- C16.  The slice that `GetMessages` returned is a copy: after a later
`AddMessage` on the store, which does extend the stored sequence, the slice
shows the same sequence as before, the one it was returned with. -/
theorem GetMessages_snapshot (grow : Nat → Nat) (s : MessageStore) (m : Mem) (user : String)
    (msg : Message) (hv : s.messages.Valid m) :
    (s.GetMessages grow m user).res.elems
        (s.AddMessage grow (s.GetMessages grow m user).mem msg).mem
      = (s.GetMessages grow m user).res.elems (s.GetMessages grow m user).mem ∧
    (s.GetMessages grow m user).res.elems
        (s.AddMessage grow (s.GetMessages grow m user).mem msg).mem
      = keptBy user (s.messages.elems m) ∧
    (s.AddMessage grow (s.GetMessages grow m user).mem msg).store.messages.elems
        (s.AddMessage grow (s.GetMessages grow m user).mem msg).mem
      = s.messages.elems m ++ [msg] ∧
    (s.GetMessages grow m user).res.arr ≠ s.messages.arr := by
  obtain ⟨hv1, he1⟩ := store_after_GetMessages grow s m user hv
  obtain ⟨_, hg2, hgv, hfresh, _, _⟩ := GetMessages_spec grow s m user hv
  obtain ⟨_, _, ha3, hanext, haframe⟩ :=
    AddMessage_spec grow s (s.GetMessages grow m user).mem msg hv1
  have hne : (s.GetMessages grow m user).res.arr ≠ s.messages.arr :=
    Nat.ne_of_gt (Nat.lt_of_lt_of_le hv.1 hfresh)
  have hsame := (Slice.valid_of_same_array _ _ _ hgv hanext (haframe _ hne hgv.1)).2
  exact ⟨hsame, hsame.trans hg2, by rw [ha3, he1], hne⟩

/-- C16, witness: on the store of the scenario the result of the query for
"alice" still shows `m1`, `m3` after another message of "alice" has been
appended to the store. -/
theorem GetMessages_snapshot_witness :
    Example.scenario.store.messages.Valid Example.scenario.mem ∧
    (Example.scenario.store.GetMessages Example.double Example.scenario.mem "alice").res.elems
        (Example.scenario.store.AddMessage Example.double
          (Example.scenario.store.GetMessages Example.double Example.scenario.mem "alice").mem
          Example.m1).mem
      = [Example.m1, Example.m3] ∧
    (Example.scenario.store.AddMessage Example.double
        (Example.scenario.store.GetMessages Example.double Example.scenario.mem "alice").mem
        Example.m1).store.messages.elems
      (Example.scenario.store.AddMessage Example.double
        (Example.scenario.store.GetMessages Example.double Example.scenario.mem "alice").mem
        Example.m1).mem
      = [Example.m1, Example.m2, Example.m3, Example.m1] :=
  have h := GetMessages_snapshot Example.double Example.scenario.store Example.scenario.mem
    "alice" Example.m1 scenario_valid.1
  ⟨scenario_valid.1, by rw [h.2.1, scenario_valid.2]; decide,
    by rw [h.2.2.1, scenario_valid.2]; rfl⟩

end MessagePkg

/-! # Proofs: the task manager -/

namespace Taskmanager

theorem wrapInt_of_small (x : Int) (hlo : -(2 ^ 63) ≤ x) (hhi : x < 2 ^ 63) : wrapInt x = x := by
  unfold wrapInt
  omega

/-- `NewTaskManager` makes a well-formed manager. -/
theorem NewTaskManager_wellFormed : NewTaskManager.WellFormed := by
  intro k t h
  simp [NewTaskManager] at h

/-- `AddTask` keeps a manager well-formed as long as `nextID` does not
overflow. -/
theorem AddTask_wellFormed (tm : TaskManager) (now : Time) (title description : String)
    (hwf : tm.WellFormed) (hlo : -(2 ^ 63) ≤ tm.nextID + 1) (hhi : tm.nextID + 1 < 2 ^ 63) :
    (tm.AddTask now title description).tm.WellFormed := by
  unfold TaskManager.AddTask
  split
  · exact hwf
  · intro k t h
    simp only at h
    rw [wrapInt_of_small _ hlo hhi]
    by_cases hk : k = tm.nextID
    · subst hk
      rw [AList.lookup_insert] at h
      cases h
      exact ⟨rfl, by simp only; omega⟩
    · rw [AList.lookup_insert_ne hk] at h
      have := hwf k t h
      exact ⟨this.1, by simp only; omega⟩

/-- `UpdateTask` keeps a manager well-formed. -/
theorem UpdateTask_wellFormed (tm : TaskManager) (id : Int) (title description : String)
    (done : Bool) (hwf : tm.WellFormed) :
    (tm.UpdateTask id title description done).tm.WellFormed := by
  unfold TaskManager.UpdateTask
  split
  · exact hwf
  · split
    · exact hwf
    · rename_i task hl
      intro k t h
      simp only at h
      by_cases hk : k = id
      · subst hk
        rw [AList.lookup_insert] at h
        cases h
        exact hwf k task hl
      · rw [AList.lookup_insert_ne hk] at h
        exact hwf k t h

/-- `DeleteTask` keeps a manager well-formed. -/
theorem DeleteTask_wellFormed (tm : TaskManager) (id : Int) (hwf : tm.WellFormed) :
    (tm.DeleteTask id).tm.WellFormed := by
  unfold TaskManager.DeleteTask
  split
  · exact hwf
  · intro k t h
    simp only at h
    by_cases hk : k = id
    · subst hk
      rw [AList.lookup_erase] at h
      cases h
    · rw [AList.lookup_erase_ne hk] at h
      exact hwf k t h

/-- C19.  On a well-formed manager: with an empty title `AddTask` returns
`ErrEmptyTitle` and leaves the manager unchanged; otherwise it returns the nil
error and a task with that title and description, `Done = false` and an `ID`
that no stored task has and under which nothing is stored, and `GetTask` on
that `ID` then returns the same task with the nil error. -/
theorem AddTask_spec (tm : TaskManager) (now : Time) (title description : String)
    (hwf : tm.WellFormed) :
    (title = "" →
      (tm.AddTask now title description).err = some Error.ErrEmptyTitle ∧
      (tm.AddTask now title description).tm = tm) ∧
    (title ≠ "" →
      (tm.AddTask now title description).err = none ∧
      (tm.AddTask now title description).task.Title = title ∧
      (tm.AddTask now title description).task.Description = description ∧
      (tm.AddTask now title description).task.Done = false ∧
      (∀ k t, tm.tasks.lookup k = some t → t.ID ≠ (tm.AddTask now title description).task.ID) ∧
      tm.tasks.lookup (tm.AddTask now title description).task.ID = none ∧
      (tm.AddTask now title description).tm.GetTask (tm.AddTask now title description).task.ID
        = ((tm.AddTask now title description).task, none)) := by
  constructor
  · intro ht
    subst ht
    exact ⟨rfl, rfl⟩
  · intro ht
    have hl : ¬ title.length = 0 := fun h => ht ((MessagePkg.length_eq_zero_iff title).mp h)
    have hr : tm.AddTask now title description
        = { tm := { tasks := tm.tasks.insert tm.nextID
                      { ID := tm.nextID, Title := title, Description := description,
                        Done := false, CreatedAt := now },
                    nextID := wrapInt (tm.nextID + 1) },
            task := { ID := tm.nextID, Title := title, Description := description,
                      Done := false, CreatedAt := now },
            err := none } := by
      simp [TaskManager.AddTask, hl]
    rw [hr]
    refine ⟨rfl, rfl, rfl, rfl, ?_, ?_, ?_⟩
    · intro k t h heq
      have := hwf k t h
      simp only at heq
      omega
    · cases hlk : tm.tasks.lookup tm.nextID with
      | none => rfl
      | some t =>
        have := (hwf _ t hlk).2
        omega
    · simp [TaskManager.GetTask, AList.lookup_insert]

/-- C19, witness: on the manager with tasks 1 and 2, adding "ship" returns a
task with ID 3, not done, that `GetTask(3)` then returns; adding a task with
an empty title returns `ErrEmptyTitle`. -/
theorem AddTask_spec_witness :
    Example.two.WellFormed ∧
    (Example.two.AddTask 30 "ship" "it").err = none ∧
    (Example.two.AddTask 30 "ship" "it").task
      = { ID := 3, Title := "ship", Description := "it", Done := false, CreatedAt := 30 } ∧
    (Example.two.AddTask 30 "ship" "it").tm.GetTask 3
      = ((Example.two.AddTask 30 "ship" "it").task, none) ∧
    (Example.two.AddTask 30 "" "it").err = some Error.ErrEmptyTitle ∧
    (Example.two.AddTask 30 "" "it").tm = Example.two :=
  have hwf : Example.two.WellFormed :=
    AddTask_wellFormed _ 20 "test" "the code"
      (AddTask_wellFormed _ 10 "write" "the report" NewTaskManager_wellFormed
        (by decide) (by decide))
      (by decide) (by decide)
  have h := AddTask_spec Example.two 30 "ship" "it" hwf
  have h0 := AddTask_spec Example.two 30 "" "it" hwf
  ⟨hwf, (h.2 (by decide)).1, by decide, (h.2 (by decide)).2.2.2.2.2.2,
    (h0.1 rfl).1, (h0.1 rfl).2⟩

/-- C20.  `UpdateTask` returns an error if and only if the title is empty or
no task is stored under `id`: `ErrEmptyTitle` for an empty title, otherwise
`ErrTaskNotFound`.  On error the manager is unchanged.  On success the task
under `id` has the title, description and done flag of the call and the `ID`
and `CreatedAt` it had, every other task is as it was, and so is `nextID`. -/
theorem UpdateTask_spec (tm : TaskManager) (id : Int) (title description : String)
    (done : Bool) :
    ((tm.UpdateTask id title description done).err ≠ none ↔
      (title = "" ∨ tm.tasks.lookup id = none)) ∧
    (title = "" → (tm.UpdateTask id title description done).err = some Error.ErrEmptyTitle) ∧
    (title ≠ "" → tm.tasks.lookup id = none →
      (tm.UpdateTask id title description done).err = some Error.ErrTaskNotFound) ∧
    ((tm.UpdateTask id title description done).err ≠ none →
      (tm.UpdateTask id title description done).tm = tm) ∧
    ((tm.UpdateTask id title description done).err = none →
      (∃ t, tm.tasks.lookup id = some t ∧
        (tm.UpdateTask id title description done).tm.tasks.lookup id
          = some { ID := t.ID, Title := title, Description := description, Done := done,
                   CreatedAt := t.CreatedAt }) ∧
      (∀ k, k ≠ id →
        (tm.UpdateTask id title description done).tm.tasks.lookup k = tm.tasks.lookup k) ∧
      (tm.UpdateTask id title description done).tm.nextID = tm.nextID) := by
  by_cases ht : title = ""
  · subst ht
    have hr : tm.UpdateTask id "" description done
        = { tm := tm, err := some Error.ErrEmptyTitle } := rfl
    rw [hr]
    simp
  · have hl : ¬ title.length = 0 := fun h => ht ((MessagePkg.length_eq_zero_iff title).mp h)
    cases hlk : tm.tasks.lookup id with
    | none =>
      have hr : tm.UpdateTask id title description done
          = { tm := tm, err := some Error.ErrTaskNotFound } := by
        simp [TaskManager.UpdateTask, hl, hlk]
      rw [hr]
      simp [ht]
    | some t =>
      have hr : tm.UpdateTask id title description done
          = { tm := { tm with tasks := tm.tasks.insert id (t.updated title description done) },
              err := none } := by
        simp [TaskManager.UpdateTask, hl, hlk]
      rw [hr]
      refine ⟨by simp [ht], fun h => absurd h ht, fun _ h => (by cases h),
        fun h => absurd rfl h, fun _ => ⟨⟨t, rfl, ?_⟩, ?_, rfl⟩⟩
      · simp [AList.lookup_insert, Task.updated]
      · intro k hk
        exact AList.lookup_insert_ne hk

/-- C20, witness: on the manager with tasks 1 and 2, updating task 2 succeeds
and keeps its `ID` and `CreatedAt`; updating task 7 returns `ErrTaskNotFound`
and an empty title returns `ErrEmptyTitle`. -/
theorem UpdateTask_spec_witness :
    (Example.two.UpdateTask 2 "retest" "all" true).err = none ∧
    (Example.two.UpdateTask 2 "retest" "all" true).tm.tasks.lookup 2
      = some { ID := 2, Title := "retest", Description := "all", Done := true,
               CreatedAt := 20 } ∧
    (Example.two.UpdateTask 2 "retest" "all" true).tm.tasks.lookup 1
      = Example.two.tasks.lookup 1 ∧
    (Example.two.UpdateTask 7 "retest" "all" true).err = some Error.ErrTaskNotFound ∧
    (Example.two.UpdateTask 2 "" "all" true).err = some Error.ErrEmptyTitle :=
  have h := UpdateTask_spec Example.two 2 "retest" "all" true
  have h7 := UpdateTask_spec Example.two 7 "retest" "all" true
  have h0 := UpdateTask_spec Example.two 2 "" "all" true
  ⟨by decide, by decide, (h.2.2.2.2 (by decide)).2.1 1 (by decide),
    h7.2.2.1 (by decide) (by decide), h0.2.1 rfl⟩

end Taskmanager

/-! # Proofs: the task manager, deletion and listing -/

namespace Taskmanager

/-- C21.  `DeleteTask(id)` returns `ErrTaskNotFound` if and only if no task is
stored under `id`, and then the manager is unchanged; otherwise it returns the
nil error and removes that task and no other: `GetTask(id)` then returns
`ErrTaskNotFound`, and `GetTask` on every other ID returns what it returned
before. -/
theorem DeleteTask_spec (tm : TaskManager) (id : Int) :
    ((tm.DeleteTask id).err = some Error.ErrTaskNotFound ↔ tm.tasks.lookup id = none) ∧
    (tm.tasks.lookup id = none → (tm.DeleteTask id).tm = tm) ∧
    (tm.tasks.lookup id ≠ none →
      (tm.DeleteTask id).err = none ∧
      (tm.DeleteTask id).tm.GetTask id = (Task.zero, some Error.ErrTaskNotFound) ∧
      (tm.DeleteTask id).tm.tasks.lookup id = none ∧
      (∀ k, k ≠ id → (tm.DeleteTask id).tm.GetTask k = tm.GetTask k) ∧
      (∀ k, k ≠ id → (tm.DeleteTask id).tm.tasks.lookup k = tm.tasks.lookup k) ∧
      (tm.DeleteTask id).tm.nextID = tm.nextID) := by
  cases hl : tm.tasks.lookup id with
  | none =>
    have hr : tm.DeleteTask id = { tm := tm, err := some Error.ErrTaskNotFound } := by
      simp [TaskManager.DeleteTask, hl]
    rw [hr]
    simp
  | some t =>
    have hr : tm.DeleteTask id = { tm := { tm with tasks := tm.tasks.erase id }, err := none } := by
      simp [TaskManager.DeleteTask, hl]
    rw [hr]
    have hgone : (tm.tasks.erase id).lookup id = none := AList.lookup_erase id tm.tasks
    have hother : ∀ k, k ≠ id → (tm.tasks.erase id).lookup k = tm.tasks.lookup k :=
      fun k hk => AList.lookup_erase_ne hk
    refine ⟨by simp, fun h => (by cases h), fun _ => ⟨rfl, ?_, hgone, ?_, hother, rfl⟩⟩
    · simp [TaskManager.GetTask, hgone]
    · intro k hk
      simp [TaskManager.GetTask, hother k hk]

/-- C21, witness: deleting task 1 of the manager with tasks 1 and 2 returns
nil, after which task 1 is not found and task 2 is as before; deleting task 7
returns `ErrTaskNotFound` and changes nothing. -/
theorem DeleteTask_spec_witness :
    Example.two.tasks.lookup 1 ≠ none ∧
    (Example.two.DeleteTask 1).err = none ∧
    (Example.two.DeleteTask 1).tm.GetTask 1 = (Task.zero, some Error.ErrTaskNotFound) ∧
    (Example.two.DeleteTask 1).tm.GetTask 2 = Example.two.GetTask 2 ∧
    Example.two.tasks.lookup 7 = none ∧
    (Example.two.DeleteTask 7).err = some Error.ErrTaskNotFound ∧
    (Example.two.DeleteTask 7).tm = Example.two :=
  have h := DeleteTask_spec Example.two 1
  have h7 := DeleteTask_spec Example.two 7
  ⟨by decide, (h.2.2 (by decide)).1, (h.2.2 (by decide)).2.1,
    (h.2.2 (by decide)).2.2.2.1 2 (by decide), by decide, h7.1.mpr (by decide),
    h7.2.1 (by decide)⟩

/-- `NewTaskManager` starts with `nextID = 1`, and the methods keep
`1 ≤ nextID` as long as `nextID` does not overflow. -/
theorem nextID_pos :
    1 ≤ NewTaskManager.nextID ∧
    (∀ (tm : TaskManager) (now : Time) (title description : String),
      1 ≤ tm.nextID → tm.nextID + 1 < 2 ^ 63 → 1 ≤ (tm.AddTask now title description).tm.nextID) ∧
    (∀ (tm : TaskManager) (id : Int) (title description : String) (done : Bool),
      (tm.UpdateTask id title description done).tm.nextID = tm.nextID) ∧
    (∀ (tm : TaskManager) (id : Int), (tm.DeleteTask id).tm.nextID = tm.nextID) := by
  refine ⟨by decide, ?_, ?_, ?_⟩
  · intro tm now title description h1 h2
    unfold TaskManager.AddTask
    split
    · exact h1
    · simp only
      rw [wrapInt_of_small _ (by omega) h2]
      omega
  · intro tm id title description done
    unfold TaskManager.UpdateTask
    split
    · rfl
    · split <;> rfl
  · intro tm id
    unfold TaskManager.DeleteTask
    split <;> rfl

/-- C22.  On a manager with `1 ≤ nextID`, for every order in which `range`
may visit the map: `ListTasks(nil)` returns the stored tasks, each entry of
the map once, in some order; `ListTasks(&b)` returns in the same way the
stored tasks whose `Done` equals `b`; and the manager is unchanged. -/
theorem ListTasks_spec (tm : TaskManager) (order : List (Sigma fun _ : Int => Task))
    (hpos : 1 ≤ tm.nextID) (hmax : tm.nextID < 2 ^ 63) (ho : order.Perm tm.tasks.entries) :
    (∃ r, tm.ListTasks order none = some r ∧ r.tm = tm ∧
      r.res.Perm (tm.tasks.entries.map Sigma.snd)) ∧
    (∀ b : Bool, ∃ r, tm.ListTasks order (some b) = some r ∧ r.tm = tm ∧
      r.res.Perm ((tm.tasks.entries.map Sigma.snd).filter fun task => task.Done == b) ∧
      (∀ task, task ∈ r.res ↔
        (∃ k, tm.tasks.lookup k = some task) ∧ task.Done = b)) := by
  have hcap : ¬ wrapInt (tm.nextID - 1) < 0 := by
    rw [wrapInt_of_small _ (by omega) (by omega)]
    omega
  have hvals : (order.map Sigma.snd).Perm (tm.tasks.entries.map Sigma.snd) := ho.map _
  constructor
  · refine ⟨{ tm := tm, res := (order.map Sigma.snd).filter (keeps none) }, ?_, rfl, ?_⟩
    · simp [TaskManager.ListTasks, hcap]
    · have : (order.map Sigma.snd).filter (keeps none) = order.map Sigma.snd := by
        simp [keeps]
      rw [this]
      exact hvals
  · intro b
    refine ⟨{ tm := tm, res := (order.map Sigma.snd).filter (keeps (some b)) }, ?_, rfl,
      hvals.filter _, ?_⟩
    · simp [TaskManager.ListTasks, hcap]
    · intro task
      simp only [List.mem_filter, keeps, beq_iff_eq]
      rw [hvals.mem_iff, List.mem_map]
      constructor
      · rintro ⟨⟨⟨k, t⟩, hmem, ht⟩, hd⟩
        simp only at ht
        subst ht
        exact ⟨⟨k, AList.mem_lookup_iff.mpr hmem⟩, hd⟩
      · rintro ⟨⟨k, hk⟩, hd⟩
        exact ⟨⟨⟨k, task⟩, AList.mem_lookup_iff.mp hk, rfl⟩, hd⟩

/-- C22, witness: on the manager with task 1 done and task 2 not done,
`ListTasks(nil)` returns both tasks and `ListTasks(&true)` returns task 1
only. -/
theorem ListTasks_spec_witness :
    1 ≤ Example.oneDone.nextID ∧
    (Example.oneDone.ListTasks Example.oneDone.tasks.entries none).map (fun r => r.res.length)
      = some 2 ∧
    (Example.oneDone.ListTasks Example.oneDone.tasks.entries (some true)).map
        (fun r => r.res.map fun task => task.ID)
      = some [1] ∧
    (∃ r, Example.oneDone.ListTasks Example.oneDone.tasks.entries none = some r ∧
      r.tm = Example.oneDone ∧
      r.res.Perm (Example.oneDone.tasks.entries.map Sigma.snd)) :=
  have h := ListTasks_spec Example.oneDone Example.oneDone.tasks.entries (by decide) (by decide)
    (List.Perm.refl _)
  ⟨by decide, by decide, by decide, h.1⟩

end Taskmanager

/-! # Proofs: the message storage -/

namespace Storage

theorem length_erase_of_lookup (m : AList (fun _ : Int => MsgPtr)) (id : Int) (p : MsgPtr)
    (h : m.lookup id = some p) : (m.erase id).entries.length + 1 = m.entries.length := by
  have hmem : id ∈ m.entries.keys := by
    have : id ∈ m := AList.lookup_isSome.mp (by rw [h]; rfl)
    exact AList.mem_keys.mp this
  obtain ⟨b, l1, l2, _, hl, hk⟩ := List.exists_of_kerase hmem
  show (List.kerase id m.entries).length + 1 = m.entries.length
  rw [hk, hl]
  simp only [List.length_append, List.length_cons]
  omega

/-- C27.  `Delete(id)` returns `ErrMessageNotFound` if and only if no message
is stored under `id`, and then the storage is unchanged; otherwise it returns
the nil error and removes that message and no other, `Count` is one less than
before, and `GetByID(id)` then returns `ErrMessageNotFound`. -/
theorem Delete_spec (ms : MemoryStorage) (id : Int) :
    ((ms.Delete id).err = some Error.ErrMessageNotFound ↔ ms.Messages.lookup id = none) ∧
    (ms.Messages.lookup id = none → (ms.Delete id).ms = ms) ∧
    (ms.Messages.lookup id ≠ none →
      (ms.Delete id).err = none ∧
      (ms.Delete id).ms.Messages.lookup id = none ∧
      (∀ k, k ≠ id → (ms.Delete id).ms.Messages.lookup k = ms.Messages.lookup k) ∧
      (ms.Delete id).ms.Count = ms.Count - 1 ∧
      (ms.Delete id).ms.GetByID id = (none, some Error.ErrMessageNotFound) ∧
      (ms.Delete id).ms.NextID = ms.NextID) := by
  cases hl : ms.Messages.lookup id with
  | none =>
    have hr : ms.Delete id = { ms := ms, err := some Error.ErrMessageNotFound } := by
      simp [MemoryStorage.Delete, hl]
    rw [hr]
    simp
  | some p =>
    have hr : ms.Delete id
        = { ms := { ms with Messages := ms.Messages.erase id }, err := none } := by
      simp [MemoryStorage.Delete, hl]
    rw [hr]
    have hgone : (ms.Messages.erase id).lookup id = none := AList.lookup_erase id ms.Messages
    have hlen := length_erase_of_lookup ms.Messages id p hl
    refine ⟨by simp, fun h => (by cases h),
      fun _ => ⟨rfl, hgone, fun k hk => AList.lookup_erase_ne hk, ?_, ?_, rfl⟩⟩
    · simp only [MemoryStorage.Count]
      omega
    · simp [MemoryStorage.GetByID, hgone]

/-- C27, witness: deleting message 2 of the storage with messages 1, 2 and 3
returns nil, leaves two messages, and message 2 is not found any more; deleting
message 9 returns `ErrMessageNotFound` and changes nothing. -/
theorem Delete_spec_witness :
    Example.three.Messages.lookup 2 ≠ none ∧
    Example.three.Count = 3 ∧
    (Example.three.Delete 2).err = none ∧
    (Example.three.Delete 2).ms.Count = 3 - 1 ∧
    (Example.three.Delete 2).ms.GetByID 2 = (none, some Error.ErrMessageNotFound) ∧
    (Example.three.Delete 2).ms.GetByID 3 = (some 30, none) ∧
    Example.three.Messages.lookup 9 = none ∧
    (Example.three.Delete 9).err = some Error.ErrMessageNotFound ∧
    (Example.three.Delete 9).ms = Example.three :=
  have h := Delete_spec Example.three 2
  have h9 := Delete_spec Example.three 9
  ⟨by decide, by decide, (h.2.2 (by decide)).1, (h.2.2 (by decide)).2.2.2.1,
    (h.2.2 (by decide)).2.2.2.2.1, by decide, by decide, h9.1.mpr (by decide),
    h9.2.1 (by decide)⟩

end Storage

/-! # Proofs: the users -/

namespace UserPkg

theorem utf8ByteSize_eq_zero_iff (s : String) : s.utf8ByteSize = 0 ↔ s = "" := by
  cases s with
  | mk d =>
    cases d with
    | nil => exact ⟨fun _ => rfl, fun _ => rfl⟩
    | cons c cs =>
      constructor
      · intro h
        have hpos : 0 < c.utf8Size := Char.utf8Size_pos c
        simp only [String.utf8ByteSize, String.utf8ByteSize.go] at h
        omega
      · intro h
        have := congrArg String.data h
        simp at this

/-- The loop of `IsValidEmail` once the one `@` has been read, with `d ≤ 1`
dots read since: it runs to its end if no further `@` comes and the dots stay
at most one. -/
theorem emailLoop_afterAt (l : List Char) :
    ∀ (r d : Nat), d ≤ 1 →
      emailLoop l r 1 d
        = if l.count '@' = 0 ∧ d + l.count '.' ≤ 1 then some (1, d + l.count '.') else none := by
  induction l with
  | nil =>
    intro r d hd
    simp [emailLoop, hd]
  | cons ch rest ih =>
    intro r d hd
    by_cases hat : ch = '@'
    · subst hat
      simp [emailLoop, atAfter]
    · by_cases hdot : ch = '.'
      · subst hdot
        have hne : ('@' : Char) ≠ '.' := by decide
        by_cases hd1 : d = 1
        · subst hd1
          simp [emailLoop, atAfter, dotsAfter]
        · have hd0 : d = 0 := by omega
          subst hd0
          have := ih (r + 1) 1 (Nat.le_refl 1)
          simp only [emailLoop, atAfter, dotsAfter, hat, if_false, false_and]
          simp only [ne_eq, one_ne_zero, not_false_eq_true, and_self, if_true, zero_add,
            gt_iff_lt, Nat.lt_irrefl, and_false, Nat.zero_lt_one, true_and]
          rw [this]
          simp [List.count_cons, hne, Nat.add_comm]
      · have := ih (r + 1) d hd
        have h1 : rest.count '@' = (ch :: rest).count '@' := by
          simp [List.count_cons, hat]
        have h2 : rest.count '.' = (ch :: rest).count '.' := by
          simp [List.count_cons, hdot]
        simp only [emailLoop, atAfter, dotsAfter, hat, hdot, if_false, false_and]
        rw [this, h1, h2]

/-- The loop of `IsValidEmail` from its start ends with both counters non-zero
exactly on the good lists. -/
theorem emailLoop_good (l : List Char) :
    ∀ r : Nat, (∃ a d, emailLoop l r 0 0 = some (a, d) ∧ a ≠ 0 ∧ d ≠ 0) ↔ Good l r := by
  induction l with
  | nil =>
    intro r
    constructor
    · rintro ⟨a, d, h, ha, _⟩
      simp only [emailLoop, Option.some.injEq, Prod.mk.injEq] at h
      exact absurd h.1.symm ha
    · rintro ⟨pre, post, h, _⟩
      simp at h
  | cons ch rest ih =>
    intro r
    by_cases hat : ch = '@'
    · subst hat
      by_cases hr : r = 0
      · subst hr
        constructor
        · rintro ⟨a, d, h, _⟩
          simp [emailLoop, atAfter] at h
        · rintro ⟨pre, post, h, hpre, hlen, _⟩
          cases pre with
          | nil => simp at hlen
          | cons c pre1 =>
            simp only [List.cons_append, List.cons.injEq] at h
            exact absurd (h.1 ▸ List.mem_cons_self _ _) hpre
      · have hloop : emailLoop ('@' :: rest) r 0 0 = emailLoop rest (r + 1) 1 0 := by
          simp [emailLoop, atAfter, dotsAfter, hr]
        rw [hloop, emailLoop_afterAt rest (r + 1) 0 (Nat.zero_le 1)]
        constructor
        · rintro ⟨a, d, h, _, hd⟩
          split at h
          · rename_i hc
            simp only [zero_add, Option.some.injEq, Prod.mk.injEq] at h
            refine ⟨[], rest, rfl, List.not_mem_nil _, by simpa using hr, hc.1, ?_⟩
            have := hc.2
            have hd2 : rest.count '.' ≠ 0 := by rw [h.2]; exact hd
            omega
          · cases h
        · rintro ⟨pre, post, h, hpre, _, hc1, hc2⟩
          cases pre with
          | nil =>
            simp only [List.nil_append, List.cons.injEq, true_and] at h
            subst h
            exact ⟨1, 1, by simp [hc1, hc2], by decide, by decide⟩
          | cons c pre1 =>
            simp only [List.cons_append, List.cons.injEq] at h
            exact absurd (h.1 ▸ List.mem_cons_self _ _) hpre
    · have hloop : emailLoop (ch :: rest) r 0 0 = emailLoop rest (r + 1) 0 0 := by
        simp [emailLoop, atAfter, dotsAfter, hat]
      rw [hloop, ih (r + 1)]
      constructor
      · rintro ⟨pre, post, h, hpre, _, hc1, hc2⟩
        refine ⟨ch :: pre, post, by rw [h]; rfl, ?_, by simp, hc1, hc2⟩
        intro hmem
        rcases List.mem_cons.mp hmem with h1 | h1
        · exact hat h1.symm
        · exact hpre h1
      · rintro ⟨pre, post, h, hpre, _, hc1, hc2⟩
        cases pre with
        | nil =>
          simp only [List.nil_append, List.cons.injEq] at h
          exact absurd h.1 hat
        | cons c pre1 =>
          simp only [List.cons_append, List.cons.injEq] at h
          refine ⟨pre1, post, h.2, fun hm => hpre (List.mem_cons_of_mem _ hm), by omega,
            hc1, hc2⟩

/-- C23.  `IsValidEmail(email)` is true if and only if the email contains
exactly one `@`, and splits at it into a part before that is not empty and a
part after in which exactly one dot occurs. -/
theorem IsValidEmail_iff (email : String) :
    IsValidEmail email = true ↔
      (email.data.count '@' = 1 ∧
        ∃ pre post, email.data = pre ++ '@' :: post ∧ pre ≠ [] ∧ post.count '.' = 1) := by
  have hgood : Good email.data 0 ↔
      (email.data.count '@' = 1 ∧
        ∃ pre post, email.data = pre ++ '@' :: post ∧ pre ≠ [] ∧ post.count '.' = 1) := by
    constructor
    · rintro ⟨pre, post, h, hpre, hlen, hc1, hc2⟩
      refine ⟨?_, pre, post, h, ?_, hc2⟩
      · rw [h, List.count_append, List.count_cons_self, hc1, List.count_eq_zero_of_not_mem hpre]
      · intro hnil
        subst hnil
        simp at hlen
    · rintro ⟨hcount, pre, post, h, hpre, hc2⟩
      rw [h, List.count_append, List.count_cons_self] at hcount
      refine ⟨pre, post, h, List.count_eq_zero.mp (by omega), ?_, by omega, hc2⟩
      cases pre with
      | nil => exact absurd rfl hpre
      | cons c pre1 => simp
  rw [← hgood, ← emailLoop_good email.data 0]
  unfold IsValidEmail
  by_cases hempty : email.utf8ByteSize = 0
  · have hs := (utf8ByteSize_eq_zero_iff email).mp hempty
    subst hs
    rw [if_pos hempty]
    constructor
    · intro h
      cases h
    · rintro ⟨a, d, h, ha, _⟩
      have h1 : emailLoop [] 0 0 0 = some (a, d) := h
      simp only [emailLoop, Option.some.injEq, Prod.mk.injEq] at h1
      exact absurd h1.1.symm ha
  · rw [if_neg hempty]
    cases hloop : emailLoop email.data 0 0 0 with
    | none => simp
    | some p =>
      obtain ⟨a, d⟩ := p
      by_cases ha : a = 0
      · simp [ha]
      · by_cases hd : d = 0
        · simp [hd]
        · simp only [ha, hd, or_self, if_false, true_iff]
          exact ⟨a, d, rfl, ha, hd⟩

/-- C23, witness: "al@x.io" is valid; "@x.io", "al@x", "al@x.i.o", "a@l@x.io"
and "al.x.io" are not. -/
theorem IsValidEmail_iff_witness :
    IsValidEmail "al@x.io" = true ∧
    ("al@x.io".data.count '@' = 1 ∧
      ∃ pre post, "al@x.io".data = pre ++ '@' :: post ∧ pre ≠ [] ∧ post.count '.' = 1) ∧
    IsValidEmail "@x.io" = false ∧ IsValidEmail "al@x" = false ∧
    IsValidEmail "al@x.i.o" = false ∧ IsValidEmail "a@l@x.io" = false ∧
    IsValidEmail "al.x.io" = false ∧ IsValidEmail "" = false :=
  ⟨by decide, (IsValidEmail_iff "al@x.io").mp (by decide), by decide, by decide, by decide,
    by decide, by decide, by decide⟩

/-- C24, the code at a failing input and at every input.  For the user "Al",
30, "al@x.io" `String()` returns "Al 30 al@x.io" and not the documented
"Name: Al, Age: 30, Email: al@x.io"; for every user the result is the name, the
decimal age and the email, separated by single spaces, which is 20 characters
shorter than the documented format. -/
theorem String_differs_from_documented :
    Example.al.String = "Al 30 al@x.io" ∧
    Example.al.documentedString = "Name: Al, Age: 30, Email: al@x.io" ∧
    Example.al.String ≠ Example.al.documentedString ∧
    (∀ u : User, u.String = u.Name ++ " " ++ decimal u.Age ++ " " ++ u.Email) ∧
    (∀ u : User, u.String.length + 20 = u.documentedString.length) ∧
    (∀ u : User, u.String ≠ u.documentedString) := by
  have hlen : ∀ u : User, u.String.length + 20 = u.documentedString.length := by
    intro u
    simp only [User.String, User.documentedString, String.length_append]
    have h1 : " ".length = 1 := rfl
    have h2 : "Name: ".length = 6 := rfl
    have h3 : ", Age: ".length = 7 := rfl
    have h4 : ", Email: ".length = 9 := rfl
    omega
  refine ⟨by decide, by decide, by decide, ?_, hlen, ?_⟩
  · intro u
    simp [User.String, String.append_assoc]
  · intro u h
    have := hlen u
    rw [h] at this
    omega

/-- C25, the code at a failing input and at every input.  `IsValidAge(30)`
returns false although 30 is between 0 and 150: the function returns false for
every age. -/
theorem IsValidAge_always_false :
    IsValidAge 30 = false ∧ ((0 : Int) ≤ 30 ∧ (30 : Int) ≤ 150) ∧
    (∀ age : Int, IsValidAge age = false) :=
  ⟨rfl, by decide, fun _ => rfl⟩

/-- What `Validate` checks: it returns nil if and only if the name is not
empty, the age is between 0 and 150 and the email is valid; an empty name is
reported first, then an age out of range, then an invalid email. -/
theorem Validate_iff (u : User) :
    (u.Validate = none ↔ (u.Name ≠ "" ∧ (0 ≤ u.Age ∧ u.Age ≤ 150) ∧ IsValidEmail u.Email = true)) ∧
    (u.Name = "" → u.Validate = some Error.ErrEmptyName) ∧
    (u.Name ≠ "" → (u.Age < 0 ∨ 150 < u.Age) → u.Validate = some Error.ErrInvalidAge) ∧
    (u.Name ≠ "" → (0 ≤ u.Age ∧ u.Age ≤ 150) → IsValidEmail u.Email = false →
      u.Validate = some Error.ErrInvalidEmail) := by
  have hname := utf8ByteSize_eq_zero_iff u.Name
  by_cases hn : u.Name = ""
  · have h0 : u.Name.utf8ByteSize = 0 := hname.mpr hn
    have hv : u.Validate = some Error.ErrEmptyName := by
      simp [User.Validate, h0]
    rw [hv]
    exact ⟨⟨fun h => (by cases h), fun h => absurd hn h.1⟩, fun _ => rfl,
      fun h => absurd hn h, fun h => absurd hn h⟩
  · have h0 : ¬ u.Name.utf8ByteSize = 0 := fun h => hn (hname.mp h)
    by_cases ha : u.Age < 0 ∨ u.Age > 150
    · have hv : u.Validate = some Error.ErrInvalidAge := by
        simp [User.Validate, h0, ha]
      rw [hv]
      refine ⟨⟨fun h => (by cases h), fun h => ?_⟩, fun h => absurd h hn,
        fun _ _ => rfl, fun _ hr => ?_⟩
      · have := h.2.1
        rcases ha with ha | ha <;> omega
      · rcases ha with ha | ha <;> omega
    · have hr : 0 ≤ u.Age ∧ u.Age ≤ 150 := by
        constructor <;> omega
      by_cases he : IsValidEmail u.Email = true
      · have hv : u.Validate = none := by
          simp [User.Validate, h0, ha, he]
        rw [hv]
        refine ⟨⟨fun _ => ⟨hn, hr, he⟩, fun _ => rfl⟩, fun h => absurd h hn,
          fun _ h => ?_, fun _ _ h => ?_⟩
        · rcases h with h | h <;> omega
        · rw [he] at h
          cases h
      · have hv : u.Validate = some Error.ErrInvalidEmail := by
          simp [User.Validate, h0, ha, he]
        rw [hv]
        refine ⟨⟨fun h => (by cases h), fun h => absurd h.2.2 he⟩, fun h => absurd h hn,
          fun _ h => ?_, fun _ _ _ => rfl⟩
        rcases h with h | h <;> omega

/-- C26, the code at a failing input.  The name of the user has 31
characters, more than the 30 that the text of `ErrInvalidName` allows; the age
and the email are valid; and `Validate` returns the nil error. -/
theorem Validate_accepts_long_name :
    Example.longName.Name.length = 31 ∧
    Example.longName.Validate = none ∧
    ¬ Example.longName.Admissible ∧
    Error.ErrInvalidName.text = "invalid name: must be between 1 and 30 characters" := by
  refine ⟨by decide, by decide, ?_, rfl⟩
  rintro ⟨⟨_, h⟩, _⟩
  have : Example.longName.Name.length = 31 := by decide
  omega

end UserPkg

/-! # Proofs: the passwords -/

namespace Security

theorem foldl_count (ch : Char) (l : List Char) :
    ∀ n : Nat, l.foldl (fun cnt cur => if cur = ch then cnt + 1 else cnt) n = n + l.count ch := by
  induction l with
  | nil => intro n; rfl
  | cons c rest ih =>
    intro n
    by_cases hc : c = ch
    · subst hc
      simp only [List.foldl_cons, if_true, List.count_cons_self]
      rw [ih]
      omega
    · have hne : ¬ (c == ch) = true := by simpa using hc
      simp only [List.foldl_cons, hc, if_false, List.count_cons, hne]
      rw [ih]
      rfl

/-- `StrCount` counts the occurrences of a character. -/
theorem StrCount_eq_count (src : String) (ch : Char) : StrCount src ch = src.data.count ch := by
  unfold StrCount
  rw [foldl_count]
  omega

theorem foldl_flag (password : String) (l : List Char) :
    ∀ flag : Bool,
      l.foldl (fun flag ch => if StrCount password ch > 0 then true else flag) flag = true ↔
        (flag = true ∨ ∃ ch ∈ l, ch ∈ password.data) := by
  induction l with
  | nil => intro flag; simp
  | cons c rest ih =>
    intro flag
    simp only [List.foldl_cons]
    rw [ih]
    have hc : StrCount password c > 0 ↔ c ∈ password.data := by
      rw [StrCount_eq_count]
      exact List.count_pos_iff
    by_cases hmem : c ∈ password.data
    · simp [hc.mpr hmem, hmem]
    · have hn : ¬ StrCount password c > 0 := fun h => hmem (hc.mp h)
      simp [hn, hmem]

/-- The flag of a loop of `ValidatePassword` is set exactly when a character of
the set occurs in the password. -/
theorem containsAny_iff (password set : String) :
    containsAny password set = true ↔ ∃ ch ∈ set.data, ch ∈ password.data := by
  unfold containsAny
  rw [foldl_flag]
  simp

theorem char_le_iff (c d : Char) : c ≤ d ↔ c.toNat ≤ d.toNat :=
  Iff.rfl

/-- The characters of `lettersStr` are the letters `a`-`z` and `A`-`Z`. -/
theorem mem_lettersStr (c : Char) : c ∈ lettersStr.data ↔ isLetter c = true := by
  constructor
  · intro h
    have hall : lettersStr.data.all isLetter = true := by decide
    exact List.all_eq_true.mp hall c h
  · intro h
    have hc : c = Char.ofNat c.toNat := (Char.ofNat_toNat c).symm
    simp only [isLetter, Bool.or_eq_true, Bool.and_eq_true, decide_eq_true_eq, char_le_iff] at h
    have ha : ('a' : Char).toNat = 97 := rfl
    have hz : ('z' : Char).toNat = 122 := rfl
    have hA : ('A' : Char).toNat = 65 := rfl
    have hZ : ('Z' : Char).toNat = 90 := rfl
    rw [ha, hz, hA, hZ] at h
    generalize c.toNat = n at hc h
    subst hc
    rcases h with ⟨h1, h2⟩ | ⟨h1, h2⟩
    · interval_cases n <;> decide
    · interval_cases n <;> decide

/-- The characters of `digitsStr` are the digits `0`-`9`. -/
theorem mem_digitsStr (c : Char) : c ∈ digitsStr.data ↔ isDigit c = true := by
  constructor
  · intro h
    have hall : digitsStr.data.all isDigit = true := by decide
    exact List.all_eq_true.mp hall c h
  · intro h
    have hc : c = Char.ofNat c.toNat := (Char.ofNat_toNat c).symm
    simp only [isDigit, Bool.and_eq_true, decide_eq_true_eq, char_le_iff] at h
    have h0 : ('0' : Char).toNat = 48 := rfl
    have h9 : ('9' : Char).toNat = 57 := rfl
    rw [h0, h9] at h
    generalize c.toNat = n at hc h
    subst hc
    obtain ⟨h1, h2⟩ := h
    interval_cases n <;> decide

/-- What `ValidatePassword` checks: it returns the nil error if and only if
the password has at least 6 bytes in UTF-8 and contains a letter `a`-`z` or
`A`-`Z` and a digit `0`-`9`. -/
theorem ValidatePassword_iff (password : String) :
    ValidatePassword password = none ↔
      (6 ≤ password.utf8ByteSize ∧ (∃ c ∈ password.data, isLetter c = true) ∧
        (∃ c ∈ password.data, isDigit c = true)) := by
  have hL : containsAny password lettersStr = true ↔ ∃ c ∈ password.data, isLetter c = true := by
    rw [containsAny_iff]
    constructor
    · rintro ⟨c, hc, hp⟩
      exact ⟨c, hp, (mem_lettersStr c).mp hc⟩
    · rintro ⟨c, hp, hc⟩
      exact ⟨c, (mem_lettersStr c).mpr hc, hp⟩
  have hD : containsAny password digitsStr = true ↔ ∃ c ∈ password.data, isDigit c = true := by
    rw [containsAny_iff]
    constructor
    · rintro ⟨c, hc, hp⟩
      exact ⟨c, hp, (mem_digitsStr c).mp hc⟩
    · rintro ⟨c, hp, hc⟩
      exact ⟨c, (mem_digitsStr c).mpr hc, hp⟩
  rw [← hL, ← hD]
  unfold ValidatePassword
  by_cases hlen : password.utf8ByteSize < minPasswordLength
  · have h6 : ¬ 6 ≤ password.utf8ByteSize := by
      unfold minPasswordLength at hlen
      omega
    simp [hlen, h6]
  · have h6 : 6 ≤ password.utf8ByteSize := by
      unfold minPasswordLength at hlen
      omega
    cases h1 : containsAny password lettersStr <;> cases h2 : containsAny password digitsStr <;>
      simp [hlen, h6]

/-- C28, the code at a failing input.  The password "a1ééé" has 5 characters,
fewer than 6, and 8 bytes in UTF-8; it contains a letter and a digit; and
`ValidatePassword` returns the nil error, because `len(password)` counts
bytes. -/
theorem ValidatePassword_counts_bytes :
    Example.short.length = 5 ∧ Example.short.utf8ByteSize = 8 ∧
    ValidatePassword Example.short = none ∧
    ¬ Acceptable Example.short ∧
    ValidatePassword "a1b2c" = some "password should be at least 6 characters in length" := by
  refine ⟨by decide, by decide, ?_, ?_, by decide⟩
  · exact (ValidatePassword_iff Example.short).mpr
      ⟨by decide, ⟨'a', by decide, by decide⟩, ⟨'1', by decide, by decide⟩⟩
  · rintro ⟨h, _⟩
    have : Example.short.length = 5 := by decide
    omega

end Security
